import Mathlib

/-! # Calculator-Parser: lexer, precedence-climbing parser and evaluator

A shallow embedding of `src/main.cpp`.  Token values are exact rationals in
place of `double`; rounding to binary64 is not modelled.  The two ways the
C++ program can stop without a result are kept apart: `std::out_of_range`
thrown by `vector::at`, and a loop that never ends (the model runs out of
fuel at every budget).
-/

namespace Calc

/-- The enum `Token_type`, in declaration order (`none = 0`). -/
inductive Token_type
  | none
  | number
  | plus
  | minus
  | multiply
  | divide
  | power
  | left_parenthesis
  | right_parenthesis
  deriving DecidableEq, Repr

/-- The integer value of an enumerator, used by the range test of
`get_precendene`. -/
def Token_type.toNat : Token_type → Nat
  | .none => 0
  | .number => 1
  | .plus => 2
  | .minus => 3
  | .multiply => 4
  | .divide => 5
  | .power => 6
  | .left_parenthesis => 7
  | .right_parenthesis => 8

/-- The struct `Token`: a kind and a value (meaningful for numbers only). -/
structure Token where
  type : Token_type
  value : ℚ
  deriving DecidableEq, Repr

/-- The expression tree.  `NULL` is the null pointer that `Parser::value`
returns on a grammar violation and that may end up as a child. -/
inductive Node
  | NULL
  | ValueNode (value : ℚ)
  | BinaryNode (left : Node) (op : Token_type) (right : Node)
  deriving DecidableEq, Repr

/-- Outcome of running a piece of the program with a fuel budget. -/
inductive Result (α : Type)
  | ok (a : α)
  | out_of_range
  | out_of_fuel
  deriving DecidableEq, Repr

/-- Sequencing of outcomes: the first failure wins. -/
def Result.bind {α β : Type} (r : Result α) (k : α → Result β) : Result β :=
  match r with
  | .ok a => k a
  | .out_of_range => .out_of_range
  | .out_of_fuel => .out_of_fuel

instance : Monad Result where
  pure := Result.ok
  bind := Result.bind

/-- The mutable fields of `struct Parser` that parsing reads and writes
(`lexer.tokens`, `token_loc`, `current_token`, `error`). -/
structure Parser where
  tokens : List Token
  token_loc : Nat
  current_token : Token
  error : Bool
  deriving DecidableEq, Repr

/-- The guard `token_loc < lexer.tokens.size() - 1`.  The subtraction is
unsigned: for an empty vector it wraps to `SIZE_MAX` and the guard holds. -/
def Parser.not_at_last (s : Parser) : Prop :=
  s.tokens.length = 0 ∨ s.token_loc + 1 < s.tokens.length

instance (s : Parser) : Decidable s.not_at_last := by
  unfold Parser.not_at_last; exact inferInstance

/-- `vector::at`: throws `std::out_of_range` outside the vector. -/
def at_index (tokens : List Token) (i : Nat) : Result Token :=
  match tokens[i]? with
  | some t => .ok t
  | Option.none => .out_of_range

/-- `Parser::peek_next_token`. -/
def Parser.peek_next_token (s : Parser) : Result Token :=
  if s.not_at_last then at_index s.tokens (s.token_loc + 1)
  else .ok ⟨Token_type.none, 0⟩

/-- `Parser::advance_token`: the cursor does not move past the last token. -/
def Parser.advance_token (s : Parser) : Result Parser :=
  if s.not_at_last then do
    let t ← at_index s.tokens (s.token_loc + 1)
    return { s with token_loc := s.token_loc + 1, current_token := t }
  else .ok s

/-- The map `operator_precedence`. -/
def operator_precedence : Token_type → Option Int
  | .plus => some 0
  | .minus => some 1
  | .multiply => some 2
  | .divide => some 3
  | .power => some 4
  | _ => Option.none

/-- `Parser::get_precendene`: the table value for an operator token, `-1`
for every other token.  The map lookup cannot miss after the range test. -/
def get_precendene (t : Token) : Int :=
  if t.type.toNat < Token_type.plus.toNat ∨ t.type.toNat > Token_type.power.toNat then -1
  else
    match operator_precedence t.type with
    | some p => p
    | Option.none => -1

mutual

/-- `Parser::expression`: `auto current = current_token;` then the outer
`while`. -/
def Parser.expression : Nat → Node → Int → Parser → Result (Node × Parser)
  | 0, _, _, _ => .out_of_fuel
  | fuel + 1, lhs, min_precedence, s =>
    Parser.expression_outer fuel lhs min_precedence s.current_token s

/-- The outer `while` of `Parser::expression`, one iteration per call. -/
def Parser.expression_outer : Nat → Node → Int → Token → Parser → Result (Node × Parser)
  | 0, _, _, _, _ => .out_of_fuel
  | fuel + 1, lhs, min_precedence, current, s =>
    if get_precendene current ≥ min_precedence then do
      let op := current
      let s1 ← s.advance_token
      let (rhs, s2) ← Parser.value fuel s1
      let (rhs', current', s3) ← Parser.expression_inner fuel rhs op s2.current_token s2
      Parser.expression_outer fuel (Node.BinaryNode lhs op.type rhs') min_precedence current' s3
    else .ok (lhs, s)

/-- The inner `while` of `Parser::expression`; it hands back `rhs`, the
local `current` and the parser state. -/
def Parser.expression_inner : Nat → Node → Token → Token → Parser →
    Result (Node × Token × Parser)
  | 0, _, _, _, _ => .out_of_fuel
  | fuel + 1, rhs, op, current, s =>
    if get_precendene current > get_precendene op then do
      let (rhs', s1) ← Parser.expression fuel rhs
        (get_precendene op + (if get_precendene current > get_precendene op then 1 else 0)) s
      Parser.expression_inner fuel rhs' op s1.current_token s1
    else .ok (rhs, current, s)

/-- `Parser::value`.  Every path that does not return a node falls through
to `error = true; return NULL;`. -/
def Parser.value : Nat → Parser → Result (Node × Parser)
  | 0, _ => .out_of_fuel
  | fuel + 1, s =>
    let t := s.current_token
    if t.type = Token_type.number then do
      let s1 ← s.advance_token
      return (Node.ValueNode t.value, s1)
    else if t.type = Token_type.minus then do
      let t' ← s.peek_next_token
      if t'.type = Token_type.number then do
        let s1 ← s.advance_token
        let s2 ← s1.advance_token
        return (Node.ValueNode (-t'.value), s2)
      else return (Node.NULL, { s with error := true })
    else if t.type = Token_type.left_parenthesis then do
      let s1 ← s.advance_token
      let (n0, s2) ← Parser.value fuel s1
      let (n, s3) ← Parser.expression fuel n0 0 s2
      if s3.current_token.type = Token_type.right_parenthesis then do
        let s4 ← s3.advance_token
        return (n, s4)
      else return (Node.NULL, { s3 with error := true })
    else return (Node.NULL, { s with error := true })

end

/-- The constructor `Parser::Parser`: `tokens.at(0)` throws on an empty
vector; otherwise `tree = expression(value(), 0)`.  The result is the tree
with the final parser state (whose `error` field is the error flag). -/
def Parser.ctor (fuel : Nat) (tokens : List Token) : Result (Node × Parser) := do
  let t0 ← at_index tokens 0
  let s : Parser := { tokens := tokens, token_loc := 0, current_token := t0, error := false }
  let (n0, s1) ← Parser.value fuel s
  Parser.expression fuel n0 0 s1

/-! ## The grammar of the specification

`expression := value (binop value)*`,
`value := Number | '-' Number | '(' expression ')'`.
A derivation records the `value` field of every token as well, since the
lexer leaves it unset on operators and parentheses. -/

/-- The five binary operators of `binop`. -/
inductive BinOp
  | plus
  | minus
  | multiply
  | divide
  | power
  deriving DecidableEq, Repr

/-- The token kind of a binary operator. -/
def BinOp.type : BinOp → Token_type
  | .plus => Token_type.plus
  | .minus => Token_type.minus
  | .multiply => Token_type.multiply
  | .divide => Token_type.divide
  | .power => Token_type.power

/-- The precedence table of the specification. -/
def BinOp.prec : BinOp → Int
  | .plus => 0
  | .minus => 1
  | .multiply => 2
  | .divide => 3
  | .power => 4

/-- A derivation of `value`.  `paren j1 first rest j2` is
`'(' first (binop value)* ')'`; the `j`s are the unread `value` fields of
the punctuation tokens. -/
inductive Val
  | num (v : ℚ)
  | neg (j : ℚ) (v : ℚ)
  | paren (j1 : ℚ) (first : Val) (rest : List (BinOp × ℚ × Val)) (j2 : ℚ)

/-- One `binop value` step of an expression: operator, the operator token's
unread `value` field, operand. -/
abbrev Item := BinOp × ℚ × Val

mutual

/-- The token sequence a `value` derivation derives. -/
def Val.tokens : Val → List Token
  | .num v => [⟨Token_type.number, v⟩]
  | .neg j v => [⟨Token_type.minus, j⟩, ⟨Token_type.number, v⟩]
  | .paren j1 first rest j2 =>
    ⟨Token_type.left_parenthesis, j1⟩ ::
      (first.tokens ++ (itemsTokens rest ++ [⟨Token_type.right_parenthesis, j2⟩]))

/-- The token sequence of `(binop value)*`. -/
def itemsTokens : List (BinOp × ℚ × Val) → List Token
  | [] => []
  | (op, j, v) :: rest => ⟨op.type, j⟩ :: (v.tokens ++ itemsTokens rest)

end

/-- The token sequence of the expression `first (binop value)*`. -/
def exprTokens (first : Val) (rest : List Item) : List Token :=
  first.tokens ++ itemsTokens rest

mutual

/-- Number of tokens under a derivation (the measure of the inductions). -/
def Val.size : Val → Nat
  | .num _ => 1
  | .neg _ _ => 2
  | .paren _ first rest _ => 2 + first.size + itemsSize rest

/-- Number of tokens of `(binop value)*`. -/
def itemsSize : List (BinOp × ℚ × Val) → Nat
  | [] => 0
  | (_, _, v) :: rest => 1 + v.size + itemsSize rest

end

/-- Precedence climbing over the flat list `(binop value)*`, operands
already turned into trees by `tv`: fold in every leading operator of
precedence at least `min_precedence`, letting each operator's right operand
absorb the operators that bind tighter.  Returns the tree and the items left
over.  `fuel` bounds the recursion depth; the list length plus one is
enough. -/
def climb {α : Type} (tv : α → Node) :
    Nat → Node → Int → List (BinOp × ℚ × α) → Node × List (BinOp × ℚ × α)
  | 0, lhs, _, items => (lhs, items)
  | _ + 1, lhs, _, [] => (lhs, [])
  | fuel + 1, lhs, min_precedence, (op, j, v) :: rest =>
    if op.prec < min_precedence then (lhs, (op, j, v) :: rest)
    else
      let r := climb tv fuel (tv v) (op.prec + 1) rest
      climb tv fuel (Node.BinaryNode lhs op.type r.1) min_precedence r.2

mutual

/-- The tree the specification assigns to a `value` derivation: a literal,
a negated literal, or the tree of the parenthesised expression. -/
def Val.tree : Val → Node
  | .num v => Node.ValueNode v
  | .neg _ v => Node.ValueNode (-v)
  | .paren _ first rest _ =>
    (climb id (rest.length + 1) first.tree 0 (itemsTrees rest)).1

/-- The operands of `(binop value)*` turned into trees. -/
def itemsTrees : List (BinOp × ℚ × Val) → List (BinOp × ℚ × Node)
  | [] => []
  | (op, j, v) :: rest => (op, j, v.tree) :: itemsTrees rest

end

/-- The tree of the expression `first (binop value)*`. -/
def exprTree (first : Val) (rest : List Item) : Node :=
  (climb id (rest.length + 1) first.tree 0 (itemsTrees rest)).1

/-- The parser state whose cursor stands at logical position `p` of
`tokens`: the cursor never leaves the vector, so a position at or past the
end is the last token. -/
def stateAt (tokens : List Token) (p : Nat) (err : Bool) : Parser :=
  { tokens := tokens
    token_loc := min p (tokens.length - 1)
    current_token := tokens.getD (min p (tokens.length - 1)) ⟨Token_type.none, 0⟩
    error := err }

/-- Precedence climbing with the fuel the list needs. -/
def climbFull {α : Type} (tv : α → Node) (lhs : Node) (m : Int) (L : List (BinOp × ℚ × α)) :
    Node × List (BinOp × ℚ × α) :=
  climb tv (L.length + 1) lhs m L

/-- What `Parser::value` has to do on the tokens of the derivation `v`,
wherever they stand in the token vector: return the tree of `v`, leave the
cursor just behind them and leave the error flag as it was. -/
def ValueOK (v : Val) : Prop :=
  ∀ (ts pre post : List Token) (err : Bool), ts = pre ++ (v.tokens ++ post) →
    ∃ F, Parser.value F (stateAt ts pre.length err) =
      Result.ok (v.tree, stateAt ts (pre.length + v.tokens.length) err)

/-! ## The evaluator -/

/-- Outcome of `Node::execute` in exact arithmetic.  `undefined`: the
operation has no rational result (division by zero, a power outside the
rationals); the C++ program goes on with an infinity or a NaN there, which
this model does not follow.  `fault`: a null pointer is dereferenced, or
control leaves the `switch` of `BinaryNode::execute` without a `return`. -/
inductive Exec
  | value (q : ℚ)
  | undefined
  | fault
  deriving DecidableEq, Repr

/-- A binary arithmetic step on two evaluated operands. -/
def Exec.arith (f : ℚ → ℚ → Option ℚ) : Exec → Exec → Exec
  | .fault, _ => .fault
  | _, .fault => .fault
  | .value a, .value b =>
    match f a b with
    | some q => .value q
    | Option.none => .undefined
  | _, _ => .undefined

/-- `Node::execute` for the three node shapes.  `pow` is `std::pow` read
over the rationals. -/
def Node.execute (pow : ℚ → ℚ → Option ℚ) : Node → Exec
  | .NULL => Exec.fault
  | .ValueNode v => Exec.value v
  | .BinaryNode l op r =>
    match op with
    | .plus => Exec.arith (fun a b => some (a + b)) (l.execute pow) (r.execute pow)
    | .minus => Exec.arith (fun a b => some (a - b)) (l.execute pow) (r.execute pow)
    | .multiply => Exec.arith (fun a b => some (a * b)) (l.execute pow) (r.execute pow)
    | .divide =>
      Exec.arith (fun a b => if b = 0 then Option.none else some (a / b))
        (l.execute pow) (r.execute pow)
    | .power => Exec.arith pow (l.execute pow) (r.execute pow)
    | _ => Exec.fault

/-- `Parser::run` on the constructed parser: nothing is returned when the
error flag is set. -/
def Parser.run (pow : ℚ → ℚ → Option ℚ) (tree : Node) (s : Parser) : Exec :=
  if ¬ s.error then tree.execute pow else Exec.fault

/-- A tree the evaluator can walk: no null pointer, every operator one of
the five `case`s. -/
def Node.proper : Node → Bool
  | .NULL => false
  | .ValueNode _ => true
  | .BinaryNode l op r =>
    l.proper && r.proper &&
      (op = Token_type.plus || op = Token_type.minus || op = Token_type.multiply ||
        op = Token_type.divide || op = Token_type.power)

/-! ## The lexer -/

/-- `is_number`. -/
def is_number (c : Char) : Bool :=
  decide ('0' ≤ c) && decide (c ≤ '9')

/-- `is_hex`. -/
def is_hex (c : Char) : Bool :=
  is_number c || ((decide ('a' ≤ c) && decide (c ≤ 'f')) || (decide ('A' ≤ c) && decide (c ≤ 'F')))

/-- The fields of `struct Lexer`.  `expression` is the input, one `Char`
per `char`. -/
structure Lexer where
  tokens : List Token
  expression : List Char
  loc : Nat
  start : Nat
  current : Char
  deriving DecidableEq, Repr

/-- `Lexer::peek`. -/
def Lexer.peek (l : Lexer) : Char :=
  if l.loc + 1 < l.expression.length then l.expression.getD (l.loc + 1) '\x00'
  else '\x00'

/-- `Lexer::advance` (the out-of-bounds branch only prints). -/
def Lexer.advance (l : Lexer) : Lexer :=
  if l.loc + 1 < l.expression.length then
    { l with loc := l.loc + 1, current := l.expression.getD (l.loc + 1) '\x00' }
  else l

/-- `Lexer::peek_and_advance`. -/
def Lexer.peek_and_advance (l : Lexer) (c : Char) : Bool × Lexer :=
  if ¬ (l.loc + 1 < l.expression.length) then (false, l)
  else if l.peek = c then (true, l.advance)
  else (false, l)

/-- The loops `while (loc + 1 < size && (p(peek()) || peek() == '.')) advance();`.
Each round moves `loc`, so `expression.length` rounds are enough. -/
def Lexer.advance_while (p : Char → Bool) : Nat → Lexer → Lexer
  | 0, l => l
  | fuel + 1, l =>
    if l.loc + 1 < l.expression.length ∧ (p l.peek = true ∨ l.peek = '.') then
      Lexer.advance_while p fuel l.advance
    else l

/-- `expression.substr(start, loc - start + 1)`. -/
def Lexer.substr (l : Lexer) : List Char :=
  (l.expression.drop l.start).take (l.loc - l.start + 1)

/-- The value of one hexadecimal digit. -/
def hex_digit (c : Char) : Nat :=
  if is_number c then c.toNat - '0'.toNat
  else if decide ('a' ≤ c) && decide (c ≤ 'f') then c.toNat - 'a'.toNat + 10
  else c.toNat - 'A'.toNat + 10

/-- The number written by a run of digits in base `b`, most significant
first. -/
def digits_value (b : Nat) (digit : Char → Nat) (cs : List Char) : Nat :=
  cs.foldl (fun acc c => acc * b + digit c) 0

/-- `std::stringstream(s) >> std::hex >> decnum` for an `int decnum`, on a
string that starts with a hex digit: the leading hex digits are read, and
a value that does not fit is stored as `INT_MAX`. -/
def hex_to_int (cs : List Char) : Int :=
  min (digits_value 16 hex_digit (cs.takeWhile is_hex) : Int) (2 ^ 31 - 1)

/-- `atof` on a string of digits and dots that starts with a digit: the
leading `digits [ '.' digits ]`, as an exact rational. -/
def atof (cs : List Char) : ℚ :=
  let int_part := cs.takeWhile is_number
  let after := cs.dropWhile is_number
  let frac_part :=
    match after with
    | '.' :: more => more.takeWhile is_number
    | _ => []
  (digits_value 10 (fun c => c.toNat - '0'.toNat) int_part : ℚ) +
    (digits_value 10 (fun c => c.toNat - '0'.toNat) frac_part : ℚ) / (10 : ℚ) ^ frac_part.length

/-- The `for` loop of the constructor `Lexer::Lexer`, one character position
per round.  Only `' '` is skipped: a `char` never equals the two-character
constants `'/t'` and `'/n'` it is also compared with.  `junk n` is the indeterminate content of the uninitialised
`Token t` declared in the round that starts at position `n`.  The result
carries `true` when the constructor returned early after printing
`Error: Hexadecimal must have a number after it.` -/
def Lexer.scan (junk : Nat → Token) : Nat → Lexer → Result (Lexer × Bool)
  | 0, _ => .out_of_fuel
  | fuel + 1, l0 =>
    if l0.loc < l0.expression.length then
      let current := l0.expression.getD l0.loc '\x00'
      let l : Lexer := { l0 with current := current, start := l0.loc }
      let t : Token := junk l0.loc
      let push (l' : Lexer) (t' : Token) : Result (Lexer × Bool) :=
        Lexer.scan junk fuel { l' with tokens := l'.tokens ++ [t'], loc := l'.loc + 1 }
      if current = '(' then push l { t with type := Token_type.left_parenthesis }
      else if current = ')' then push l { t with type := Token_type.right_parenthesis }
      else if current = '+' then push l { t with type := Token_type.plus }
      else if current = '-' then push l { t with type := Token_type.minus }
      else if current = '*' then push l { t with type := Token_type.multiply }
      else if current = '/' then push l { t with type := Token_type.divide }
      else if current = '^' then push l { t with type := Token_type.power }
      else if current = ' ' then
        Lexer.scan junk fuel { l with loc := l.loc + 1 }
      else
        let pa := if current = '0' then l.peek_and_advance 'x' else (false, l)
        if pa.1 then
          let l1 := pa.2
          if is_hex l1.peek then
            let l2 := l1.advance
            let l3 : Lexer := { l2 with start := l2.loc }
            let l4 := Lexer.advance_while is_hex l3.expression.length l3
            push l4 ⟨Token_type.number, (hex_to_int l4.substr : ℚ)⟩
          else .ok (l1, true)
        else if is_number current then
          let l1 := Lexer.advance_while is_number l.expression.length l
          push l1 ⟨Token_type.number, atof l1.substr⟩
        else push l t
    else .ok (l0, false)

/-- The constructor `Lexer::Lexer(e)`. -/
def Lexer.ctor (junk : Nat → Token) (e : List Char) : Result (Lexer × Bool) :=
  Lexer.scan junk (e.length + 1)
    { tokens := [], expression := e, loc := 0, start := 0, current := '\x00' }

/-- What `calculate` writes after `And the Answer is: `. -/
inductive Output
  | printed (answer : Exec)
  | nothing
  deriving DecidableEq, Repr

/-- `calculate`: lex, parse whatever tokens the lexer holds, and print the
value unless the parser's error flag is set. -/
def calculate (pow : ℚ → ℚ → Option ℚ) (junk : Nat → Token) (fuel : Nat) (e : List Char) :
    Result Output := do
  let (lexer, _) ← Lexer.ctor junk e
  let (tree, parser) ← Parser.ctor fuel lexer.tokens
  if parser.error then return Output.nothing
  else return Output.printed (Parser.run pow tree parser)

/-! ## The conventional reading of `+ - * /`

The reference for the order of operations: `+` and `-` share one
precedence level, `*` and `/` share a higher one, and every operator groups
to the left.  An expression is a sum of terms; a term is a product of
values. -/

/-- The operators of the lower level, `+` and `-`. -/
def BinOp.additive : BinOp → Bool
  | .plus => true
  | .minus => true
  | _ => false

/-- The conventional parse, reading `(binop value)*` left to right with a
finished sum `sum`, the pending additive operator `pending` and the term
`term` being built: `*` and `/` extend the term, `+` and `-` close it.
(`^` is outside the comparison; it is read like `*`.) -/
def conventional_sum {α : Type} (tv : α → Node) :
    Node → BinOp → Node → List (BinOp × ℚ × α) → Node
  | sum, pending, term, [] => Node.BinaryNode sum pending.type term
  | sum, pending, term, (op, _, v) :: rest =>
    if op.additive then
      conventional_sum tv (Node.BinaryNode sum pending.type term) op (tv v) rest
    else conventional_sum tv sum pending (Node.BinaryNode term op.type (tv v)) rest

/-- The conventional parse before the first `+` or `-`: only a term so
far. -/
def conventional_start {α : Type} (tv : α → Node) : Node → List (BinOp × ℚ × α) → Node
  | term, [] => term
  | term, (op, _, v) :: rest =>
    if op.additive then conventional_sum tv term op (tv v) rest
    else conventional_start tv (Node.BinaryNode term op.type (tv v)) rest

mutual

/-- The conventional tree of a `value` derivation. -/
def Val.conventional : Val → Node
  | .num v => Node.ValueNode v
  | .neg _ v => Node.ValueNode (-v)
  | .paren _ first rest _ =>
    conventional_start id first.conventional (itemsConventional rest)

/-- The operands of `(binop value)*` as conventional trees. -/
def itemsConventional : List (BinOp × ℚ × Val) → List (BinOp × ℚ × Node)
  | [] => []
  | (op, j, v) :: rest => (op, j, v.conventional) :: itemsConventional rest

end

/-- The conventional tree of the expression `first (binop value)*`. -/
def exprConventional (first : Val) (rest : List Item) : Node :=
  conventional_start id first.conventional (itemsConventional rest)

mutual

/-- No `^` anywhere in a `value` derivation. -/
def Val.no_power : Val → Bool
  | .num _ => true
  | .neg _ _ => true
  | .paren _ first rest _ => first.no_power && itemsNoPower rest

/-- No `^` anywhere in `(binop value)*`. -/
def itemsNoPower : List (BinOp × ℚ × Val) → Bool
  | [] => true
  | (op, _, v) :: rest => decide (op ≠ BinOp.power) && v.no_power && itemsNoPower rest

end

/-! ## Evaluation of `+ - * /` trees, split into value and definedness -/

/-- The value of a tree with every division total (`x / 0 = 0`). -/
def Node.total : Node → ℚ
  | .NULL => 0
  | .ValueNode v => v
  | .BinaryNode l op r =>
    match op with
    | .plus => l.total + r.total
    | .minus => l.total - r.total
    | .multiply => l.total * r.total
    | .divide => l.total / r.total
    | _ => 0

/-- No division by zero anywhere in the tree. -/
def Node.defined : Node → Bool
  | .NULL => true
  | .ValueNode _ => true
  | .BinaryNode l op r =>
    l.defined && r.defined && (op ≠ Token_type.divide || decide (r.total ≠ 0))

/-- A tree of literals and `+ - * /` only. -/
def Node.arithmetic : Node → Bool
  | .NULL => false
  | .ValueNode _ => true
  | .BinaryNode l op r =>
    l.arithmetic && r.arithmetic &&
      (op = Token_type.plus || op = Token_type.minus || op = Token_type.multiply ||
        op = Token_type.divide)

/-- One step of evaluating `(binop value)*` left to right the conventional
way, on the pair (finished sum, signed term being built). -/
def conv_step (p : ℚ × ℚ) (x : BinOp × ℚ) : ℚ × ℚ :=
  match x.1 with
  | .plus => (p.1 + p.2, x.2)
  | .minus => (p.1 + p.2, -x.2)
  | .multiply => (p.1, p.2 * x.2)
  | .divide => (p.1, p.2 / x.2)
  | .power => p

/-- The conventional value of `a (binop value)*`, operands given by value. -/
def conv_value (a : ℚ) (S : List (BinOp × ℚ)) : ℚ :=
  (S.foldl conv_step (0, a)).1 + (S.foldl conv_step (0, a)).2

/-- The total arithmetic of one operator. -/
def BinOp.apply (op : BinOp) (a b : ℚ) : ℚ :=
  match op with
  | .plus => a + b
  | .minus => a - b
  | .multiply => a * b
  | .divide => a / b
  | .power => 0

/-- The operand values of `(binop value)*`. -/
def item_values {α : Type} (tv : α → Node) (L : List (BinOp × ℚ × α)) : List (BinOp × ℚ) :=
  L.map (fun x => (x.1, (tv x.2.2).total))

/-- Every operand is defined and no divisor is zero. -/
def items_defined {α : Type} (tv : α → Node) (L : List (BinOp × ℚ × α)) : Prop :=
  ∀ x ∈ L, (tv x.2.2).defined = true ∧ (x.1 = BinOp.divide → (tv x.2.2).total ≠ 0)

/-! ## Invariants of the parser -/

/-- Every `BinaryNode` of the tree carries one of the five operators (null
pointers are allowed here). -/
def Node.ops_valid : Node → Bool
  | .NULL => true
  | .ValueNode _ => true
  | .BinaryNode l op r =>
    l.ops_valid && r.ops_valid &&
      (op = Token_type.plus || op = Token_type.minus || op = Token_type.multiply ||
        op = Token_type.divide || op = Token_type.power)

/-- No null pointer anywhere in the tree. -/
def Node.no_null : Node → Bool
  | .NULL => false
  | .ValueNode _ => true
  | .BinaryNode l _ r => l.no_null && r.no_null

/-- The cursor is an index of the token vector. -/
def Parser.in_bounds (s : Parser) : Prop :=
  s.token_loc < s.tokens.length

/-- How a later parser state `s'` relates to an earlier one `s`: same
token vector, cursor not moved back and still an index of the vector,
error flag not reset. -/
def Parser.follows (s s' : Parser) : Prop :=
  s'.tokens = s.tokens ∧ s.token_loc ≤ s'.token_loc ∧ s'.token_loc < s'.tokens.length ∧
    (s.error = true → s'.error = true)

/-- An outcome that is not an exception and, when it is a result, satisfies
`Q` (running out of fuel says nothing). -/
def Result.sat {α : Type} (r : Result α) (Q : α → Prop) : Prop :=
  match r with
  | .ok a => Q a
  | .out_of_range => False
  | .out_of_fuel => True

/-! ## Source order -/

/-- The literals of a tree, read left to right. -/
def Node.leaves : Node → List ℚ
  | .NULL => []
  | .ValueNode v => [v]
  | .BinaryNode l _ r => l.leaves ++ r.leaves

/-- The operators of the `BinaryNode`s of a tree, read in-order. -/
def Node.operators : Node → List Token_type
  | .NULL => []
  | .ValueNode _ => []
  | .BinaryNode l op r => l.operators ++ op :: r.operators

mutual

/-- The operand values of a `value` derivation in token order; a
`'-' Number` operand counts with the negated value. -/
def Val.operands : Val → List ℚ
  | .num v => [v]
  | .neg _ v => [-v]
  | .paren _ first rest _ => first.operands ++ itemsOperands rest

/-- The operand values of `(binop value)*` in token order. -/
def itemsOperands : List (BinOp × ℚ × Val) → List ℚ
  | [] => []
  | (_, _, v) :: rest => v.operands ++ itemsOperands rest

end

mutual

/-- The binary operator tokens of a `value` derivation in token order (the
`-` of `'-' Number` is not one). -/
def Val.binops : Val → List Token_type
  | .num _ => []
  | .neg _ _ => []
  | .paren _ first rest _ => first.binops ++ itemsBinops rest

/-- The binary operator tokens of `(binop value)*` in token order. -/
def itemsBinops : List (BinOp × ℚ × Val) → List Token_type
  | [] => []
  | (op, _, v) :: rest => op.type :: (v.binops ++ itemsBinops rest)

end

/-! ## The scanning rules of the specification

A second lexer, written from the five scanning rules of the specification
on the list of remaining characters instead of an index into the string: a
numeric literal is the maximal run that `takeWhile` cuts off, it gives one
token, and scanning goes on behind it.  The rules say where a token starts
and ends; the value of a literal is the one the conversions of the source
give (`hex_to_int`, `atof`), and a character of rule 5 gives the
uninitialised token of the source. -/

/-- A character that may continue a decimal literal. -/
def decimal_char (c : Char) : Bool :=
  is_number c || c == '.'

/-- A character that may continue a hex literal. -/
def hex_char (c : Char) : Bool :=
  is_hex c || c == '.'

/-- The scanning rules.  `pos` is the position of the first remaining
character in the input (the index of its uninitialised token), `acc` the
tokens so far; the result carries `true` when a `0x` was not followed by a
hex digit. -/
def spec_scan (junk : Nat → Token) :
    Nat → Nat → List Char → List Token → Result (List Token × Bool)
  | 0, _, _, _ => .out_of_fuel
  | _ + 1, _, [], acc => .ok (acc, false)
  | fuel + 1, pos, c :: rest, acc =>
    if c = '(' then
      spec_scan junk fuel (pos + 1) rest (acc ++ [{ junk pos with type := Token_type.left_parenthesis }])
    else if c = ')' then
      spec_scan junk fuel (pos + 1) rest (acc ++ [{ junk pos with type := Token_type.right_parenthesis }])
    else if c = '+' then
      spec_scan junk fuel (pos + 1) rest (acc ++ [{ junk pos with type := Token_type.plus }])
    else if c = '-' then
      spec_scan junk fuel (pos + 1) rest (acc ++ [{ junk pos with type := Token_type.minus }])
    else if c = '*' then
      spec_scan junk fuel (pos + 1) rest (acc ++ [{ junk pos with type := Token_type.multiply }])
    else if c = '/' then
      spec_scan junk fuel (pos + 1) rest (acc ++ [{ junk pos with type := Token_type.divide }])
    else if c = '^' then
      spec_scan junk fuel (pos + 1) rest (acc ++ [{ junk pos with type := Token_type.power }])
    else if c = ' ' then spec_scan junk fuel (pos + 1) rest acc
    else if c = '0' ∧ rest.head? = some 'x' then
      match rest.tail with
      | h :: more =>
        if is_hex h then
          let run := h :: more.takeWhile hex_char
          spec_scan junk fuel (pos + 2 + run.length) (more.dropWhile hex_char)
            (acc ++ [⟨Token_type.number, (hex_to_int run : ℚ)⟩])
        else .ok (acc, true)
      | [] => .ok (acc, true)
    else if is_number c then
      let run := c :: rest.takeWhile decimal_char
      spec_scan junk fuel (pos + run.length) (rest.dropWhile decimal_char)
        (acc ++ [⟨Token_type.number, atof run⟩])
    else spec_scan junk fuel (pos + 1) rest (acc ++ [junk pos])

/-- The tokens the scanning rules give for the input `e`. -/
def spec_tokens (junk : Nat → Token) (e : List Char) : Result (List Token × Bool) :=
  spec_scan junk (e.length + 1) 0 e []

/-- The outcome of lexing that the rest of the program can see: the token
vector of the constructed `Lexer` and whether the constructor returned
early. -/
def Lexer.ctor_tokens (junk : Nat → Token) (e : List Char) : Result (List Token × Bool) :=
  Lexer.ctor junk e >>= fun r => Result.ok (r.1.tokens, r.2)

/-! ## Tokens up to their indeterminate fields -/

/-- What the lexer has assigned in a token: its kind, and the `value` of a
Number token.  The `value` of any other token is indeterminate; it is
replaced by `0` here. -/
def Token.read (t : Token) : Token :=
  if t.type = Token_type.number then t else ⟨t.type, 0⟩

/-- A parser state with every token reduced to what the lexer assigned. -/
def Parser.read (s : Parser) : Parser :=
  { s with tokens := s.tokens.map Token.read, current_token := s.current_token.read }

/-! ## Expression strings as spaced lexemes -/

/-- The seven characters that are a token on their own. -/
def is_punct (c : Char) : Bool :=
  c == '(' || c == ')' || c == '+' || c == '-' || c == '*' || c == '/' || c == '^'

/-- The token kind of a punctuation character. -/
def punct_type (c : Char) : Token_type :=
  if c = '(' then Token_type.left_parenthesis
  else if c = ')' then Token_type.right_parenthesis
  else if c = '+' then Token_type.plus
  else if c = '-' then Token_type.minus
  else if c = '*' then Token_type.multiply
  else if c = '/' then Token_type.divide
  else if c = '^' then Token_type.power
  else Token_type.none

/-- A decimal literal: a digit, then digits and dots. -/
def decimal_literal : List Char → Bool
  | d :: body => is_number d && body.all decimal_char
  | [] => false

/-- A hex literal: `0x`, a hex digit, then hex digits and dots. -/
def hex_literal : List Char → Bool
  | '0' :: 'x' :: d :: body => is_hex d && body.all hex_char
  | _ => false

/-- A piece of an expression string that becomes one token. -/
inductive Lexeme
  | punct (c : Char)
  | literal (cs : List Char)
  deriving DecidableEq, Repr

/-- The characters of a lexeme. -/
def Lexeme.chars : Lexeme → List Char
  | .punct c => [c]
  | .literal cs => cs

/-- Well-formed lexemes. -/
def Lexeme.valid : Lexeme → Bool
  | .punct c => is_punct c
  | .literal cs => decimal_literal cs || hex_literal cs

/-- The value a numeric literal stands for in the lexer: the hex conversion
of what follows `0x`, or `atof` of the literal. -/
def literal_value : List Char → ℚ
  | '0' :: 'x' :: digits => (hex_to_int digits : ℚ)
  | cs => atof cs

/-- The token of a lexeme, as far as the lexer assigns it. -/
def Lexeme.token : Lexeme → Token
  | .punct c => ⟨punct_type c, 0⟩
  | .literal cs => ⟨Token_type.number, literal_value cs⟩

/-- No numeric literal is directly followed by another one: between two
literals of an expression there is an operator or a parenthesis. -/
def separated : List Lexeme → Bool
  | .literal _ :: .literal _ :: _ => false
  | _ :: rest => separated rest
  | [] => true

/-- The expression string with `gap i` spaces in front of lexeme `i` and
`gap n` spaces behind the last of `n` lexemes.  `i` is the index of the
first lexeme of the list. -/
def render (gap : Nat → Nat) : Nat → List Lexeme → List Char
  | i, [] => List.replicate (gap i) ' '
  | i, l :: ls => List.replicate (gap i) ' ' ++ (l.chars ++ render gap (i + 1) ls)

/-- No two Number tokens next to each other in a sequence of token kinds. -/
def kinds_separated : List Token_type → Bool
  | .number :: .number :: _ => false
  | _ :: rest => kinds_separated rest
  | [] => true

/-! # Proofs -/

@[simp] theorem Result.ok_bind {α β : Type} (a : α) (k : α → Result β) :
    (Result.ok a >>= k) = k a := rfl
@[simp] theorem Result.range_bind {α β : Type} (k : α → Result β) :
    ((Result.out_of_range : Result α) >>= k) = Result.out_of_range := rfl
@[simp] theorem Result.fuel_bind {α β : Type} (k : α → Result β) :
    ((Result.out_of_fuel : Result α) >>= k) = Result.out_of_fuel := rfl
@[simp] theorem Result.pure_eq {α : Type} (a : α) : (pure a : Result α) = Result.ok a := rfl

/-- Raising the fuel of both parts of a sequence keeps a finished outcome. -/
theorem Result.bind_stable {α β : Type} {x x' : Result α} {k k' : α → Result β}
    (hx : x ≠ Result.out_of_fuel → x' = x)
    (hk : ∀ a, k a ≠ Result.out_of_fuel → k' a = k a)
    (h : (x >>= k) ≠ Result.out_of_fuel) : (x' >>= k') = (x >>= k) := by
  cases x with
  | ok a =>
    rw [hx (by simp)]
    simp only [Result.ok_bind] at h ⊢
    exact hk a h
  | out_of_range => rw [hx (by simp)]; rfl
  | out_of_fuel => exact absurd rfl h

/-- One more unit of fuel never changes a finished outcome, for the four
mutually recursive pieces of the parser. -/
theorem Parser.fuel_succ (fuel : Nat) :
    (∀ lhs m s, Parser.expression fuel lhs m s ≠ Result.out_of_fuel →
      Parser.expression (fuel + 1) lhs m s = Parser.expression fuel lhs m s) ∧
    (∀ lhs m c s, Parser.expression_outer fuel lhs m c s ≠ Result.out_of_fuel →
      Parser.expression_outer (fuel + 1) lhs m c s = Parser.expression_outer fuel lhs m c s) ∧
    (∀ rhs op c s, Parser.expression_inner fuel rhs op c s ≠ Result.out_of_fuel →
      Parser.expression_inner (fuel + 1) rhs op c s = Parser.expression_inner fuel rhs op c s) ∧
    (∀ s, Parser.value fuel s ≠ Result.out_of_fuel →
      Parser.value (fuel + 1) s = Parser.value fuel s) := by
  induction fuel with
  | zero =>
    refine ⟨?_, ?_, ?_, ?_⟩ <;> intros <;> simp_all [Parser.expression, Parser.expression_outer,
      Parser.expression_inner, Parser.value]
  | succ n ih =>
    obtain ⟨ihE, ihO, ihI, ihV⟩ := ih
    refine ⟨?_, ?_, ?_, ?_⟩
    · intro lhs m s h
      rw [Parser.expression] at h ⊢
      rw [Parser.expression]
      exact ihO _ _ _ _ h
    · intro lhs m c s h
      rw [Parser.expression_outer] at h ⊢
      rw [Parser.expression_outer]
      split
      · rename_i hc
        rw [if_pos hc] at h
        refine Result.bind_stable (fun _ => rfl) ?_ h
        intro s1 h1
        refine Result.bind_stable (ihV _) ?_ h1
        rintro ⟨rhs, s2⟩ h2
        refine Result.bind_stable (ihI _ _ _ _) ?_ h2
        rintro ⟨rhs', c', s3⟩ h3
        exact ihO _ _ _ _ h3
      · rfl
    · intro rhs op c s h
      rw [Parser.expression_inner] at h ⊢
      rw [Parser.expression_inner]
      split
      · rename_i hc
        rw [if_pos hc, if_pos hc] at h
        refine Result.bind_stable (ihE _ _ _) ?_ h
        rintro ⟨rhs', s1⟩ h1
        exact ihI _ _ _ _ h1
      · rfl
    · intro s h
      rw [Parser.value] at h ⊢
      rw [Parser.value]
      simp only at h ⊢
      split
      · rfl
      · split
        · rfl
        · split
          · rename_i h1 h2 h3
            rw [if_neg h1, if_neg h2, if_pos h3] at h
            refine Result.bind_stable (fun _ => rfl) ?_ h
            intro s1 h1
            refine Result.bind_stable (ihV _) ?_ h1
            rintro ⟨n0, s2⟩ h2
            refine Result.bind_stable (ihE _ _ _) ?_ h2
            rintro ⟨nn, s3⟩ h3
            rfl
          · rfl

theorem Parser.value_mono {f f' : Nat} {s : Parser} {r : Node × Parser} (hf : f ≤ f')
    (h : Parser.value f s = Result.ok r) : Parser.value f' s = Result.ok r := by
  induction hf with
  | refl => exact h
  | step _ ih => rw [(Parser.fuel_succ _).2.2.2 s (by rw [ih]; simp), ih]

theorem Parser.expression_mono {f f' : Nat} {lhs : Node} {m : Int} {s : Parser}
    {r : Node × Parser} (hf : f ≤ f')
    (h : Parser.expression f lhs m s = Result.ok r) :
    Parser.expression f' lhs m s = Result.ok r := by
  induction hf with
  | refl => exact h
  | step _ ih => rw [(Parser.fuel_succ _).1 lhs m s (by rw [ih]; simp), ih]

theorem Parser.ctor_mono {f f' : Nat} {ts : List Token} {r : Node × Parser} (hf : f ≤ f')
    (h : Parser.ctor f ts = Result.ok r) : Parser.ctor f' ts = Result.ok r := by
  unfold Parser.ctor at h ⊢
  cases h0 : at_index ts 0 with
  | ok t0 =>
    rw [h0] at h
    simp only [Result.ok_bind] at h ⊢
    cases hv : Parser.value f ⟨ts, 0, t0, false⟩ with
    | ok p =>
      rw [hv] at h
      rw [Parser.value_mono hf hv]
      simp only [Result.ok_bind] at h ⊢
      exact Parser.expression_mono hf h
    | out_of_range => rw [hv] at h; simp at h
    | out_of_fuel => rw [hv] at h; simp at h
  | out_of_range => rw [h0] at h; simp at h
  | out_of_fuel => rw [h0] at h; simp at h

theorem getElem?_at_length (pre post : List Token) (t : Token) :
    (pre ++ t :: post)[pre.length]? = some t := by
  induction pre with
  | nil => simp
  | cons x xs ih => simpa using ih

theorem getElem?_after_length (pre post : List Token) (a b : Token) :
    (pre ++ a :: b :: post)[pre.length + 1]? = some b := by
  induction pre with
  | nil => simp
  | cons x xs ih => simpa using ih

theorem stateAt_tokens (ts : List Token) (p : Nat) (e : Bool) : (stateAt ts p e).tokens = ts := rfl
theorem stateAt_error (ts : List Token) (p : Nat) (e : Bool) : (stateAt ts p e).error = e := rfl

theorem stateAt_current (pre post : List Token) (t : Token) (e : Bool) :
    (stateAt (pre ++ t :: post) pre.length e).current_token = t := by
  have h1 : min pre.length ((pre ++ t :: post).length - 1) = pre.length := by
    simp
  simp only [stateAt, h1]
  rw [List.getD_eq_getElem?_getD, getElem?_at_length]; rfl

theorem stateAt_current_end (ts : List Token) (t : Token) (p : Nat) (e : Bool)
    (hp : ts.length ≤ p) : (stateAt (ts ++ [t]) p e).current_token = t := by
  have h1 : min p ((ts ++ [t]).length - 1) = ts.length := by
    simp; omega
  simp only [stateAt, h1]
  rw [List.getD_eq_getElem?_getD, getElem?_at_length]; rfl

theorem stateAt_advance (ts : List Token) (p : Nat) (e : Bool) (hne : ts ≠ []) :
    (stateAt ts p e).advance_token = Result.ok (stateAt ts (p + 1) e) := by
  have hlen : 0 < ts.length := List.length_pos.mpr hne
  unfold Parser.advance_token Parser.not_at_last
  by_cases hp : p + 1 < ts.length
  · have h1 : min p (ts.length - 1) = p := by omega
    have h2 : min (p + 1) (ts.length - 1) = p + 1 := by omega
    simp only [stateAt, h1, h2]
    rw [if_pos (Or.inr hp)]
    simp [at_index, List.getElem?_eq_getElem hp, List.getD_eq_getElem?_getD]
  · have h1 : min p (ts.length - 1) = ts.length - 1 := by omega
    have h2 : min (p + 1) (ts.length - 1) = ts.length - 1 := by omega
    simp only [stateAt, h1, h2]
    rw [if_neg (by omega)]

theorem stateAt_peek (pre post : List Token) (a b : Token) (e : Bool) :
    (stateAt (pre ++ a :: b :: post) pre.length e).peek_next_token = Result.ok b := by
  unfold Parser.peek_next_token Parser.not_at_last
  have h1 : min pre.length ((pre ++ a :: b :: post).length - 1) = pre.length := by
    simp
  simp only [stateAt, h1]
  rw [if_pos (by simp)]
  simp only [at_index, getElem?_after_length]

theorem climb_suffix {α : Type} (tv : α → Node) :
    ∀ (f : Nat) (lhs : Node) (m : Int) (L : List (BinOp × ℚ × α)), L.length < f →
      ∃ P, L = P ++ (climb tv f lhs m L).2 ∧
        ∀ x ∈ (climb tv f lhs m L).2.head?, x.1.prec < m := by
  intro f
  induction f with
  | zero => intro lhs m L h; omega
  | succ f ih =>
    intro lhs m L h
    match L with
    | [] => exact ⟨[], by simp [climb]⟩
    | (op, j, v) :: rest =>
      by_cases hp : op.prec < m
      · refine ⟨[], ?_⟩
        simp [climb, hp]
      · simp only [climb, if_neg hp]
        have hr : rest.length < f := by simpa using h
        obtain ⟨P1, h1, _⟩ := ih (tv v) (op.prec + 1) rest hr
        have hlen : (climb tv f (tv v) (op.prec + 1) rest).2.length < f := by
          have := congrArg List.length h1
          simp at this; omega
        obtain ⟨P2, h2, h3⟩ := ih (Node.BinaryNode lhs op.type
          (climb tv f (tv v) (op.prec + 1) rest).1) m _ hlen
        refine ⟨(op, j, v) :: (P1 ++ P2), ?_, h3⟩
        rw [List.cons_append, List.append_assoc, ← h2, ← h1]

theorem climb_fuel {α : Type} (tv : α → Node) :
    ∀ (f g : Nat) (lhs : Node) (m : Int) (L : List (BinOp × ℚ × α)), L.length < f →
      L.length < g → climb tv f lhs m L = climb tv g lhs m L := by
  intro f
  induction f with
  | zero => intro g lhs m L h; omega
  | succ f ih =>
    intro g lhs m L hf hg
    match g, L with
    | 0, _ => omega
    | g + 1, [] => simp [climb]
    | g + 1, (op, j, v) :: rest =>
      by_cases hp : op.prec < m
      · simp [climb, hp]
      · simp only [climb, if_neg hp]
        have hrf : rest.length < f := by simpa using hf
        have hrg : rest.length < g := by simpa using hg
        rw [← ih g (tv v) (op.prec + 1) rest hrf hrg]
        obtain ⟨P1, h1, _⟩ := climb_suffix tv f (tv v) (op.prec + 1) rest hrf
        have hlen : (climb tv f (tv v) (op.prec + 1) rest).2.length ≤ rest.length := by
          have := congrArg List.length h1
          simp at this; omega
        exact ih g _ m _ (by omega) (by omega)

theorem climbFull_nil {α : Type} (tv : α → Node) (lhs : Node) (m : Int) :
    climbFull tv lhs m [] = (lhs, []) := rfl

theorem climbFull_suffix {α : Type} (tv : α → Node) (lhs : Node) (m : Int)
    (L : List (BinOp × ℚ × α)) :
    ∃ P, L = P ++ (climbFull tv lhs m L).2 ∧ ∀ x ∈ (climbFull tv lhs m L).2.head?, x.1.prec < m :=
  climb_suffix tv _ lhs m L (Nat.lt_succ_self _)

theorem climbFull_length {α : Type} (tv : α → Node) (lhs : Node) (m : Int)
    (L : List (BinOp × ℚ × α)) : (climbFull tv lhs m L).2.length ≤ L.length := by
  obtain ⟨P, h, _⟩ := climbFull_suffix tv lhs m L
  have := congrArg List.length h
  simp at this; omega

theorem climbFull_stop {α : Type} (tv : α → Node) (lhs : Node) (m : Int) (op : BinOp) (j : ℚ)
    (v : α) (rest : List (BinOp × ℚ × α)) (h : op.prec < m) :
    climbFull tv lhs m ((op, j, v) :: rest) = (lhs, (op, j, v) :: rest) := by
  simp [climbFull, climb, h]

theorem climbFull_step {α : Type} (tv : α → Node) (lhs : Node) (m : Int) (op : BinOp) (j : ℚ)
    (v : α) (rest : List (BinOp × ℚ × α)) (h : ¬ op.prec < m) :
    climbFull tv lhs m ((op, j, v) :: rest) =
      climbFull tv (Node.BinaryNode lhs op.type (climbFull tv (tv v) (op.prec + 1) rest).1) m
        (climbFull tv (tv v) (op.prec + 1) rest).2 := by
  have hl := climbFull_length tv (tv v) (op.prec + 1) rest
  simp only [climbFull, climb, if_neg h, List.length_cons] at hl ⊢
  exact climb_fuel tv _ _ _ m _ (by omega) (by omega)

theorem BinOp.prec_nonneg (op : BinOp) : 0 ≤ op.prec := by
  cases op <;> simp [BinOp.prec]

theorem climbFull_zero {α : Type} (tv : α → Node) (lhs : Node) (L : List (BinOp × ℚ × α)) :
    (climbFull tv lhs 0 L).2 = [] := by
  obtain ⟨P, _, h⟩ := climbFull_suffix tv lhs 0 L
  match hR : (climbFull tv lhs 0 L).2 with
  | [] => rfl
  | x :: R =>
    have := h x (by rw [hR]; simp)
    have := x.1.prec_nonneg
    omega

theorem climb_map {α : Type} (tv : α → Node) :
    ∀ (f : Nat) (lhs : Node) (m : Int) (L : List (BinOp × ℚ × α)),
      climb id f lhs m (L.map (fun x => (x.1, x.2.1, tv x.2.2))) =
        ((climb tv f lhs m L).1, (climb tv f lhs m L).2.map (fun x => (x.1, x.2.1, tv x.2.2))) := by
  intro f
  induction f with
  | zero => intro lhs m L; simp [climb]
  | succ f ih =>
    intro lhs m L
    match L with
    | [] => simp [climb]
    | (op, j, v) :: rest =>
      by_cases hp : op.prec < m
      · simp [climb, hp]
      · simp only [List.map_cons, climb, if_neg hp, id]
        rw [ih (tv v) (op.prec + 1) rest]
        exact ih _ m _

theorem itemsTrees_eq_map (L : List Item) :
    itemsTrees L = L.map (fun x => (x.1, x.2.1, x.2.2.tree)) := by
  induction L with
  | nil => simp [itemsTrees]
  | cons x xs ih =>
    obtain ⟨op, j, v⟩ := x
    simp [itemsTrees, ih]

theorem exprTree_eq (first : Val) (rest : List Item) :
    exprTree first rest = (climbFull Val.tree first.tree 0 rest).1 := by
  simp [exprTree, climbFull, itemsTrees_eq_map, climb_map]

theorem Val.tree_paren (j1 j2 : ℚ) (first : Val) (rest : List Item) :
    (Val.paren j1 first rest j2).tree = exprTree first rest := by
  simp [Val.tree, exprTree]

theorem Parser.outer_mono {f f' : Nat} {lhs : Node} {m : Int} {c : Token} {s : Parser}
    {r : Node × Parser} (hf : f ≤ f')
    (h : Parser.expression_outer f lhs m c s = Result.ok r) :
    Parser.expression_outer f' lhs m c s = Result.ok r := by
  induction hf with
  | refl => exact h
  | step _ ih => rw [(Parser.fuel_succ _).2.1 lhs m c s (by rw [ih]; simp), ih]

theorem Parser.inner_mono {f f' : Nat} {rhs : Node} {op c : Token} {s : Parser}
    {r : Node × Token × Parser} (hf : f ≤ f')
    (h : Parser.expression_inner f rhs op c s = Result.ok r) :
    Parser.expression_inner f' rhs op c s = Result.ok r := by
  induction hf with
  | refl => exact h
  | step _ ih => rw [(Parser.fuel_succ _).2.2.1 rhs op c s (by rw [ih]; simp), ih]

theorem get_precendene_op (op : BinOp) (j : ℚ) : get_precendene ⟨op.type, j⟩ = op.prec := by
  cases op <;> rfl

theorem get_precendene_number (v : ℚ) : get_precendene ⟨Token_type.number, v⟩ = -1 := rfl

theorem get_precendene_rparen (v : ℚ) :
    get_precendene ⟨Token_type.right_parenthesis, v⟩ = -1 := rfl

theorem itemsTokens_append (A B : List Item) :
    itemsTokens (A ++ B) = itemsTokens A ++ itemsTokens B := by
  induction A with
  | nil => simp [itemsTokens]
  | cons x xs ih =>
    obtain ⟨op, j, v⟩ := x
    simp [itemsTokens, ih]

/-- When the current token binds less than `m`, `expression` hands `lhs`
back untouched. -/
theorem Parser.expression_stop (f : Nat) (lhs : Node) (m : Int) (s : Parser)
    (h : get_precendene s.current_token < m) :
    Parser.expression (f + 2) lhs m s = Result.ok (lhs, s) := by
  rw [Parser.expression, Parser.expression_outer, if_neg (by omega)]

/-- The inner loop is one call of `expression` at the next precedence. -/
theorem Parser.inner_sim (F : Nat) (rhs out : Node) (op : Token) (s2 s3 : Parser)
    (hE : Parser.expression F rhs (get_precendene op + 1) s2 = Result.ok (out, s3))
    (hpost : get_precendene s3.current_token < get_precendene op + 1) :
    Parser.expression_inner (F + 2) rhs op s2.current_token s2 =
      Result.ok (out, s3.current_token, s3) := by
  rw [Parser.expression_inner]
  by_cases hc : get_precendene s2.current_token > get_precendene op
  · rw [if_pos hc, if_pos hc, Parser.expression_mono (Nat.le_succ F) hE]
    simp only [Result.ok_bind]
    rw [Parser.expression_inner, if_neg (by omega)]
  · rw [if_neg hc]
    have h2 := Parser.expression_stop F rhs (get_precendene op + 1) s2 (by omega)
    have h3 := Parser.expression_mono (Nat.le_add_right F 2) hE
    rw [h2] at h3
    simp only [Result.ok.injEq, Prod.mk.injEq] at h3
    rw [h3.1, h3.2]

theorem expression_sim : ∀ (n : Nat) (L : List Item), L.length ≤ n →
    (∀ x ∈ L, ValueOK x.2.2) →
    ∀ (lhs : Node) (m : Int), 0 ≤ m → ∀ (ts pre post : List Token) (err : Bool),
      ts = pre ++ (itemsTokens L ++ post) →
      get_precendene (stateAt ts (pre.length + (itemsTokens L).length) err).current_token = -1 →
      ∃ P F, L = P ++ (climbFull Val.tree lhs m L).2 ∧
        Parser.expression F lhs m (stateAt ts pre.length err) =
          Result.ok ((climbFull Val.tree lhs m L).1,
            stateAt ts (pre.length + (itemsTokens P).length) err) ∧
        get_precendene (stateAt ts (pre.length + (itemsTokens P).length) err).current_token < m := by
  intro n
  induction n with
  | zero =>
    intro L hL _ lhs m hm ts pre post err hts hend
    have : L = [] := List.length_eq_zero.mp (by omega)
    subst this
    refine ⟨[], 2, by simp [climbFull_nil], ?_, ?_⟩
    · simp only [itemsTokens, List.length_nil, Nat.add_zero] at hend ⊢
      rw [climbFull_nil]
      exact Parser.expression_stop 0 lhs m _ (by omega)
    · simp only [itemsTokens, List.length_nil, Nat.add_zero] at hend ⊢
      omega
  | succ n ih =>
    intro L hL hV lhs m hm ts pre post err hts hend
    match L, hL, hV, hts, hend with
    | [], _, _, hts, hend =>
      refine ⟨[], 2, by simp [climbFull_nil], ?_, ?_⟩
      · simp only [itemsTokens, List.length_nil, Nat.add_zero] at hend ⊢
        rw [climbFull_nil]
        exact Parser.expression_stop 0 lhs m _ (by omega)
      · simp only [itemsTokens, List.length_nil, Nat.add_zero] at hend ⊢
        omega
    | (op, j, v) :: rest, hL, hV, hts, hend =>
      have hcur : (stateAt ts pre.length err).current_token = ⟨op.type, j⟩ := by
        rw [hts]
        simp only [itemsTokens, List.cons_append]
        exact stateAt_current _ _ _ _
      by_cases hp : op.prec < m
      · refine ⟨[], 2, ?_, ?_, ?_⟩
        · rw [climbFull_stop _ _ _ _ _ _ _ hp]; rfl
        · rw [climbFull_stop _ _ _ _ _ _ _ hp]
          simp only [itemsTokens, List.length_nil, Nat.add_zero]
          exact Parser.expression_stop 0 lhs m _ (by rw [hcur, get_precendene_op]; exact hp)
        · simp only [itemsTokens, List.length_nil, Nat.add_zero]
          rw [hcur, get_precendene_op]; exact hp
      · have hne : ts ≠ [] := by rw [hts]; simp [itemsTokens]
        have hrest : rest.length ≤ n := by simpa using hL
        -- the operand
        obtain ⟨F1, hF1⟩ := hV (op, j, v) (List.mem_cons_self _ _) ts
          (pre ++ [⟨op.type, j⟩]) (itemsTokens rest ++ post) err
          (by rw [hts]; simp [itemsTokens])
        -- the operators that bind tighter
        obtain ⟨P1, F2, hP1, hF2, hpost2⟩ := ih rest hrest
          (fun x hx => hV x (List.mem_cons_of_mem _ hx)) v.tree (op.prec + 1)
          (by have := op.prec_nonneg; omega) ts
          (pre ++ [⟨op.type, j⟩] ++ v.tokens) post err
          (by rw [hts]; simp [itemsTokens])
          (by
            have : (pre ++ [(⟨op.type, j⟩ : Token)] ++ v.tokens).length + (itemsTokens rest).length
                = pre.length + (itemsTokens ((op, j, v) :: rest)).length := by
              simp [itemsTokens]; omega
            rw [this]; exact hend)
        -- the rest of the outer loop
        have hR1 : (climbFull Val.tree v.tree (op.prec + 1) rest).2.length ≤ n :=
          le_trans (climbFull_length _ _ _ _) hrest
        obtain ⟨P2, F3, hP2, hF3, hpost3⟩ := ih _ hR1
          (fun x hx => hV x (List.mem_cons_of_mem _ (by rw [hP1]; exact List.mem_append_right _ hx)))
          (Node.BinaryNode lhs op.type (climbFull Val.tree v.tree (op.prec + 1) rest).1) m hm ts
          (pre ++ [⟨op.type, j⟩] ++ v.tokens ++ itemsTokens P1) post err
          (by
            rw [hts]
            conv_lhs => rw [hP1]
            simp [itemsTokens, itemsTokens_append])
          (by
            have : (pre ++ [(⟨op.type, j⟩ : Token)] ++ v.tokens ++ itemsTokens P1).length +
                (itemsTokens (climbFull Val.tree v.tree (op.prec + 1) rest).2).length
                = pre.length + (itemsTokens ((op, j, v) :: rest)).length := by
              conv_rhs => rw [hP1]
              simp [itemsTokens, itemsTokens_append]; omega
            rw [this]; exact hend)
        have hpos1 : (pre ++ [(⟨op.type, j⟩ : Token)]).length = pre.length + 1 := by simp
        have hpos2 : (pre ++ [(⟨op.type, j⟩ : Token)] ++ v.tokens).length =
            pre.length + 1 + v.tokens.length := by simp; omega
        rw [hpos1] at hF1
        rw [hpos2] at hF2 hpost2
        have hpos3 : (pre ++ [(⟨op.type, j⟩ : Token)] ++ v.tokens ++ itemsTokens P1).length =
            pre.length + 1 + v.tokens.length + (itemsTokens P1).length := by simp; omega
        rw [hpos3] at hF3 hpost3
        have hposP : pre.length + (itemsTokens ((op, j, v) :: (P1 ++ P2))).length =
            pre.length + 1 + v.tokens.length + (itemsTokens P1).length + (itemsTokens P2).length := by
          simp [itemsTokens, itemsTokens_append]; omega
        refine ⟨(op, j, v) :: (P1 ++ P2), F1 + (F2 + 2) + F3 + 2, ?_, ?_, ?_⟩
        · rw [climbFull_step _ _ _ _ _ _ _ hp, List.cons_append, List.append_assoc, ← hP2, ← hP1]
        · rw [climbFull_step _ _ _ _ _ _ _ hp, hposP]
          rw [Parser.expression, Parser.expression_outer, hcur,
            if_pos (by rw [get_precendene_op]; omega), stateAt_advance _ _ _ hne]
          simp only [Result.ok_bind]
          rw [Parser.value_mono (by omega) hF1]
          simp only [Result.ok_bind]
          have hin := Parser.inner_sim F2 v.tree _ ⟨op.type, j⟩ _ _
            (by rw [get_precendene_op]; exact hF2) (by rw [get_precendene_op]; exact hpost2)
          rw [Parser.inner_mono (by omega) hin]
          simp only [Result.ok_bind]
          match F3, hF3 with
          | 0, hF3 => simp [Parser.expression] at hF3
          | f3 + 1, hF3 =>
            rw [Parser.expression] at hF3
            exact Parser.outer_mono (by omega) hF3
        · rw [hposP]; exact hpost3

theorem itemsSize_mem (L : List Item) : ∀ x ∈ L, x.2.2.size ≤ itemsSize L := by
  induction L with
  | nil => intro x hx; cases hx
  | cons y ys ih =>
    obtain ⟨op, j, v⟩ := y
    intro x hx
    simp only [itemsSize]
    rcases List.mem_cons.mp hx with h | h
    · subst h; simp only; omega
    · have := ih x h; omega

/-- A `value` ends in a number or a closing parenthesis, neither of which
is an operator. -/
theorem Val.tokens_last (v : Val) :
    ∃ init t, v.tokens = init ++ [t] ∧ get_precendene t = -1 := by
  cases v with
  | num q => exact ⟨[], ⟨Token_type.number, q⟩, rfl, rfl⟩
  | neg j q => exact ⟨[⟨Token_type.minus, j⟩], ⟨Token_type.number, q⟩, rfl, rfl⟩
  | paren j1 first rest j2 =>
    refine ⟨⟨Token_type.left_parenthesis, j1⟩ :: (first.tokens ++ itemsTokens rest),
      ⟨Token_type.right_parenthesis, j2⟩, ?_, rfl⟩
    simp [Val.tokens]

theorem itemsTokens_last (L : List Item) (hL : L ≠ []) :
    ∃ init t, itemsTokens L = init ++ [t] ∧ get_precendene t = -1 := by
  induction L with
  | nil => exact absurd rfl hL
  | cons x xs ih =>
    obtain ⟨op, j, v⟩ := x
    by_cases hx : xs = []
    · subst hx
      obtain ⟨init, t, h1, h2⟩ := v.tokens_last
      exact ⟨⟨op.type, j⟩ :: init, t, by simp [itemsTokens, h1], h2⟩
    · obtain ⟨init, t, h1, h2⟩ := ih hx
      exact ⟨⟨op.type, j⟩ :: (v.tokens ++ init), t, by simp [itemsTokens, h1], h2⟩

theorem exprTokens_last (first : Val) (rest : List Item) :
    ∃ init t, exprTokens first rest = init ++ [t] ∧ get_precendene t = -1 := by
  by_cases hx : rest = []
  · subst hx
    obtain ⟨init, t, h1, h2⟩ := first.tokens_last
    exact ⟨init, t, by simp [exprTokens, itemsTokens, h1], h2⟩
  · obtain ⟨init, t, h1, h2⟩ := itemsTokens_last rest hx
    exact ⟨first.tokens ++ init, t, by simp [exprTokens, h1], h2⟩

theorem value_sim : ∀ (n : Nat) (v : Val), v.size ≤ n → ValueOK v := by
  intro n
  induction n with
  | zero =>
    intro v hv
    cases v <;> simp [Val.size] at hv
  | succ n ih =>
    intro v hv ts pre post err hts
    have hne : ts ≠ [] := by
      rw [hts]; cases v <;> simp [Val.tokens]
    cases v with
    | num q =>
      refine ⟨1, ?_⟩
      have hcur : (stateAt ts pre.length err).current_token = ⟨Token_type.number, q⟩ := by
        rw [hts]; exact stateAt_current _ _ _ _
      rw [Parser.value]
      simp only [hcur, if_true, stateAt_advance _ _ _ hne, Result.ok_bind, Result.pure_eq]
      rfl
    | neg j q =>
      refine ⟨1, ?_⟩
      have hcur : (stateAt ts pre.length err).current_token = ⟨Token_type.minus, j⟩ := by
        rw [hts]; exact stateAt_current _ _ _ _
      have hpeek : (stateAt ts pre.length err).peek_next_token =
          Result.ok ⟨Token_type.number, q⟩ := by
        rw [hts]; exact stateAt_peek _ _ _ _ _
      rw [Parser.value]
      simp only [hcur, hpeek, stateAt_advance _ _ _ hne, Result.ok_bind, Result.pure_eq]
      simp [Val.tokens, Val.tree]
    | paren j1 first rest j2 =>
      have hsz : first.size + itemsSize rest + 2 ≤ n + 1 := by
        simp only [Val.size] at hv; omega
      have hcur : (stateAt ts pre.length err).current_token =
          ⟨Token_type.left_parenthesis, j1⟩ := by
        rw [hts]; exact stateAt_current _ _ _ _
      obtain ⟨F1, hF1⟩ := ih first (by omega) ts (pre ++ [⟨Token_type.left_parenthesis, j1⟩])
        (itemsTokens rest ++ (⟨Token_type.right_parenthesis, j2⟩ :: post)) err
        (by rw [hts]; simp [Val.tokens])
      have hposE : (pre ++ ⟨Token_type.left_parenthesis, j1⟩ :: first.tokens).length +
          (itemsTokens rest).length =
          (pre ++ ⟨Token_type.left_parenthesis, j1⟩ :: (first.tokens ++ itemsTokens rest)).length := by
        simp; omega
      have hrp : (stateAt ts ((pre ++ ⟨Token_type.left_parenthesis, j1⟩ :: first.tokens).length +
          (itemsTokens rest).length) err).current_token = ⟨Token_type.right_parenthesis, j2⟩ := by
        rw [hposE, hts]
        have : pre ++ ((Val.paren j1 first rest j2).tokens ++ post) =
            (pre ++ ⟨Token_type.left_parenthesis, j1⟩ :: (first.tokens ++ itemsTokens rest)) ++
              ⟨Token_type.right_parenthesis, j2⟩ :: post := by
          simp [Val.tokens]
        rw [this]
        exact stateAt_current _ _ _ _
      obtain ⟨P, F2, hP, hF2, _⟩ := expression_sim rest.length rest (le_refl _)
        (fun x hx => ih x.2.2 (by have := itemsSize_mem rest x hx; omega))
        first.tree 0 (le_refl _) ts (pre ++ ⟨Token_type.left_parenthesis, j1⟩ :: first.tokens)
        (⟨Token_type.right_parenthesis, j2⟩ :: post) err
        (by rw [hts]; simp [Val.tokens])
        (by rw [hrp]; rfl)
      rw [climbFull_zero, List.append_nil] at hP
      subst hP
      refine ⟨F1 + F2 + 1, ?_⟩
      rw [Parser.value]
      simp only [hcur, stateAt_advance _ _ _ hne, Result.ok_bind, Result.pure_eq, reduceCtorEq,
        if_false, if_true]
      have e1 : (pre ++ [(⟨Token_type.left_parenthesis, j1⟩ : Token)]).length = pre.length + 1 := by
        simp
      rw [e1] at hF1
      rw [Parser.value_mono (by omega) hF1]
      simp only [Result.ok_bind]
      have e2 : (pre ++ ⟨Token_type.left_parenthesis, j1⟩ :: first.tokens).length =
          pre.length + 1 + first.tokens.length := by simp; omega
      rw [e2] at hF2 hrp
      rw [Parser.expression_mono (by omega) hF2]
      simp only [Result.ok_bind]
      rw [if_pos (by rw [hrp]), stateAt_advance _ _ _ hne]
      simp only [Result.ok_bind, Result.pure_eq, Val.tree_paren, exprTree_eq]
      have e3 : pre.length + 1 + first.tokens.length + (itemsTokens rest).length + 1 =
          pre.length + (Val.paren j1 first rest j2).tokens.length := by
        simp [Val.tokens]; omega
      rw [e3]

/-- `Parser::value` parses every `value` derivation in place. -/
theorem value_ok (v : Val) : ValueOK v := value_sim v.size v (le_refl _)

/-- On a token vector that starts with the tokens of a derivation of
`expression`, followed by `post`, the parser returns the specified tree with
the error flag clear and the cursor just behind the expression, provided
the token found there is not an operator (with `post` empty the cursor
cannot leave the last token, which is such a token). -/
theorem ctor_sim (first : Val) (rest : List Item) (post : List Token)
    (hend : get_precendene (stateAt (exprTokens first rest ++ post)
      (exprTokens first rest).length false).current_token = -1) :
    ∃ F, ∀ fuel, F ≤ fuel →
      Parser.ctor fuel (exprTokens first rest ++ post) =
        Result.ok (exprTree first rest,
          stateAt (exprTokens first rest ++ post) (exprTokens first rest).length false) := by
  have hlen : first.tokens.length + (itemsTokens rest).length = (exprTokens first rest).length := by
    simp [exprTokens]
  obtain ⟨F1, hF1⟩ := value_ok first (exprTokens first rest ++ post) [] (itemsTokens rest ++ post)
    false (by simp [exprTokens])
  obtain ⟨P, F2, hP, hF2, _⟩ := expression_sim rest.length rest (le_refl _)
    (fun x _ => value_ok x.2.2) first.tree 0 (le_refl _) (exprTokens first rest ++ post)
    first.tokens post false (by simp [exprTokens]) (by rw [hlen]; exact hend)
  rw [climbFull_zero, List.append_nil] at hP
  subst hP
  refine ⟨F1 + F2, fun fuel hfuel => ?_⟩
  have h0 : at_index (exprTokens first rest ++ post) 0 =
      Result.ok (stateAt (exprTokens first rest ++ post) 0 false).current_token := by
    obtain ⟨init, t, hlast, _⟩ := first.tokens_last
    simp only [exprTokens, hlast]
    cases init <;> simp [at_index, stateAt]
  have hs : (⟨exprTokens first rest ++ post, 0,
      (stateAt (exprTokens first rest ++ post) 0 false).current_token, false⟩ : Parser) =
      stateAt (exprTokens first rest ++ post) 0 false := by
    simp [stateAt]
  rw [Parser.ctor, h0]
  simp only [Result.ok_bind, hs]
  simp only [List.length_nil, Nat.zero_add] at hF1
  rw [Parser.value_mono (by omega) hF1]
  simp only [Result.ok_bind]
  rw [Parser.expression_mono (by omega) hF2, exprTree_eq, hlen]

/-- On the tokens of any derivation of `expression` the parser returns the
specified tree, with the error flag clear and the cursor on the last
token, for every large enough fuel. -/
theorem ctor_grammatical (first : Val) (rest : List Item) :
    ∃ F, ∀ fuel, F ≤ fuel →
      Parser.ctor fuel (exprTokens first rest) =
        Result.ok (exprTree first rest,
          stateAt (exprTokens first rest) (exprTokens first rest).length false) := by
  obtain ⟨init, t, hlast, hprec⟩ := exprTokens_last first rest
  have h := ctor_sim first rest [] (by
    rw [List.append_nil, hlast]
    rw [stateAt_current_end _ _ _ _ (by simp)]
    exact hprec)
  simpa using h

/-- C1: for literals `a`, `b`, `c` and binary operators with
`precedence(op1) < precedence(op2)`, the parser run on the tokens
`a op1 b op2 c` ends with the error flag clear and builds
`Binary(op1, a, Binary(op2, b, c))`; six units of fuel or more give this. -/
theorem precedence_nests_right (a b c j1 j2 : ℚ) (op1 op2 : BinOp)
    (h : op1.prec < op2.prec) (fuel : Nat) :
    Parser.ctor (6 + fuel)
        [⟨Token_type.number, a⟩, ⟨op1.type, j1⟩, ⟨Token_type.number, b⟩, ⟨op2.type, j2⟩,
          ⟨Token_type.number, c⟩] =
      Result.ok
        (Node.BinaryNode (Node.ValueNode a) op1.type
            (Node.BinaryNode (Node.ValueNode b) op2.type (Node.ValueNode c)),
          { tokens := [⟨Token_type.number, a⟩, ⟨op1.type, j1⟩, ⟨Token_type.number, b⟩,
              ⟨op2.type, j2⟩, ⟨Token_type.number, c⟩]
            token_loc := 4
            current_token := ⟨Token_type.number, c⟩
            error := false }) := by
  apply Parser.ctor_mono (Nat.le_add_right 6 fuel)
  cases op1 <;> cases op2 <;> first
    | exact absurd h (by decide)
    | rfl

/-- Instance of C1 on `1 + 2 * 3`. -/
theorem precedence_nests_right_witness :
    BinOp.plus.prec < BinOp.multiply.prec ∧
    Parser.ctor (6 + 0)
        [⟨Token_type.number, 1⟩, ⟨BinOp.plus.type, 0⟩, ⟨Token_type.number, 2⟩,
          ⟨BinOp.multiply.type, 0⟩, ⟨Token_type.number, 3⟩] =
      Result.ok
        (Node.BinaryNode (Node.ValueNode 1) BinOp.plus.type
            (Node.BinaryNode (Node.ValueNode 2) BinOp.multiply.type (Node.ValueNode 3)),
          { tokens := [⟨Token_type.number, 1⟩, ⟨BinOp.plus.type, 0⟩, ⟨Token_type.number, 2⟩,
              ⟨BinOp.multiply.type, 0⟩, ⟨Token_type.number, 3⟩]
            token_loc := 4
            current_token := ⟨Token_type.number, 3⟩
            error := false }) :=
  ⟨by decide, precedence_nests_right 1 2 3 0 0 BinOp.plus BinOp.multiply (by decide) 0⟩

/-- C2: for every binary operator `op`, `^` included, and literals `a`,
`b`, `c`, the parser run on the tokens `a op b op c` ends with the error
flag clear and builds the left-nested `Binary(op, Binary(op, a, b), c)`;
five units of fuel or more give this. -/
theorem same_operator_nests_left (a b c j1 j2 : ℚ) (op : BinOp) (fuel : Nat) :
    Parser.ctor (5 + fuel)
        [⟨Token_type.number, a⟩, ⟨op.type, j1⟩, ⟨Token_type.number, b⟩, ⟨op.type, j2⟩,
          ⟨Token_type.number, c⟩] =
      Result.ok
        (Node.BinaryNode (Node.BinaryNode (Node.ValueNode a) op.type (Node.ValueNode b)) op.type
            (Node.ValueNode c),
          { tokens := [⟨Token_type.number, a⟩, ⟨op.type, j1⟩, ⟨Token_type.number, b⟩,
              ⟨op.type, j2⟩, ⟨Token_type.number, c⟩]
            token_loc := 4
            current_token := ⟨Token_type.number, c⟩
            error := false }) := by
  apply Parser.ctor_mono (Nat.le_add_right 5 fuel)
  cases op <;> rfl

set_option maxHeartbeats 2000000 in
/-- C3: for literals `a`, `b`, `c` and any two binary operators, the parser
run on the tokens `( a op1 b ) op2 c` ends with the error flag clear and
builds `Binary(op2, Binary(op1, a, b), c)`; six units of fuel or more give
this. -/
theorem parentheses_override_precedence (a b c j1 j2 j3 j4 : ℚ) (op1 op2 : BinOp)
    (fuel : Nat) :
    Parser.ctor (6 + fuel)
        [⟨Token_type.left_parenthesis, j1⟩, ⟨Token_type.number, a⟩, ⟨op1.type, j2⟩,
          ⟨Token_type.number, b⟩, ⟨Token_type.right_parenthesis, j3⟩, ⟨op2.type, j4⟩,
          ⟨Token_type.number, c⟩] =
      Result.ok
        (Node.BinaryNode (Node.BinaryNode (Node.ValueNode a) op1.type (Node.ValueNode b)) op2.type
            (Node.ValueNode c),
          { tokens := [⟨Token_type.left_parenthesis, j1⟩, ⟨Token_type.number, a⟩, ⟨op1.type, j2⟩,
              ⟨Token_type.number, b⟩, ⟨Token_type.right_parenthesis, j3⟩, ⟨op2.type, j4⟩,
              ⟨Token_type.number, c⟩]
            token_loc := 6
            current_token := ⟨Token_type.number, c⟩
            error := false }) := by
  apply Parser.ctor_mono (Nat.le_add_right 6 fuel)
  cases op1 <;> cases op2 <;> rfl

theorem BinOp.type_proper (op : BinOp) :
    (op.type = Token_type.plus || op.type = Token_type.minus || op.type = Token_type.multiply ||
      op.type = Token_type.divide || op.type = Token_type.power) = true := by
  cases op <;> rfl

theorem climb_proper {α : Type} (tv : α → Node) :
    ∀ (f : Nat) (lhs : Node) (m : Int) (L : List (BinOp × ℚ × α)), lhs.proper = true →
      (∀ x ∈ L, (tv x.2.2).proper = true) →
      (climb tv f lhs m L).1.proper = true ∧
        ∀ x ∈ (climb tv f lhs m L).2, (tv x.2.2).proper = true := by
  intro f
  induction f with
  | zero => intro lhs m L h hL; exact ⟨h, hL⟩
  | succ f ih =>
    intro lhs m L h hL
    match L, hL with
    | [], _ => simp [climb, h]
    | (op, j, v) :: rest, hL =>
      by_cases hp : op.prec < m
      · simp only [climb, if_pos hp]; exact ⟨h, hL⟩
      · simp only [climb, if_neg hp]
        obtain ⟨h1, h2⟩ := ih (tv v) (op.prec + 1) rest (hL _ (List.mem_cons_self _ _))
          (fun x hx => hL x (List.mem_cons_of_mem _ hx))
        exact ih _ m _ (by simp [Node.proper, h, h1, op.type_proper]) h2

theorem Val.tree_proper : ∀ (n : Nat) (v : Val), v.size ≤ n → v.tree.proper = true := by
  intro n
  induction n with
  | zero => intro v hv; cases v <;> simp [Val.size] at hv
  | succ n ih =>
    intro v hv
    cases v with
    | num q => rfl
    | neg j q => rfl
    | paren j1 first rest j2 =>
      simp only [Val.size] at hv
      rw [Val.tree_paren, exprTree_eq]
      exact (climb_proper Val.tree _ _ 0 rest (ih first (by omega))
        (fun x hx => ih x.2.2 (by have := itemsSize_mem rest x hx; omega))).1

theorem exprTree_proper (first : Val) (rest : List Item) :
    (exprTree first rest).proper = true := by
  rw [exprTree_eq]
  exact (climb_proper Val.tree _ _ 0 rest (Val.tree_proper _ first (le_refl _))
    (fun x _ => Val.tree_proper _ x.2.2 (le_refl _))).1

/-- C5: on the tokens of any derivation of
`expression := value (binop value)*`,
`value := Number | '-' Number | '(' expression ')'` the parser terminates
(every fuel from some bound on gives the same outcome), leaves the error
flag false and returns a tree without null pointers whose operators are
binary operators. -/
theorem grammatical_input_is_parsed (first : Val) (rest : List Item) :
    ∃ (F : Nat) (tree : Node) (s : Parser), ∀ fuel,
      Parser.ctor (F + fuel) (exprTokens first rest) = Result.ok (tree, s) ∧
        s.error = false ∧ tree.proper = true ∧ exprTokens first rest ≠ [] := by
  obtain ⟨F, hF⟩ := ctor_grammatical first rest
  refine ⟨F, _, _, fun fuel => ⟨hF (F + fuel) (Nat.le_add_right _ _), rfl,
    exprTree_proper first rest, ?_⟩⟩
  cases first <;> simp [exprTokens, Val.tokens]

/-- With the cursor on the last token and that token an operator of
precedence at least `m`, the outer loop of `expression` never ends: the
cursor cannot move, `value` fails, and the same operator is current again. -/
theorem Parser.outer_spins (op : BinOp) (j : ℚ) (m : Int) (hm : m ≤ op.prec) :
    ∀ (fuel : Nat) (lhs : Node) (s : Parser), ¬ s.not_at_last →
      s.current_token = ⟨op.type, j⟩ →
      Parser.expression_outer fuel lhs m ⟨op.type, j⟩ s = Result.out_of_fuel := by
  intro fuel
  induction fuel with
  | zero => intro lhs s _ _; rfl
  | succ f ih =>
    intro lhs s hlast hcur
    have hadv : s.advance_token = Result.ok s := by
      simp [Parser.advance_token, hlast]
    rw [Parser.expression_outer, if_pos (by rw [get_precendene_op]; exact hm), hadv]
    simp only [Result.ok_bind]
    match f, ih with
    | 0, _ => rfl
    | f + 1, ih =>
      have hval : Parser.value (f + 1) s = Result.ok (Node.NULL, { s with error := true }) := by
        rw [Parser.value]
        have hpeek : s.peek_next_token = Result.ok ⟨Token_type.none, 0⟩ := by
          simp [Parser.peek_next_token, hlast]
        simp only [hcur, hpeek, Result.ok_bind, Result.pure_eq]
        cases op <;> simp [BinOp.type]
      rw [hval]
      simp only [Result.ok_bind]
      rw [Parser.expression_inner, if_neg (by simp [hcur])]
      simp only [Result.ok_bind]
      have h := ih (Node.BinaryNode lhs op.type Node.NULL) { s with error := true }
        (by simpa [Parser.not_at_last] using hlast) hcur
      simpa [hcur] using h

/-- C7 (what the code does): on the tokens of `((5)` the parser reports no
error and returns the literal.  `advance_token` cannot move past the final
`)`, so that one token closes both parentheses. -/
theorem unmatched_parenthesis_is_accepted (v j1 j2 j3 : ℚ) (fuel : Nat) :
    Parser.ctor (4 + fuel)
        [⟨Token_type.left_parenthesis, j1⟩, ⟨Token_type.left_parenthesis, j2⟩,
          ⟨Token_type.number, v⟩, ⟨Token_type.right_parenthesis, j3⟩] =
      Result.ok (Node.ValueNode v,
        { tokens := [⟨Token_type.left_parenthesis, j1⟩, ⟨Token_type.left_parenthesis, j2⟩,
            ⟨Token_type.number, v⟩, ⟨Token_type.right_parenthesis, j3⟩]
          token_loc := 3
          current_token := ⟨Token_type.right_parenthesis, j3⟩
          error := false }) := by
  apply Parser.ctor_mono (Nat.le_add_right 4 fuel)
  rfl

/-- The tokens of `2 )`: the parser leaves the error flag false and returns
the leading literal. -/
theorem surplus_token_counterexample :
    Parser.ctor 3 [⟨Token_type.number, 2⟩, ⟨Token_type.right_parenthesis, 0⟩] =
      Result.ok (Node.ValueNode 2,
        { tokens := [⟨Token_type.number, 2⟩, ⟨Token_type.right_parenthesis, 0⟩]
          token_loc := 1
          current_token := ⟨Token_type.right_parenthesis, 0⟩
          error := false }) := by
  decide

/-- The same stray operand inside parentheses is reported: on the tokens
of `( 2 3 )` the inner `value()` finds `3` where it requires `)` and the
error flag is set. -/
theorem stray_operand_in_parentheses_sets_error :
    Parser.ctor 4 [⟨Token_type.left_parenthesis, 0⟩, ⟨Token_type.number, 2⟩,
        ⟨Token_type.number, 3⟩, ⟨Token_type.right_parenthesis, 0⟩] =
      Result.ok (Node.NULL,
        { tokens := [⟨Token_type.left_parenthesis, 0⟩, ⟨Token_type.number, 2⟩,
            ⟨Token_type.number, 3⟩, ⟨Token_type.right_parenthesis, 0⟩]
          token_loc := 2
          current_token := ⟨Token_type.number, 3⟩
          error := true }) := by
  decide

/-- C8 (what the code does): when a complete grammatical expression is
followed by further tokens of which the first is not a binary operator (a
`)`, a number, a `(`), the parser leaves the error flag false and returns
the tree of the leading expression, with the cursor on the first surplus
token; the surplus tokens are not read and no ParseError is reported. -/
theorem surplus_tokens_are_ignored (first : Val) (rest : List Item) (t : Token)
    (post : List Token) (ht : get_precendene t = -1) :
    ∃ F : Nat, ∀ fuel,
      Parser.ctor (F + fuel) (exprTokens first rest ++ t :: post) =
        Result.ok (exprTree first rest,
          { tokens := exprTokens first rest ++ t :: post
            token_loc := (exprTokens first rest).length
            current_token := t
            error := false }) := by
  have hcur := stateAt_current (exprTokens first rest) post t false
  obtain ⟨F, hF⟩ := ctor_sim first rest (t :: post) (by rw [hcur]; exact ht)
  refine ⟨F, fun fuel => ?_⟩
  rw [hF (F + fuel) (Nat.le_add_right _ _)]
  have hs : stateAt (exprTokens first rest ++ t :: post) (exprTokens first rest).length false =
      ⟨exprTokens first rest ++ t :: post, (exprTokens first rest).length, t, false⟩ := by
    have h1 : min (exprTokens first rest).length
        ((exprTokens first rest ++ t :: post).length - 1) = (exprTokens first rest).length := by
      simp
    have h2 := hcur
    simp only [stateAt, h1] at h2 ⊢
    rw [h2]
  rw [hs]

/-- Instance on the tokens of `2 )`. -/
theorem surplus_tokens_are_ignored_witness :
    get_precendene ⟨Token_type.right_parenthesis, 0⟩ = -1 ∧
    ∃ F : Nat, ∀ fuel,
      Parser.ctor (F + fuel)
          (exprTokens (Val.num 2) [] ++ ⟨Token_type.right_parenthesis, 0⟩ :: []) =
        Result.ok (exprTree (Val.num 2) [],
          { tokens := exprTokens (Val.num 2) [] ++ ⟨Token_type.right_parenthesis, 0⟩ :: []
            token_loc := (exprTokens (Val.num 2) []).length
            current_token := ⟨Token_type.right_parenthesis, 0⟩
            error := false }) :=
  ⟨by decide, surplus_tokens_are_ignored (Val.num 2) [] ⟨Token_type.right_parenthesis, 0⟩ []
    (by decide)⟩

/-- C9 (what the code does): on the input `1 0x` the lexer stops at the
`0x` with its diagnostic and keeps the token of `1`, but `calculate` runs
the parser on that token all the same and prints `1`; on `0x` alone the
token vector is empty and `tokens.at(0)` throws. -/
theorem hex_error_is_not_propagated (pow : ℚ → ℚ → Option ℚ) (junk : Nat → Token)
    (fuel : Nat) :
    Lexer.ctor junk ['1', ' ', '0', 'x'] =
        Result.ok
          ({ tokens := [⟨Token_type.number, 1⟩], expression := ['1', ' ', '0', 'x'], loc := 3,
             start := 2, current := 'x' }, true) ∧
      calculate pow junk (3 + fuel) ['1', ' ', '0', 'x'] =
        Result.ok (Output.printed (Exec.value 1)) ∧
      calculate pow junk fuel ['0', 'x'] = Result.out_of_range := by
  have hlex : Lexer.ctor junk ['1', ' ', '0', 'x'] =
      Result.ok
        ({ tokens := [⟨Token_type.number, 1⟩], expression := ['1', ' ', '0', 'x'], loc := 3,
           start := 2, current := 'x' }, true) := by
    simp +decide [Lexer.ctor, Lexer.scan, Lexer.advance_while, Lexer.peek,
      Lexer.peek_and_advance, Lexer.advance, Lexer.substr, atof, digits_value]
  have hlex0 : Lexer.ctor junk ['0', 'x'] =
      Result.ok
        ({ tokens := [], expression := ['0', 'x'], loc := 1, start := 0, current := 'x' },
          true) := by
    simp +decide [Lexer.ctor, Lexer.scan, Lexer.peek, Lexer.peek_and_advance, Lexer.advance]
  have hparse : Parser.ctor (3 + fuel) [⟨Token_type.number, 1⟩] =
      Result.ok (Node.ValueNode 1, ⟨[⟨Token_type.number, 1⟩], 0, ⟨Token_type.number, 1⟩, false⟩) :=
    Parser.ctor_mono (Nat.le_add_right 3 fuel) (by decide)
  refine ⟨hlex, ?_, ?_⟩
  · simp only [calculate, hlex, Result.ok_bind, hparse]
    simp [Parser.run, Node.execute]
  · simp only [calculate, hlex0, Result.ok_bind]
    rfl

/-- C10: wherever `value()` is called with `-` as current token and a
number `N` of value `v` next, it returns `Literal(-v)` with the cursor two
tokens on (or on the last token) and the error flag unchanged; the
expression `-N` parses to `Literal(-v)`, which evaluates to `-v`; and
`-a op -b` builds `Binary(op, Literal(-a), Literal(-b))`, so that
`-53 + -24` evaluates to `-77`. -/
theorem unary_minus_negates_literal (pow : ℚ → ℚ → Option ℚ) (pre post : List Token)
    (err : Bool) (j v a b j1 j2 j3 : ℚ) (op : BinOp) (fuel : Nat) :
    Parser.value (1 + fuel)
        (stateAt (pre ++ ⟨Token_type.minus, j⟩ :: ⟨Token_type.number, v⟩ :: post) pre.length err) =
      Result.ok (Node.ValueNode (-v),
        stateAt (pre ++ ⟨Token_type.minus, j⟩ :: ⟨Token_type.number, v⟩ :: post)
          (pre.length + 2) err) ∧
    Parser.ctor (2 + fuel) [⟨Token_type.minus, j⟩, ⟨Token_type.number, v⟩] =
      Result.ok (Node.ValueNode (-v),
        { tokens := [⟨Token_type.minus, j⟩, ⟨Token_type.number, v⟩]
          token_loc := 1
          current_token := ⟨Token_type.number, v⟩
          error := false }) ∧
    (Node.ValueNode (-v)).execute pow = Exec.value (-v) ∧
    Parser.ctor (4 + fuel)
        [⟨Token_type.minus, j1⟩, ⟨Token_type.number, a⟩, ⟨op.type, j2⟩, ⟨Token_type.minus, j3⟩,
          ⟨Token_type.number, b⟩] =
      Result.ok (Node.BinaryNode (Node.ValueNode (-a)) op.type (Node.ValueNode (-b)),
        { tokens := [⟨Token_type.minus, j1⟩, ⟨Token_type.number, a⟩, ⟨op.type, j2⟩,
            ⟨Token_type.minus, j3⟩, ⟨Token_type.number, b⟩]
          token_loc := 4
          current_token := ⟨Token_type.number, b⟩
          error := false }) ∧
    (Node.BinaryNode (Node.ValueNode (-53)) Token_type.plus (Node.ValueNode (-24))).execute pow =
      Exec.value (-77) := by
  refine ⟨?_, ?_, rfl, ?_, ?_⟩
  · have hne : pre ++ ⟨Token_type.minus, j⟩ :: ⟨Token_type.number, v⟩ :: post ≠ [] := by simp
    apply Parser.value_mono (Nat.le_add_right 1 fuel)
    rw [Parser.value]
    simp only [stateAt_current, stateAt_peek, stateAt_advance _ _ _ hne, Result.ok_bind,
      Result.pure_eq]
    simp
  · exact Parser.ctor_mono (Nat.le_add_right 2 fuel) rfl
  · apply Parser.ctor_mono (Nat.le_add_right 4 fuel)
    cases op <;> rfl
  · simp only [Node.execute, Exec.arith]
    norm_num

theorem Node.execute_arithmetic (pow : ℚ → ℚ → Option ℚ) (t : Node) (h : t.arithmetic = true) :
    t.execute pow = if t.defined = true then Exec.value t.total else Exec.undefined := by
  induction t with
  | NULL => simp [Node.arithmetic] at h
  | ValueNode v => simp [Node.execute, Node.defined, Node.total]
  | BinaryNode l op r ihl ihr =>
    simp only [Node.arithmetic, Bool.and_eq_true, Bool.or_eq_true, decide_eq_true_eq] at h
    obtain ⟨⟨hl, hr⟩, hop⟩ := h
    rcases hop with ((hop | hop) | hop) | hop <;> subst hop <;>
      by_cases h1 : l.defined = true <;> by_cases h2 : r.defined = true <;>
      simp [Node.execute, ihl hl, ihr hr, Node.defined, Node.total, Exec.arith, h1, h2]
    by_cases h3 : r.total = 0 <;> simp [h3]

/-- Adding `d` to the finished sum commutes with the conventional steps. -/
theorem conv_fold_shift (S : List (BinOp × ℚ)) :
    ∀ (acc t d : ℚ), S.foldl conv_step (d + acc, t) =
      (d + (S.foldl conv_step (acc, t)).1, (S.foldl conv_step (acc, t)).2) := by
  induction S with
  | nil => intro acc t d; rfl
  | cons x xs ih =>
    intro acc t d
    obtain ⟨op, v⟩ := x
    cases op <;> simp only [List.foldl_cons, conv_step]
    · rw [add_assoc]; exact ih _ _ _
    · rw [add_assoc]; exact ih _ _ _
    · exact ih _ _ _
    · exact ih _ _ _
    · exact ih _ _ _

/-- Over `*` and `/` only, the finished sum stays and the term is scaled. -/
theorem conv_fold_product (S : List (BinOp × ℚ))
    (hS : ∀ x ∈ S, x.1 = BinOp.multiply ∨ x.1 = BinOp.divide) :
    ∀ (acc c t : ℚ), S.foldl conv_step (acc, c * t) =
      (acc, c * (S.foldl conv_step (0, t)).2) := by
  induction S with
  | nil => intro acc c t; rfl
  | cons x xs ih =>
    intro acc c t
    obtain ⟨op, v⟩ := x
    have hx := hS (op, v) (List.mem_cons_self _ _)
    have hxs : ∀ y ∈ xs, y.1 = BinOp.multiply ∨ y.1 = BinOp.divide :=
      fun y hy => hS y (List.mem_cons_of_mem _ hy)
    rcases hx with h | h <;> simp only at h <;> subst h <;>
      simp only [List.foldl_cons, conv_step]
    · rw [mul_assoc]; exact ih hxs _ _ _
    · rw [mul_div_assoc]; exact ih hxs _ _ _

theorem conv_fold_product_one (S : List (BinOp × ℚ))
    (hS : ∀ x ∈ S, x.1 = BinOp.multiply ∨ x.1 = BinOp.divide) (acc t : ℚ) :
    S.foldl conv_step (acc, t) = (acc, (S.foldl conv_step (0, t)).2) := by
  have := conv_fold_product S hS acc 1 t
  rw [one_mul, one_mul] at this
  exact this

theorem conv_value_nil (a : ℚ) : conv_value a [] = a := by
  simp [conv_value]

theorem conv_value_product (S : List (BinOp × ℚ))
    (hS : ∀ x ∈ S, x.1 = BinOp.multiply ∨ x.1 = BinOp.divide) (t : ℚ) :
    conv_value t S = (S.foldl conv_step (0, t)).2 := by
  unfold conv_value
  rw [conv_fold_product_one S hS 0 t]
  simp only [zero_add]

/-- Closing the open term before a `+` or `-` (or at the end): what came
before only matters through its value. -/
theorem conv_fold_close (S2 : List (BinOp × ℚ)) (p : ℚ × ℚ)
    (h2 : ∀ x ∈ S2.head?, x.1 = BinOp.plus ∨ x.1 = BinOp.minus) :
    (S2.foldl conv_step p).1 + (S2.foldl conv_step p).2 = conv_value (p.1 + p.2) S2 := by
  match S2, h2 with
  | [], _ => simp [conv_value]
  | (op, w) :: S, h2 =>
    have h := h2 (op, w) (by simp)
    rcases h with h | h <;> simp only at h <;> subst h <;>
      simp [conv_value, conv_step]

/-- The step of precedence climbing, read on values: folding `op` with the
conventional value of the tighter-binding run `S1` that follows its operand
is the conventional value of the whole, provided the next operator binds no
tighter than `op`. -/
theorem conv_value_join (op : BinOp) (a v : ℚ) (S1 S2 : List (BinOp × ℚ))
    (hop : op ≠ BinOp.power) (h1 : ∀ x ∈ S1, op.prec < x.1.prec ∧ x.1 ≠ BinOp.power)
    (h2 : ∀ x ∈ S2.head?, x.1.prec ≤ op.prec) :
    conv_value (op.apply a (conv_value v S1)) S2 = conv_value a ((op, v) :: (S1 ++ S2)) := by
  cases op with
  | power => exact absurd rfl hop
  | plus =>
    have hh : ∀ x ∈ S2.head?, x.1 = BinOp.plus ∨ x.1 = BinOp.minus := by
      intro x hx
      have := h2 x hx
      left
      revert this
      cases x.1 <;> simp [BinOp.prec]
    have e1 : conv_value a ((BinOp.plus, v) :: (S1 ++ S2)) =
        (S2.foldl conv_step (S1.foldl conv_step (a + 0, v))).1 +
          (S2.foldl conv_step (S1.foldl conv_step (a + 0, v))).2 := by
      simp [conv_value, conv_step, List.foldl_append]
    rw [e1, conv_fold_close S2 _ hh, conv_fold_shift S1 0 v a]
    refine congrArg (fun z => conv_value z S2) ?_
    simp only [BinOp.apply, conv_value]
    ring
  | minus =>
    have hS1 : ∀ x ∈ S1, x.1 = BinOp.multiply ∨ x.1 = BinOp.divide := by
      intro x hx
      have := h1 x hx
      revert this
      cases x.1 <;> simp [BinOp.prec]
    have hh : ∀ x ∈ S2.head?, x.1 = BinOp.plus ∨ x.1 = BinOp.minus := by
      intro x hx
      have := h2 x hx
      revert this
      cases x.1 <;> simp [BinOp.prec]
    have e1 : conv_value a ((BinOp.minus, v) :: (S1 ++ S2)) =
        (S2.foldl conv_step (S1.foldl conv_step (a, -1 * v))).1 +
          (S2.foldl conv_step (S1.foldl conv_step (a, -1 * v))).2 := by
      simp [conv_value, conv_step, List.foldl_append]
    rw [e1, conv_fold_close S2 _ hh, conv_fold_product S1 hS1 a (-1) v,
      conv_value_product S1 hS1]
    refine congrArg (fun z => conv_value z S2) ?_
    simp only [BinOp.apply]
    ring
  | multiply =>
    have hS1 : ∀ x ∈ S1, x.1 = BinOp.multiply ∨ x.1 = BinOp.divide := by
      intro x hx
      have := h1 x hx
      revert this
      cases x.1 <;> simp [BinOp.prec]
    simp only [BinOp.apply, conv_value_product S1 hS1]
    simp only [conv_value, List.foldl_cons, List.foldl_append, conv_step]
    rw [conv_fold_product S1 hS1 0 a v]
  | divide =>
    have hS1 : S1 = [] := by
      match S1, h1 with
      | [], _ => rfl
      | x :: xs, h1 =>
        have := h1 x (List.mem_cons_self _ _)
        revert this
        cases x.1 <;> simp [BinOp.prec]
    subst hS1
    simp [BinOp.apply, conv_value, conv_step]

theorem Node.total_binary (l r : Node) (op : BinOp) :
    (Node.BinaryNode l op.type r).total = op.apply l.total r.total := by
  cases op <;> rfl

theorem Node.arithmetic_binary (l r : Node) (op : BinOp) (hop : op ≠ BinOp.power)
    (hl : l.arithmetic = true) (hr : r.arithmetic = true) :
    (Node.BinaryNode l op.type r).arithmetic = true := by
  cases op <;> first | exact absurd rfl hop | simp [Node.arithmetic, BinOp.type, hl, hr]

theorem Node.defined_binary (l r : Node) (op : BinOp) :
    (Node.BinaryNode l op.type r).defined = true ↔
      l.defined = true ∧ r.defined = true ∧ (op = BinOp.divide → r.total ≠ 0) := by
  cases op <;> simp [Node.defined, BinOp.type, and_assoc]

theorem items_defined_nil {α : Type} (tv : α → Node) : items_defined tv [] := by
  intro x hx; cases hx

theorem items_defined_cons {α : Type} (tv : α → Node) (x : BinOp × ℚ × α)
    (L : List (BinOp × ℚ × α)) :
    items_defined tv (x :: L) ↔
      ((tv x.2.2).defined = true ∧ (x.1 = BinOp.divide → (tv x.2.2).total ≠ 0)) ∧
        items_defined tv L := by
  simp [items_defined]

theorem items_defined_append {α : Type} (tv : α → Node) (A B : List (BinOp × ℚ × α)) :
    items_defined tv (A ++ B) ↔ items_defined tv A ∧ items_defined tv B := by
  simp only [items_defined, List.mem_append]
  constructor
  · intro h; exact ⟨fun x hx => h x (Or.inl hx), fun x hx => h x (Or.inr hx)⟩
  · rintro ⟨h1, h2⟩ x (hx | hx)
    · exact h1 x hx
    · exact h2 x hx

/-- What precedence climbing computes on a `+ - * /` list: the tree of the
consumed run `P` has the conventional value of `lhs P`, and is defined
exactly when `lhs` and the operands are and no divisor is zero. -/
theorem climb_values {α : Type} (tv : α → Node) :
    ∀ (n : Nat) (L : List (BinOp × ℚ × α)), L.length ≤ n →
      (∀ x ∈ L, x.1 ≠ BinOp.power) → (∀ x ∈ L, (tv x.2.2).arithmetic = true) →
      ∀ (lhs : Node) (m : Int), lhs.arithmetic = true →
      ∃ P, L = P ++ (climbFull tv lhs m L).2 ∧ (∀ x ∈ P, m ≤ x.1.prec) ∧
        (∀ x ∈ (climbFull tv lhs m L).2.head?, x.1.prec < m) ∧
        (climbFull tv lhs m L).1.total = conv_value lhs.total (item_values tv P) ∧
        (climbFull tv lhs m L).1.arithmetic = true ∧
        ((climbFull tv lhs m L).1.defined = true ↔
          lhs.defined = true ∧ items_defined tv P) := by
  intro n
  induction n with
  | zero =>
    intro L hL _ _ lhs m hlhs
    have : L = [] := List.length_eq_zero.mp (by omega)
    subst this
    refine ⟨[], by simp [climbFull_nil], by simp, by simp [climbFull_nil], ?_, hlhs, ?_⟩
    · simp [climbFull_nil, item_values, conv_value_nil]
    · simp [climbFull_nil, items_defined_nil]
  | succ n ih =>
    intro L hL hnp har lhs m hlhs
    match L, hL, hnp, har with
    | [], _, _, _ =>
      refine ⟨[], by simp [climbFull_nil], by simp, by simp [climbFull_nil], ?_, hlhs, ?_⟩
      · simp [climbFull_nil, item_values, conv_value_nil]
      · simp [climbFull_nil, items_defined_nil]
    | (op, j, v) :: rest, hL, hnp, har =>
      by_cases hp : op.prec < m
      · rw [climbFull_stop _ _ _ _ _ _ _ hp]
        refine ⟨[], rfl, by simp, by simpa using hp, ?_, hlhs, ?_⟩
        · simp [item_values, conv_value_nil]
        · simp [items_defined_nil]
      · have hrest : rest.length ≤ n := by simpa using hL
        have hop : op ≠ BinOp.power := hnp (op, j, v) (List.mem_cons_self _ _)
        obtain ⟨P1, hP1, hge1, hhead1, htot1, har1, hdef1⟩ := ih rest hrest
          (fun x hx => hnp x (List.mem_cons_of_mem _ hx))
          (fun x hx => har x (List.mem_cons_of_mem _ hx)) (tv v) (op.prec + 1)
          (har (op, j, v) (List.mem_cons_self _ _))
        have hmemR : ∀ x ∈ (climbFull tv (tv v) (op.prec + 1) rest).2, x ∈ rest := by
          intro x hx; rw [hP1]; exact List.mem_append_right _ hx
        obtain ⟨P2, hP2, hge2, hhead2, htot2, har2, hdef2⟩ := ih _
          (le_trans (climbFull_length _ _ _ _) hrest)
          (fun x hx => hnp x (List.mem_cons_of_mem _ (hmemR x hx)))
          (fun x hx => har x (List.mem_cons_of_mem _ (hmemR x hx)))
          (Node.BinaryNode lhs op.type (climbFull tv (tv v) (op.prec + 1) rest).1) m
          (Node.arithmetic_binary _ _ op hop hlhs har1)
        rw [climbFull_step _ _ _ _ _ _ _ hp]
        have hP1np : ∀ x ∈ item_values tv P1, op.prec < x.1.prec ∧ x.1 ≠ BinOp.power := by
          intro x hx
          simp only [item_values, List.mem_map] at hx
          obtain ⟨y, hy, rfl⟩ := hx
          have h1 := hge1 y hy
          have h2 := hnp y (List.mem_cons_of_mem _ (by rw [hP1]; exact List.mem_append_left _ hy))
          refine ⟨?_, h2⟩
          show op.prec < y.1.prec
          omega
        have hP2head : ∀ x ∈ (item_values tv P2).head?, x.1.prec ≤ op.prec := by
          intro x hx
          match P2, hP2 with
          | [], _ => simp [item_values] at hx
          | y :: ys, hP2 =>
            simp only [item_values, List.map_cons, List.head?_cons, Option.mem_def,
              Option.some.injEq] at hx
            subst hx
            have := hhead1 y (by rw [hP2]; simp)
            show y.1.prec ≤ op.prec
            omega
        refine ⟨(op, j, v) :: (P1 ++ P2), ?_, ?_, hhead2, ?_, har2, ?_⟩
        · rw [List.cons_append, List.append_assoc, ← hP2, ← hP1]
        · intro x hx
          rcases List.mem_cons.mp hx with h | h
          · subst h; simp only; omega
          · rcases List.mem_append.mp h with h | h
            · have := hge1 x h
              have := op.prec_nonneg
              omega
            · exact hge2 x h
        · rw [htot2, Node.total_binary _ _ op, htot1]
          have : item_values tv ((op, j, v) :: (P1 ++ P2)) =
              (op, (tv v).total) :: (item_values tv P1 ++ item_values tv P2) := by
            simp [item_values]
          rw [this]
          exact conv_value_join op _ _ _ _ hop hP1np hP2head
        · rw [hdef2, Node.defined_binary, hdef1, items_defined_cons, items_defined_append]
          have hdiv : op = BinOp.divide →
              (climbFull tv (tv v) (op.prec + 1) rest).1.total = (tv v).total := by
            intro hd
            subst hd
            have : P1 = [] := by
              match P1, hge1, hP1np with
              | [], _, _ => rfl
              | y :: ys, hge1, _ =>
                have h1 := hge1 y (List.mem_cons_self _ _)
                have h2 := hnp y (List.mem_cons_of_mem _
                  (by rw [hP1]; exact List.mem_append_left _ (List.mem_cons_self _ _)))
                revert h1 h2
                cases y.1 <;> simp [BinOp.prec]
            rw [htot1, this]
            simp [item_values, conv_value_nil]
          constructor
          · rintro ⟨⟨h1, ⟨h2, h3⟩, h4⟩, h5⟩
            exact ⟨h1, ⟨h2, fun hd => by rw [← hdiv hd]; exact h4 hd⟩, h3, h5⟩
          · rintro ⟨h1, ⟨h2, h4⟩, h3, h5⟩
            exact ⟨⟨h1, ⟨h2, h3⟩, fun hd => by rw [hdiv hd]; exact h4 hd⟩, h5⟩

theorem conv_step_additive (op : BinOp) (hop : op.additive = true) (a s w : ℚ) :
    conv_step (a, s) (op, w) = (a + s, op.apply 0 w) := by
  cases op <;> simp [BinOp.additive] at hop <;> simp [conv_step, BinOp.apply]

theorem conv_step_product (pending op : BinOp) (hpend : pending.additive = true)
    (hop : op.additive = false) (hnp : op ≠ BinOp.power) (a t w : ℚ) :
    conv_step (a, pending.apply 0 t) (op, w) = (a, pending.apply 0 (op.apply t w)) := by
  cases pending <;> simp [BinOp.additive] at hpend <;>
    cases op <;> simp [BinOp.additive] at hop <;>
    first
      | exact absurd rfl hnp
      | (simp only [conv_step, BinOp.apply, Prod.mk.injEq, true_and]; ring)

theorem BinOp.apply_additive (op : BinOp) (hop : op.additive = true) (a b : ℚ) :
    op.apply a b = a + op.apply 0 b := by
  cases op <;> simp [BinOp.additive] at hop
  · simp [BinOp.apply]
  · simp [BinOp.apply, sub_eq_add_neg]

theorem BinOp.additive_ne_divide (op : BinOp) (hop : op.additive = true) :
    op ≠ BinOp.divide := by
  cases op <;> simp [BinOp.additive] at hop <;> simp

theorem BinOp.additive_ne_power (op : BinOp) (hop : op.additive = true) :
    op ≠ BinOp.power := by
  cases op <;> simp [BinOp.additive] at hop <;> simp

/-- Value and definedness of the conventional parse, with a pending sum. -/
theorem conventional_sum_values {α : Type} (tv : α → Node) :
    ∀ (L : List (BinOp × ℚ × α)), (∀ x ∈ L, x.1 ≠ BinOp.power) →
      (∀ x ∈ L, (tv x.2.2).arithmetic = true) →
      ∀ (sum : Node) (pending : BinOp) (term : Node), pending.additive = true →
        sum.arithmetic = true → term.arithmetic = true →
        (conventional_sum tv sum pending term L).total =
            ((item_values tv L).foldl conv_step (sum.total, pending.apply 0 term.total)).1 +
              ((item_values tv L).foldl conv_step (sum.total, pending.apply 0 term.total)).2 ∧
          (conventional_sum tv sum pending term L).arithmetic = true ∧
          ((conventional_sum tv sum pending term L).defined = true ↔
            sum.defined = true ∧ term.defined = true ∧ items_defined tv L) := by
  intro L
  induction L with
  | nil =>
    intro _ _ sum pending term hpend hsum hterm
    refine ⟨?_, ?_, ?_⟩
    · simp only [conventional_sum, item_values, List.map_nil, List.foldl_nil,
        Node.total_binary]
      exact BinOp.apply_additive pending hpend _ _
    · exact Node.arithmetic_binary _ _ pending (pending.additive_ne_power hpend) hsum hterm
    · simp only [conventional_sum, Node.defined_binary]
      constructor
      · rintro ⟨h1, h2, _⟩; exact ⟨h1, h2, items_defined_nil tv⟩
      · rintro ⟨h1, h2, _⟩
        exact ⟨h1, h2, fun hd => absurd hd (pending.additive_ne_divide hpend)⟩
  | cons x xs ih =>
    intro hnp har sum pending term hpend hsum hterm
    obtain ⟨op, j, v⟩ := x
    have hop : op ≠ BinOp.power := hnp (op, j, v) (List.mem_cons_self _ _)
    have hv : (tv v).arithmetic = true := har (op, j, v) (List.mem_cons_self _ _)
    have hnp' : ∀ y ∈ xs, y.1 ≠ BinOp.power := fun y hy => hnp y (List.mem_cons_of_mem _ hy)
    have har' : ∀ y ∈ xs, (tv y.2.2).arithmetic = true :=
      fun y hy => har y (List.mem_cons_of_mem _ hy)
    have hiv : item_values tv ((op, j, v) :: xs) = (op, (tv v).total) :: item_values tv xs := by
      simp [item_values]
    by_cases hadd : op.additive = true
    · obtain ⟨h1, h2, h3⟩ := ih hnp' har' (Node.BinaryNode sum pending.type term) op (tv v) hadd
        (Node.arithmetic_binary _ _ pending (pending.additive_ne_power hpend) hsum hterm) hv
      simp only [conventional_sum, if_pos hadd]
      refine ⟨?_, h2, ?_⟩
      · rw [h1, hiv, List.foldl_cons, conv_step_additive op hadd, Node.total_binary,
          BinOp.apply_additive pending hpend]
      · rw [h3, Node.defined_binary, items_defined_cons]
        constructor
        · rintro ⟨⟨h4, h5, _⟩, h6, h7⟩
          exact ⟨h4, h5, ⟨h6, fun hd => absurd hd (op.additive_ne_divide hadd)⟩, h7⟩
        · rintro ⟨h4, h5, ⟨h6, _⟩, h7⟩
          exact ⟨⟨h4, h5, fun hd => absurd hd (pending.additive_ne_divide hpend)⟩, h6, h7⟩
    · have hadd' : op.additive = false := by simpa using hadd
      obtain ⟨h1, h2, h3⟩ := ih hnp' har' sum pending (Node.BinaryNode term op.type (tv v)) hpend
        hsum (Node.arithmetic_binary _ _ op hop hterm hv)
      simp only [conventional_sum, if_neg hadd]
      refine ⟨?_, h2, ?_⟩
      · rw [h1, hiv, List.foldl_cons, conv_step_product pending op hpend hadd' hop,
          Node.total_binary]
      · rw [h3, Node.defined_binary, items_defined_cons]
        constructor
        · rintro ⟨h4, ⟨h5, h6, h7⟩, h8⟩
          exact ⟨h4, h5, ⟨h6, h7⟩, h8⟩
        · rintro ⟨h4, h5, ⟨h6, h7⟩, h8⟩
          exact ⟨h4, ⟨h5, h6, h7⟩, h8⟩

/-- Value and definedness of the conventional parse. -/
theorem conventional_start_values {α : Type} (tv : α → Node) :
    ∀ (L : List (BinOp × ℚ × α)), (∀ x ∈ L, x.1 ≠ BinOp.power) →
      (∀ x ∈ L, (tv x.2.2).arithmetic = true) →
      ∀ (term : Node), term.arithmetic = true →
        (conventional_start tv term L).total = conv_value term.total (item_values tv L) ∧
          (conventional_start tv term L).arithmetic = true ∧
          ((conventional_start tv term L).defined = true ↔
            term.defined = true ∧ items_defined tv L) := by
  intro L
  induction L with
  | nil =>
    intro _ _ term hterm
    refine ⟨?_, hterm, ?_⟩
    · simp [conventional_start, item_values, conv_value_nil]
    · simp [conventional_start, items_defined_nil]
  | cons x xs ih =>
    intro hnp har term hterm
    obtain ⟨op, j, v⟩ := x
    have hop : op ≠ BinOp.power := hnp (op, j, v) (List.mem_cons_self _ _)
    have hv : (tv v).arithmetic = true := har (op, j, v) (List.mem_cons_self _ _)
    have hnp' : ∀ y ∈ xs, y.1 ≠ BinOp.power := fun y hy => hnp y (List.mem_cons_of_mem _ hy)
    have har' : ∀ y ∈ xs, (tv y.2.2).arithmetic = true :=
      fun y hy => har y (List.mem_cons_of_mem _ hy)
    have hiv : item_values tv ((op, j, v) :: xs) = (op, (tv v).total) :: item_values tv xs := by
      simp [item_values]
    by_cases hadd : op.additive = true
    · obtain ⟨h1, h2, h3⟩ := conventional_sum_values tv xs hnp' har' term op (tv v) hadd hterm hv
      simp only [conventional_start, if_pos hadd]
      refine ⟨?_, h2, ?_⟩
      · rw [h1, hiv, conv_value, List.foldl_cons, conv_step_additive op hadd, zero_add]
      · rw [h3, items_defined_cons]
        constructor
        · rintro ⟨h4, h5, h6⟩
          exact ⟨h4, ⟨h5, fun hd => absurd hd (op.additive_ne_divide hadd)⟩, h6⟩
        · rintro ⟨h4, ⟨h5, _⟩, h6⟩
          exact ⟨h4, h5, h6⟩
    · have hadd' : op.additive = false := by simpa using hadd
      obtain ⟨h1, h2, h3⟩ := ih hnp' har' (Node.BinaryNode term op.type (tv v))
        (Node.arithmetic_binary _ _ op hop hterm hv)
      simp only [conventional_start, if_neg hadd]
      refine ⟨?_, h2, ?_⟩
      · rw [h1, hiv, Node.total_binary]
        have := conv_step_product BinOp.plus op rfl hadd' hop 0 term.total (tv v).total
        simp only [BinOp.apply, zero_add] at this
        simp only [conv_value, List.foldl_cons, this]
        rfl
      · rw [h3, Node.defined_binary, items_defined_cons]
        constructor
        · rintro ⟨⟨h5, h6, h7⟩, h8⟩
          exact ⟨h5, ⟨h6, h7⟩, h8⟩
        · rintro ⟨h5, ⟨h6, h7⟩, h8⟩
          exact ⟨⟨h5, h6, h7⟩, h8⟩

theorem conventional_sum_map {α : Type} (tv : α → Node) :
    ∀ (L : List (BinOp × ℚ × α)) (sum : Node) (pending : BinOp) (term : Node),
      conventional_sum id sum pending term (L.map (fun x => (x.1, x.2.1, tv x.2.2))) =
        conventional_sum tv sum pending term L := by
  intro L
  induction L with
  | nil => intro sum pending term; rfl
  | cons x xs ih =>
    intro sum pending term
    obtain ⟨op, j, v⟩ := x
    by_cases hadd : op.additive = true
    · simp only [List.map_cons, conventional_sum, if_pos hadd, id]; exact ih _ _ _
    · simp only [List.map_cons, conventional_sum, if_neg hadd, id]; exact ih _ _ _

theorem conventional_start_map {α : Type} (tv : α → Node) :
    ∀ (L : List (BinOp × ℚ × α)) (term : Node),
      conventional_start id term (L.map (fun x => (x.1, x.2.1, tv x.2.2))) =
        conventional_start tv term L := by
  intro L
  induction L with
  | nil => intro term; rfl
  | cons x xs ih =>
    intro term
    obtain ⟨op, j, v⟩ := x
    by_cases hadd : op.additive = true
    · simp only [List.map_cons, conventional_start, if_pos hadd, id]
      exact conventional_sum_map tv xs _ _ _
    · simp only [List.map_cons, conventional_start, if_neg hadd, id]; exact ih _

theorem itemsConventional_eq_map (L : List Item) :
    itemsConventional L = L.map (fun x => (x.1, x.2.1, x.2.2.conventional)) := by
  induction L with
  | nil => simp [itemsConventional]
  | cons x xs ih =>
    obtain ⟨op, j, v⟩ := x
    simp [itemsConventional, ih]

theorem exprConventional_eq (first : Val) (rest : List Item) :
    exprConventional first rest = conventional_start Val.conventional first.conventional rest := by
  simp [exprConventional, itemsConventional_eq_map, conventional_start_map]

theorem itemsNoPower_mem (L : List Item) (h : itemsNoPower L = true) :
    ∀ x ∈ L, x.1 ≠ BinOp.power ∧ x.2.2.no_power = true := by
  induction L with
  | nil => intro x hx; cases hx
  | cons y ys ih =>
    obtain ⟨op, j, v⟩ := y
    simp only [itemsNoPower, Bool.and_eq_true, decide_eq_true_eq] at h
    intro x hx
    rcases List.mem_cons.mp hx with hx | hx
    · subst hx; exact ⟨h.1.1, h.1.2⟩
    · exact ih h.2 x hx

/-- On a derivation without `^`, the tree of the precedence-climbing
specification and the conventional tree are `+ - * /` trees with the same
value and the same divisions by zero. -/
theorem values_agree : ∀ (n : Nat) (first : Val) (rest : List Item),
    first.size + itemsSize rest ≤ n → first.no_power = true → itemsNoPower rest = true →
    (exprTree first rest).total = (exprConventional first rest).total ∧
      (exprTree first rest).arithmetic = true ∧
      (exprConventional first rest).arithmetic = true ∧
      ((exprTree first rest).defined = true ↔ (exprConventional first rest).defined = true) := by
  intro n
  induction n with
  | zero =>
    intro first rest hsz
    cases first <;> simp [Val.size] at hsz
  | succ n ih =>
    intro first rest hsz hf hr
    -- every operand, being smaller, agrees
    have hval : ∀ (v : Val), v.size ≤ n → v.no_power = true →
        v.tree.total = v.conventional.total ∧ v.tree.arithmetic = true ∧
          v.conventional.arithmetic = true ∧
          (v.tree.defined = true ↔ v.conventional.defined = true) := by
      intro v hv hnp
      cases v with
      | num q => simp [Val.tree, Val.conventional, Node.arithmetic]
      | neg j q => simp [Val.tree, Val.conventional, Node.arithmetic]
      | paren j1 f r j2 =>
        simp only [Val.size] at hv
        simp only [Val.no_power, Bool.and_eq_true] at hnp
        have := ih f r (by omega) hnp.1 hnp.2
        rw [Val.tree_paren]
        exact this
    have hfirst_sz : first.size ≤ n + 1 := by omega
    have hfirst : first.tree.total = first.conventional.total ∧ first.tree.arithmetic = true ∧
        first.conventional.arithmetic = true ∧
        (first.tree.defined = true ↔ first.conventional.defined = true) := by
      cases first with
      | num q => simp [Val.tree, Val.conventional, Node.arithmetic]
      | neg j q => simp [Val.tree, Val.conventional, Node.arithmetic]
      | paren j1 f r j2 =>
        simp only [Val.size] at hsz
        simp only [Val.no_power, Bool.and_eq_true] at hf
        have := ih f r (by omega) hf.1 hf.2
        rw [Val.tree_paren]
        exact this
    have hitems : ∀ x ∈ rest, x.2.2.tree.total = x.2.2.conventional.total ∧
        x.2.2.tree.arithmetic = true ∧ x.2.2.conventional.arithmetic = true ∧
        (x.2.2.tree.defined = true ↔ x.2.2.conventional.defined = true) := by
      intro x hx
      have h1 := itemsSize_mem rest x hx
      have h2 : 1 ≤ first.size := by cases first <;> simp only [Val.size] <;> omega
      exact hval x.2.2 (by omega) (itemsNoPower_mem rest hr x hx).2
    have hnp : ∀ x ∈ rest, x.1 ≠ BinOp.power := fun x hx => (itemsNoPower_mem rest hr x hx).1
    obtain ⟨P, hP, _, _, htot, har, hdef⟩ := climb_values Val.tree rest.length rest (le_refl _)
      hnp (fun x hx => (hitems x hx).2.1) first.tree 0 hfirst.2.1
    rw [climbFull_zero, List.append_nil] at hP
    subst hP
    obtain ⟨ctot, car, cdef⟩ := conventional_start_values Val.conventional rest hnp
      (fun x hx => (hitems x hx).2.2.1) first.conventional hfirst.2.2.1
    have hiv : item_values Val.tree rest = item_values Val.conventional rest := by
      simp only [item_values]
      apply List.map_congr_left
      intro x hx
      rw [(hitems x hx).1]
    have hid : items_defined Val.tree rest ↔ items_defined Val.conventional rest := by
      simp only [items_defined]
      constructor
      · intro h x hx
        have := h x hx
        rw [(hitems x hx).1, (hitems x hx).2.2.2] at this
        exact this
      · intro h x hx
        have := h x hx
        rw [← (hitems x hx).1, ← (hitems x hx).2.2.2] at this
        exact this
    rw [exprTree_eq, exprConventional_eq]
    refine ⟨?_, har, car, ?_⟩
    · rw [htot, ctot, hfirst.1, hiv]
    · rw [hdef, cdef, hfirst.2.2.2, hid]

/-- C4: on the tokens of any derivation of `expression := value (binop value)*`
without `^`, the parser terminates with the error flag clear, and the tree
it builds evaluates, in exact rational arithmetic, to the same outcome as
the conventional parse in which `+ -` share one level, `* /` share a
higher one and all group to the left: the same number, or both have a zero
divisor and no value. -/
theorem conventional_order_of_operations (pow : ℚ → ℚ → Option ℚ) (first : Val)
    (rest : List Item) (hfirst : first.no_power = true) (hrest : itemsNoPower rest = true) :
    ∃ (F : Nat) (tree : Node) (s : Parser), ∀ fuel,
      Parser.ctor (F + fuel) (exprTokens first rest) = Result.ok (tree, s) ∧
        s.error = false ∧
        tree.execute pow = (exprConventional first rest).execute pow := by
  obtain ⟨F, hF⟩ := ctor_grammatical first rest
  obtain ⟨htot, har, car, hdef⟩ := values_agree _ first rest (le_refl _) hfirst hrest
  refine ⟨F, _, _, fun fuel => ⟨hF (F + fuel) (Nat.le_add_right _ _), rfl, ?_⟩⟩
  rw [Node.execute_arithmetic pow _ har, Node.execute_arithmetic pow _ car, htot]
  by_cases h : (exprTree first rest).defined = true
  · rw [if_pos h, if_pos (hdef.mp h)]
  · rw [if_neg h, if_neg (fun h' => h (hdef.mpr h'))]

/-- Instance of C4 on `6 + 3 - 2 + 12`: the conventional parse is
`((6 + 3) - 2) + 12`, of value 19. -/
theorem conventional_order_of_operations_witness :
    (Val.num 6).no_power = true ∧
    itemsNoPower [(BinOp.plus, 0, Val.num 3), (BinOp.minus, 0, Val.num 2),
      (BinOp.plus, 0, Val.num 12)] = true ∧
    (exprConventional (Val.num 6) [(BinOp.plus, 0, Val.num 3), (BinOp.minus, 0, Val.num 2),
      (BinOp.plus, 0, Val.num 12)]).execute (fun _ _ => Option.none) = Exec.value 19 ∧
    ∃ (F : Nat) (tree : Node) (s : Parser), ∀ fuel,
      Parser.ctor (F + fuel)
          (exprTokens (Val.num 6) [(BinOp.plus, 0, Val.num 3), (BinOp.minus, 0, Val.num 2),
            (BinOp.plus, 0, Val.num 12)]) = Result.ok (tree, s) ∧
        s.error = false ∧
        tree.execute (fun _ _ => Option.none) =
          (exprConventional (Val.num 6) [(BinOp.plus, 0, Val.num 3),
            (BinOp.minus, 0, Val.num 2), (BinOp.plus, 0, Val.num 12)]).execute
              (fun _ _ => Option.none) :=
  ⟨by decide, by decide, by decide!,
    conventional_order_of_operations (fun _ _ => Option.none) (Val.num 6)
      [(BinOp.plus, 0, Val.num 3), (BinOp.minus, 0, Val.num 2), (BinOp.plus, 0, Val.num 12)]
      (by decide) (by decide)⟩

theorem Parser.value_stable {f f' : Nat} {s : Parser} (hf : f ≤ f')
    (h : Parser.value f s ≠ Result.out_of_fuel) : Parser.value f' s = Parser.value f s := by
  induction hf with
  | refl => rfl
  | step _ ih => rw [(Parser.fuel_succ _).2.2.2 s (by rw [ih]; exact h), ih]

theorem Parser.inner_stable {f f' : Nat} {rhs : Node} {op c : Token} {s : Parser} (hf : f ≤ f')
    (h : Parser.expression_inner f rhs op c s ≠ Result.out_of_fuel) :
    Parser.expression_inner f' rhs op c s = Parser.expression_inner f rhs op c s := by
  induction hf with
  | refl => rfl
  | step _ ih => rw [(Parser.fuel_succ _).2.2.1 rhs op c s (by rw [ih]; exact h), ih]

/-- A call that finishes at some fuel gives, at any fuel, that outcome or
runs out. -/
theorem Parser.value_cases {F : Nat} {s : Parser} {r : Node × Parser}
    (h : Parser.value F s = Result.ok r) (f : Nat) :
    Parser.value f s = Result.ok r ∨ Parser.value f s = Result.out_of_fuel := by
  by_cases hf : Parser.value f s = Result.out_of_fuel
  · exact Or.inr hf
  · left
    rcases le_total f F with hle | hle
    · rw [← Parser.value_stable hle hf]; exact h
    · exact Parser.value_mono hle h

theorem Parser.inner_cases {F : Nat} {rhs : Node} {op c : Token} {s : Parser}
    {r : Node × Token × Parser} (h : Parser.expression_inner F rhs op c s = Result.ok r)
    (f : Nat) :
    Parser.expression_inner f rhs op c s = Result.ok r ∨
      Parser.expression_inner f rhs op c s = Result.out_of_fuel := by
  by_cases hf : Parser.expression_inner f rhs op c s = Result.out_of_fuel
  · exact Or.inr hf
  · left
    rcases le_total f F with hle | hle
    · rw [← Parser.inner_stable hle hf]; exact h
    · exact Parser.inner_mono hle h

/-- The expression loop on `(binop value)*` followed by one last token `e`
on which the outer loop would spin: either the loop stops before `e` with
the tree of precedence climbing, or it never returns. -/
theorem expression_sim_spin : ∀ (n : Nat) (L : List Item), L.length ≤ n →
    (∀ x ∈ L, ValueOK x.2.2) →
    ∀ (lhs : Node) (m : Int) (ts pre : List Token) (e : Token) (err : Bool),
      ts = pre ++ (itemsTokens L ++ [e]) →
      (∀ (lhs' : Node) (m' : Int) (fuel : Nat), m' ≤ get_precendene e →
        Parser.expression_outer fuel lhs' m' e
          (stateAt ts (pre.length + (itemsTokens L).length) err) = Result.out_of_fuel) →
      (∃ P F, L = P ++ (climbFull Val.tree lhs m L).2 ∧
        Parser.expression F lhs m (stateAt ts pre.length err) =
          Result.ok ((climbFull Val.tree lhs m L).1,
            stateAt ts (pre.length + (itemsTokens P).length) err) ∧
        get_precendene (stateAt ts (pre.length + (itemsTokens P).length) err).current_token < m) ∨
      (∀ fuel, Parser.expression fuel lhs m (stateAt ts pre.length err) = Result.out_of_fuel) := by
  intro n
  induction n with
  | zero =>
    intro L hL _ lhs m ts pre e err hts hspin
    have : L = [] := List.length_eq_zero.mp (by omega)
    subst this
    have hcur : (stateAt ts pre.length err).current_token = e := by
      rw [hts]; exact stateAt_current _ _ _ _
    simp only [itemsTokens, List.length_nil, Nat.add_zero] at hspin ⊢
    by_cases hq : get_precendene e < m
    · left
      refine ⟨[], 2, by simp [climbFull_nil], ?_, by
        simp only [itemsTokens, List.length_nil, Nat.add_zero]; rw [hcur]; exact hq⟩
      rw [climbFull_nil]
      exact Parser.expression_stop 0 lhs m _ (by rw [hcur]; exact hq)
    · right
      intro fuel
      match fuel with
      | 0 => rfl
      | f + 1 =>
        rw [Parser.expression, hcur]
        exact hspin lhs m f (by omega)
  | succ n ih =>
    intro L hL hV lhs m ts pre e err hts hspin
    match L, hL, hV, hts, hspin with
    | [], _, _, hts, hspin =>
      have hcur : (stateAt ts pre.length err).current_token = e := by
        rw [hts]; exact stateAt_current _ _ _ _
      simp only [itemsTokens, List.length_nil, Nat.add_zero] at hspin ⊢
      by_cases hq : get_precendene e < m
      · left
        refine ⟨[], 2, by simp [climbFull_nil], ?_, by
        simp only [itemsTokens, List.length_nil, Nat.add_zero]; rw [hcur]; exact hq⟩
        rw [climbFull_nil]
        exact Parser.expression_stop 0 lhs m _ (by rw [hcur]; exact hq)
      · right
        intro fuel
        match fuel with
        | 0 => rfl
        | f + 1 =>
          rw [Parser.expression, hcur]
          exact hspin lhs m f (by omega)
    | (op, j, v) :: rest, hL, hV, hts, hspin =>
      have hcur : (stateAt ts pre.length err).current_token = ⟨op.type, j⟩ := by
        rw [hts]
        simp only [itemsTokens, List.cons_append]
        exact stateAt_current _ _ _ _
      by_cases hp : op.prec < m
      · left
        refine ⟨[], 2, ?_, ?_, ?_⟩
        · rw [climbFull_stop _ _ _ _ _ _ _ hp]; rfl
        · rw [climbFull_stop _ _ _ _ _ _ _ hp]
          simp only [itemsTokens, List.length_nil, Nat.add_zero]
          exact Parser.expression_stop 0 lhs m _ (by rw [hcur, get_precendene_op]; exact hp)
        · simp only [itemsTokens, List.length_nil, Nat.add_zero]
          rw [hcur, get_precendene_op]; exact hp
      · have hne : ts ≠ [] := by rw [hts]; simp [itemsTokens]
        have hrest : rest.length ≤ n := by simpa using hL
        obtain ⟨F1, hF1⟩ := hV (op, j, v) (List.mem_cons_self _ _) ts
          (pre ++ [⟨op.type, j⟩]) (itemsTokens rest ++ [e]) err
          (by rw [hts]; simp [itemsTokens])
        have hpos1 : (pre ++ [(⟨op.type, j⟩ : Token)]).length = pre.length + 1 := by simp
        have hpos2 : (pre ++ [(⟨op.type, j⟩ : Token)] ++ v.tokens).length =
            pre.length + 1 + v.tokens.length := by simp; omega
        rw [hpos1] at hF1
        -- the head of every run of the loop from here
        have hhead : ∀ (f : Nat) (k : Node × Parser → Result (Node × Parser)),
            Parser.expression (f + 2) lhs m (stateAt ts pre.length err) =
              (Parser.value f (stateAt ts (pre.length + 1) err) >>= k) →
            (∀ r, Parser.value f (stateAt ts (pre.length + 1) err) = Result.ok r →
              k r = Result.out_of_fuel) →
            Parser.expression (f + 2) lhs m (stateAt ts pre.length err) =
              Result.out_of_fuel := by
          intro f k hk hr
          rw [hk]
          rcases Parser.value_cases hF1 f with h | h
          · rw [h]; exact hr _ h
          · rw [h]; rfl
        have hunfold : ∀ (f : Nat),
            Parser.expression (f + 2) lhs m (stateAt ts pre.length err) =
              (Parser.value f (stateAt ts (pre.length + 1) err) >>= fun r =>
                Parser.expression_inner f r.1 ⟨op.type, j⟩ r.2.current_token r.2 >>= fun r' =>
                  Parser.expression_outer f (Node.BinaryNode lhs op.type r'.1) m r'.2.1
                    r'.2.2) := by
          intro f
          rw [Parser.expression, Parser.expression_outer, hcur,
            if_pos (by rw [get_precendene_op]; omega), stateAt_advance _ _ _ hne]
          rfl
        rcases ih rest hrest (fun x hx => hV x (List.mem_cons_of_mem _ hx)) v.tree (op.prec + 1)
          ts (pre ++ [⟨op.type, j⟩] ++ v.tokens) e err
          (by rw [hts]; simp [itemsTokens])
          (by
            have : (pre ++ [(⟨op.type, j⟩ : Token)] ++ v.tokens).length +
                (itemsTokens rest).length
                = pre.length + (itemsTokens ((op, j, v) :: rest)).length := by
              simp [itemsTokens]; omega
            rw [this]; exact hspin) with ⟨P1, F2, hP1, hF2, hpost2⟩ | hdiv1
        · rw [hpos2] at hF2 hpost2
          have hin := Parser.inner_sim F2 v.tree _ ⟨op.type, j⟩ _ _
            (by rw [get_precendene_op]; exact hF2) (by rw [get_precendene_op]; exact hpost2)
          have hR1 : (climbFull Val.tree v.tree (op.prec + 1) rest).2.length ≤ n :=
            le_trans (climbFull_length _ _ _ _) hrest
          have hpos3 : (pre ++ [(⟨op.type, j⟩ : Token)] ++ v.tokens ++ itemsTokens P1).length =
              pre.length + 1 + v.tokens.length + (itemsTokens P1).length := by simp; omega
          rcases ih _ hR1
            (fun x hx => hV x (List.mem_cons_of_mem _
              (by rw [hP1]; exact List.mem_append_right _ hx)))
            (Node.BinaryNode lhs op.type (climbFull Val.tree v.tree (op.prec + 1) rest).1) m ts
            (pre ++ [⟨op.type, j⟩] ++ v.tokens ++ itemsTokens P1) e err
            (by
              rw [hts]
              conv_lhs => rw [hP1]
              simp [itemsTokens, itemsTokens_append])
            (by
              have : (pre ++ [(⟨op.type, j⟩ : Token)] ++ v.tokens ++ itemsTokens P1).length +
                  (itemsTokens (climbFull Val.tree v.tree (op.prec + 1) rest).2).length
                  = pre.length + (itemsTokens ((op, j, v) :: rest)).length := by
                conv_rhs => rw [hP1]
                simp [itemsTokens, itemsTokens_append]; omega
              rw [this]; exact hspin) with ⟨P2, F3, hP2, hF3, hpost3⟩ | hdiv2
          · left
            rw [hpos3] at hF3 hpost3
            have hposP : pre.length + (itemsTokens ((op, j, v) :: (P1 ++ P2))).length =
                pre.length + 1 + v.tokens.length + (itemsTokens P1).length +
                  (itemsTokens P2).length := by
              simp [itemsTokens, itemsTokens_append]; omega
            refine ⟨(op, j, v) :: (P1 ++ P2), F1 + (F2 + 2) + F3 + 2, ?_, ?_, ?_⟩
            · rw [climbFull_step _ _ _ _ _ _ _ hp, List.cons_append, List.append_assoc,
                ← hP2, ← hP1]
            · rw [climbFull_step _ _ _ _ _ _ _ hp, hposP, hunfold,
                Parser.value_mono (by omega) hF1]
              simp only [Result.ok_bind]
              rw [Parser.inner_mono (by omega) hin]
              simp only [Result.ok_bind]
              match F3, hF3 with
              | 0, hF3 => simp [Parser.expression] at hF3
              | f3 + 1, hF3 =>
                rw [Parser.expression] at hF3
                exact Parser.outer_mono (by omega) hF3
            · rw [hposP]; exact hpost3
          · right
            rw [hpos3] at hdiv2
            intro fuel
            match fuel with
            | 0 => rfl
            | 1 => rfl
            | f + 2 =>
              refine hhead f _ (hunfold f) ?_
              intro r hr
              rcases Parser.value_cases hF1 f with h | h
              · rw [h] at hr
                cases hr
                simp only
                rcases Parser.inner_cases hin f with h' | h'
                · rw [h']
                  simp only [Result.ok_bind]
                  have := hdiv2 (f + 1)
                  rw [Parser.expression] at this
                  exact this
                · rw [h']; rfl
              · rw [h] at hr; cases hr
        · right
          rw [hpos2] at hdiv1
          intro fuel
          match fuel with
          | 0 => rfl
          | 1 => rfl
          | f + 2 =>
            refine hhead f _ (hunfold f) ?_
            intro r hr
            rcases Parser.value_cases hF1 f with h | h
            · rw [h] at hr
              cases hr
              simp only
              match f with
              | 0 => rfl
              | f' + 1 =>
                rw [Parser.expression_inner]
                by_cases hc : get_precendene
                    (stateAt ts (pre.length + 1 + v.tokens.length) err).current_token >
                    get_precendene ⟨op.type, j⟩
                · rw [if_pos hc, if_pos hc, get_precendene_op, hdiv1 f']
                  rfl
                · exfalso
                  have h2 := Parser.expression_stop 0 v.tree (op.prec + 1)
                    (stateAt ts (pre.length + 1 + v.tokens.length) err)
                    (by rw [get_precendene_op] at hc; omega)
                  rw [hdiv1 2] at h2
                  cases h2
            · rw [h] at hr; cases hr

/-- C6 (what the code does): on the tokens of any grammatical expression
followed by one trailing binary operator the parser does not halt, at any
fuel; `2 +` is the instance spelled out.  `value` fails on the trailing
operator, but the cursor cannot leave the last token, so the loop of
`expression` that took the operator takes it again, for ever. -/
theorem trailing_operator_never_returns (first : Val) (rest : List Item) (op : BinOp) (j : ℚ)
    (fuel : Nat) :
    Parser.ctor fuel (exprTokens first rest ++ [⟨op.type, j⟩]) = Result.out_of_fuel ∧
      Parser.ctor fuel [⟨Token_type.number, 2⟩, ⟨Token_type.plus, 0⟩] = Result.out_of_fuel := by
  have general : ∀ (first : Val) (rest : List Item) (op : BinOp) (j : ℚ),
      Parser.ctor fuel (exprTokens first rest ++ [⟨op.type, j⟩]) = Result.out_of_fuel := by
    intro first rest op j
    have hts : exprTokens first rest ++ [⟨op.type, j⟩] =
        first.tokens ++ (itemsTokens rest ++ [⟨op.type, j⟩]) := by
      simp [exprTokens]
    obtain ⟨F1, hF1⟩ := value_ok first (exprTokens first rest ++ [⟨op.type, j⟩]) []
      (itemsTokens rest ++ [⟨op.type, j⟩]) false (by simp [exprTokens])
    simp only [List.length_nil, Nat.zero_add] at hF1
    have hendcur : (stateAt (exprTokens first rest ++ [⟨op.type, j⟩])
        (first.tokens.length + (itemsTokens rest).length) false).current_token =
        ⟨op.type, j⟩ := by
      have : first.tokens.length + (itemsTokens rest).length = (exprTokens first rest).length := by
        simp [exprTokens]
      rw [this]
      exact stateAt_current_end _ _ _ _ (le_refl _)
    have hspin : ∀ (lhs' : Node) (m' : Int) (fuel : Nat),
        m' ≤ get_precendene ⟨op.type, j⟩ →
        Parser.expression_outer fuel lhs' m' ⟨op.type, j⟩
          (stateAt (exprTokens first rest ++ [⟨op.type, j⟩])
            (first.tokens.length + (itemsTokens rest).length) false) = Result.out_of_fuel := by
      intro lhs' m' fuel hm
      refine Parser.outer_spins op j m' (by rw [get_precendene_op] at hm; exact hm) fuel lhs' _
        ?_ hendcur
      simp only [Parser.not_at_last, stateAt, exprTokens, List.length_append, List.length_cons,
        List.length_nil]
      omega
    have hdiv : ∀ fuel, Parser.expression fuel first.tree 0
        (stateAt (exprTokens first rest ++ [⟨op.type, j⟩]) first.tokens.length false) =
        Result.out_of_fuel := by
      rcases expression_sim_spin rest.length rest (le_refl _) (fun x _ => value_ok x.2.2)
        first.tree 0 _ first.tokens ⟨op.type, j⟩ false hts hspin with ⟨P, F, hP, _, hpost⟩ | h
      · exfalso
        rw [climbFull_zero, List.append_nil] at hP
        subst hP
        rw [hendcur, get_precendene_op] at hpost
        have := op.prec_nonneg
        omega
      · exact h
    have h0 : at_index (exprTokens first rest ++ [⟨op.type, j⟩]) 0 =
        Result.ok (stateAt (exprTokens first rest ++ [⟨op.type, j⟩]) 0 false).current_token := by
      obtain ⟨init, t, hlast, _⟩ := first.tokens_last
      simp only [exprTokens, hlast]
      cases init <;> simp [at_index, stateAt]
    have hs : (⟨exprTokens first rest ++ [⟨op.type, j⟩], 0,
        (stateAt (exprTokens first rest ++ [⟨op.type, j⟩]) 0 false).current_token, false⟩ :
          Parser) = stateAt (exprTokens first rest ++ [⟨op.type, j⟩]) 0 false := by
      simp [stateAt]
    rw [Parser.ctor, h0]
    simp only [Result.ok_bind, hs]
    rcases Parser.value_cases hF1 fuel with h | h
    · rw [h]
      simp only [Result.ok_bind]
      exact hdiv fuel
    · rw [h]; rfl
  exact ⟨general first rest op j, general (Val.num 2) [] BinOp.plus 0⟩

/-- C11: on the tokens `- ( e )` with `e` any grammatical expression the
parser terminates with its error flag set.  The first `value()` fails on
the `-` (the next token is no number) and returns the null pointer; the
`-` is then taken as a binary operator whose right operand is `( e )`. -/
theorem minus_before_parenthesis_sets_error (first : Val) (rest : List Item) (j1 j2 j3 : ℚ) :
    ∃ F : Nat, ∀ fuel,
      Parser.ctor (F + fuel)
          (⟨Token_type.minus, j1⟩ :: ⟨Token_type.left_parenthesis, j2⟩ ::
            (exprTokens first rest ++ [⟨Token_type.right_parenthesis, j3⟩])) =
        Result.ok
          (Node.BinaryNode Node.NULL Token_type.minus (exprTree first rest),
            { tokens := ⟨Token_type.minus, j1⟩ :: ⟨Token_type.left_parenthesis, j2⟩ ::
                (exprTokens first rest ++ [⟨Token_type.right_parenthesis, j3⟩])
              token_loc := (exprTokens first rest).length + 2
              current_token := ⟨Token_type.right_parenthesis, j3⟩
              error := true }) := by
  have hts : ⟨Token_type.minus, j1⟩ :: ⟨Token_type.left_parenthesis, j2⟩ ::
      (exprTokens first rest ++ [⟨Token_type.right_parenthesis, j3⟩]) =
      [⟨Token_type.minus, j1⟩] ++ ((Val.paren j2 first rest j3).tokens ++ []) := by
    simp [Val.tokens, exprTokens]
  generalize hdef : (⟨Token_type.minus, j1⟩ :: ⟨Token_type.left_parenthesis, j2⟩ ::
      (exprTokens first rest ++ [⟨Token_type.right_parenthesis, j3⟩]) : List Token) = ts at hts ⊢
  have hne : ts ≠ [] := by rw [← hdef]; simp
  have hlen : ts.length = (exprTokens first rest).length + 3 := by rw [← hdef]; simp
  obtain ⟨F1, hF1⟩ := value_ok (Val.paren j2 first rest j3) ts [⟨Token_type.minus, j1⟩] [] true hts
  have hplen : (Val.paren j2 first rest j3).tokens.length = (exprTokens first rest).length + 2 := by
    simp [Val.tokens, exprTokens]; omega
  simp only [List.length_singleton, hplen] at hF1
  -- the states met on the way
  have h0 : stateAt ts 0 false = ⟨ts, 0, ⟨Token_type.minus, j1⟩, false⟩ := by
    rw [← hdef]; simp [stateAt]
  have h0e : stateAt ts 0 true = ⟨ts, 0, ⟨Token_type.minus, j1⟩, true⟩ := by
    rw [← hdef]; simp [stateAt]
  have hpeek : (stateAt ts 0 false).peek_next_token =
      Result.ok ⟨Token_type.left_parenthesis, j2⟩ := by
    have := stateAt_peek [] (exprTokens first rest ++ [⟨Token_type.right_parenthesis, j3⟩])
      ⟨Token_type.minus, j1⟩ ⟨Token_type.left_parenthesis, j2⟩ false
    simpa [hdef] using this
  have hend : stateAt ts (1 + ((exprTokens first rest).length + 2)) true =
      ⟨ts, (exprTokens first rest).length + 2, ⟨Token_type.right_parenthesis, j3⟩, true⟩ := by
    have hcur := stateAt_current_end
      (⟨Token_type.minus, j1⟩ :: ⟨Token_type.left_parenthesis, j2⟩ :: exprTokens first rest)
      ⟨Token_type.right_parenthesis, j3⟩ (1 + ((exprTokens first rest).length + 2)) true
      (by simp)
    have hts2 : (⟨Token_type.minus, j1⟩ :: ⟨Token_type.left_parenthesis, j2⟩ ::
        exprTokens first rest) ++ [⟨Token_type.right_parenthesis, j3⟩] = ts := by
      rw [← hdef]; simp
    rw [hts2] at hcur
    have hmin : min (1 + ((exprTokens first rest).length + 2)) (ts.length - 1) =
        (exprTokens first rest).length + 2 := by omega
    simp only [stateAt, hmin] at hcur ⊢
    rw [hcur]
  have hvalue : ∀ f, Parser.value (f + 1) (stateAt ts 0 false) =
      Result.ok (Node.NULL, stateAt ts 0 true) := by
    intro f
    rw [Parser.value, hpeek]
    simp [h0, h0e]
  have hat : at_index ts 0 = Result.ok ⟨Token_type.minus, j1⟩ := by
    rw [← hdef]; rfl
  have hm : get_precendene ⟨Token_type.minus, j1⟩ = 1 := rfl
  have hr : get_precendene ⟨Token_type.right_parenthesis, j3⟩ = -1 := rfl
  refine ⟨F1 + 3, fun fuel => ?_⟩
  have e1 : F1 + 3 + fuel = (F1 + fuel + 2) + 1 := by omega
  rw [Parser.ctor, hat]
  simp only [Result.ok_bind, ← h0]
  rw [e1, hvalue]
  simp only [Result.ok_bind]
  rw [Parser.expression, Parser.expression_outer, h0e]
  simp only
  rw [if_pos (by rw [hm]; decide), ← h0e, stateAt_advance _ _ _ hne]
  simp only [Result.ok_bind, Nat.zero_add]
  rw [Parser.value_mono (by omega) hF1]
  simp only [Result.ok_bind]
  rw [hend, Parser.expression_inner, if_neg (by simp only [hm, hr]; decide)]
  simp only [Result.ok_bind]
  rw [Parser.expression_outer, if_neg (by rw [hr]; decide), Val.tree_paren]

theorem Result.sat_bind {α β : Type} {r : Result α} {k : α → Result β} {Q : α → Prop}
    {Q' : β → Prop} (hr : r.sat Q) (hk : ∀ a, Q a → (k a).sat Q') : (r >>= k).sat Q' := by
  cases r with
  | ok a => exact hk a hr
  | out_of_range => exact hr.elim
  | out_of_fuel => trivial

theorem Result.sat_ok {α : Type} {a : α} {Q : α → Prop} (h : Q a) :
    (Result.ok a).sat Q := h

theorem Result.sat_imp {α : Type} {r : Result α} {Q Q' : α → Prop} (hr : r.sat Q)
    (h : ∀ a, Q a → Q' a) : r.sat Q' := by
  cases r with
  | ok a => exact h a hr
  | out_of_range => exact hr.elim
  | out_of_fuel => trivial

theorem Parser.follows_refl (s : Parser) (h : s.in_bounds) : s.follows s :=
  ⟨rfl, le_refl _, h, id⟩

theorem Parser.follows_trans {s1 s2 s3 : Parser} (h12 : s1.follows s2) (h23 : s2.follows s3) :
    s1.follows s3 :=
  ⟨h23.1.trans h12.1, le_trans h12.2.1 h23.2.1, h23.2.2.1, fun h => h23.2.2.2 (h12.2.2.2 h)⟩

theorem Parser.follows_in_bounds {s s' : Parser} (h : s.follows s') : s'.in_bounds := h.2.2.1

theorem Parser.follows_error {s s' : Parser} (h : s.follows s') (he : s'.error = false) :
    s.error = false := by
  cases hs : s.error with
  | false => rfl
  | true => rw [h.2.2.2 hs] at he; cases he

/-- Within the vector `advance_token` never throws; the cursor moves on by
one or stays on the last token, and the current token is the one under the
cursor. -/
theorem Parser.advance_token_in_bounds (s : Parser) (h : s.in_bounds) :
    ∃ s', s.advance_token = Result.ok s' ∧ s.follows s' ∧ s'.error = s.error ∧
      (s.token_loc + 1 < s.tokens.length → s'.token_loc = s.token_loc + 1 ∧
        s.tokens[s'.token_loc]? = some s'.current_token) ∧
      (¬ s.token_loc + 1 < s.tokens.length → s' = s) := by
  unfold Parser.in_bounds at h
  by_cases hn : s.token_loc + 1 < s.tokens.length
  · refine ⟨{ s with token_loc := s.token_loc + 1, current_token := s.tokens[s.token_loc + 1] },
      ?_, ⟨rfl, Nat.le_succ _, hn, id⟩, rfl, fun _ => ⟨rfl, ?_⟩, fun h' => absurd hn h'⟩
    · simp [Parser.advance_token, Parser.not_at_last, hn, at_index, List.getElem?_eq_getElem hn]
    · simp [List.getElem?_eq_getElem hn]
  · refine ⟨s, ?_, Parser.follows_refl s h, rfl, fun h' => absurd h' hn, fun _ => rfl⟩
    have : ¬ s.not_at_last := by
      unfold Parser.not_at_last
      omega
    simp [Parser.advance_token, this]

/-- Within the vector `peek_next_token` never throws: it returns the token
behind the cursor, or a fresh `none` token when the cursor is on the last
token. -/
theorem Parser.peek_next_token_in_bounds (s : Parser) :
    (s.token_loc + 1 < s.tokens.length →
      ∃ t, s.tokens[s.token_loc + 1]? = some t ∧ s.peek_next_token = Result.ok t) ∧
    (s.token_loc + 1 = s.tokens.length →
      s.peek_next_token = Result.ok ⟨Token_type.none, 0⟩) := by
  constructor
  · intro hn
    refine ⟨s.tokens[s.token_loc + 1], List.getElem?_eq_getElem hn, ?_⟩
    simp [Parser.peek_next_token, Parser.not_at_last, hn, at_index, List.getElem?_eq_getElem hn]
  · intro hn
    have : ¬ s.not_at_last := by
      unfold Parser.not_at_last
      omega
    simp [Parser.peek_next_token, this]

theorem get_precendene_nonneg (t : Token) (h : 0 ≤ get_precendene t) :
    (t.type = Token_type.plus || t.type = Token_type.minus || t.type = Token_type.multiply ||
      t.type = Token_type.divide || t.type = Token_type.power) = true := by
  obtain ⟨ty, v⟩ := t
  cases ty <;> simp [get_precendene, Token_type.toNat, operator_precedence] at h ⊢

theorem get_precendene_ge (t : Token) : -1 ≤ get_precendene t := by
  obtain ⟨ty, v⟩ := t
  cases ty <;> simp [get_precendene, Token_type.toNat, operator_precedence]

theorem Parser.follows_set_error (s : Parser) (h : s.in_bounds) :
    s.follows { s with error := true } :=
  ⟨rfl, le_refl _, h, fun _ => rfl⟩

/-- What holds of every call of the four pieces of the parser that starts
with the cursor inside the vector: no `std::out_of_range`; and on return
the cursor has not moved back and is inside the vector, the error flag has
not been reset, every operator in the tree is one of the five, and the tree
has no null pointer unless the error flag is set. -/
theorem Parser.invariants (fuel : Nat) :
    (∀ lhs m s, s.in_bounds → 0 ≤ m → lhs.ops_valid = true →
      (Parser.expression fuel lhs m s).sat (fun r => s.follows r.2 ∧ r.1.ops_valid = true ∧
        (r.2.error = false → lhs.no_null = true → r.1.no_null = true))) ∧
    (∀ lhs m c s, s.in_bounds → 0 ≤ m → lhs.ops_valid = true →
      (Parser.expression_outer fuel lhs m c s).sat (fun r => s.follows r.2 ∧
        r.1.ops_valid = true ∧ (r.2.error = false → lhs.no_null = true → r.1.no_null = true))) ∧
    (∀ rhs op c s, s.in_bounds → 0 ≤ get_precendene op → rhs.ops_valid = true →
      (Parser.expression_inner fuel rhs op c s).sat (fun r => s.follows r.2.2 ∧
        r.1.ops_valid = true ∧
        (r.2.2.error = false → rhs.no_null = true → r.1.no_null = true))) ∧
    (∀ s, s.in_bounds →
      (Parser.value fuel s).sat (fun r => s.follows r.2 ∧ r.1.ops_valid = true ∧
        (r.2.error = false → r.1.no_null = true))) := by
  induction fuel with
  | zero =>
    refine ⟨?_, ?_, ?_, ?_⟩ <;> intros <;> trivial
  | succ n ih =>
    obtain ⟨ihE, ihO, ihI, ihV⟩ := ih
    refine ⟨?_, ?_, ?_, ?_⟩
    · intro lhs m s hs hm hl
      rw [Parser.expression]
      exact ihO lhs m _ s hs hm hl
    · intro lhs m c s hs hm hl
      rw [Parser.expression_outer]
      split
      · rename_i hc
        obtain ⟨s1, h1, hf1, _, _, _⟩ := Parser.advance_token_in_bounds s hs
        rw [h1]
        simp only [Result.ok_bind]
        refine Result.sat_bind (ihV s1 hf1.2.2.1) ?_
        rintro ⟨rhs, s2⟩ ⟨hf2, hv2, hn2⟩
        refine Result.sat_bind (ihI rhs c s2.current_token s2 hf2.2.2.1 (by omega) hv2) ?_
        rintro ⟨rhs', c', s3⟩ ⟨hf3, hv3, hn3⟩
        have hbin : (Node.BinaryNode lhs c.type rhs').ops_valid = true := by
          have := get_precendene_nonneg c (by omega)
          simp only [Node.ops_valid, hl, hv3, Bool.true_and]
          exact this
        refine Result.sat_imp (ihO _ m c' s3 hf3.2.2.1 hm hbin) ?_
        rintro ⟨t, s4⟩ ⟨hf4, hv4, hn4⟩
        refine ⟨Parser.follows_trans hf1 (Parser.follows_trans hf2
          (Parser.follows_trans hf3 hf4)), hv4, ?_⟩
        intro he hln
        have he3 := Parser.follows_error hf4 he
        have he2 := Parser.follows_error hf3 he3
        apply hn4 he
        simp only [Node.no_null, hln, Bool.true_and]
        exact hn3 he3 (hn2 he2)
      · exact ⟨Parser.follows_refl s hs, hl, fun _ h => h⟩
    · intro rhs op c s hs hop hr
      rw [Parser.expression_inner]
      split
      · rename_i hc
        refine Result.sat_bind (ihE rhs _ s hs (by omega) hr) ?_
        rintro ⟨rhs', s1⟩ ⟨hf1, hv1, hn1⟩
        refine Result.sat_imp (ihI rhs' op s1.current_token s1 hf1.2.2.1 hop hv1) ?_
        rintro ⟨t, c', s2⟩ ⟨hf2, hv2, hn2⟩
        refine ⟨Parser.follows_trans hf1 hf2, hv2, ?_⟩
        intro he hrn
        exact hn2 he (hn1 (Parser.follows_error hf2 he) hrn)
      · exact ⟨Parser.follows_refl s hs, hr, fun _ h => h⟩
    · intro s hs
      have hfail : (Result.ok (Node.NULL, { s with error := true }) :
          Result (Node × Parser)).sat (fun r => s.follows r.2 ∧ r.1.ops_valid = true ∧
            (r.2.error = false → r.1.no_null = true)) :=
        ⟨Parser.follows_set_error s hs, rfl, fun h => by cases h⟩
      rw [Parser.value]
      simp only [Result.pure_eq]
      split
      · obtain ⟨s1, h1, hf1, _, _, _⟩ := Parser.advance_token_in_bounds s hs
        rw [h1]
        exact ⟨hf1, rfl, fun _ => rfl⟩
      · split
        · have hpeek : ∃ t, s.peek_next_token = Result.ok t := by
            by_cases hn : s.token_loc + 1 < s.tokens.length
            · obtain ⟨t, _, ht⟩ := (Parser.peek_next_token_in_bounds s).1 hn
              exact ⟨t, ht⟩
            · exact ⟨_, (Parser.peek_next_token_in_bounds s).2
                (by unfold Parser.in_bounds at hs; omega)⟩
          obtain ⟨t, ht⟩ := hpeek
          rw [ht]
          simp only [Result.ok_bind]
          split
          · obtain ⟨s1, h1, hf1, _, _, _⟩ := Parser.advance_token_in_bounds s hs
            obtain ⟨s2, h2, hf2, _, _, _⟩ := Parser.advance_token_in_bounds s1 hf1.2.2.1
            rw [h1]
            simp only [Result.ok_bind]
            rw [h2]
            exact ⟨Parser.follows_trans hf1 hf2, rfl, fun _ => rfl⟩
          · exact hfail
        · split
          · obtain ⟨s1, h1, hf1, _, _, _⟩ := Parser.advance_token_in_bounds s hs
            rw [h1]
            simp only [Result.ok_bind]
            refine Result.sat_bind (ihV s1 hf1.2.2.1) ?_
            rintro ⟨n0, s2⟩ ⟨hf2, hv2, hn2⟩
            refine Result.sat_bind (ihE n0 0 s2 hf2.2.2.1 (le_refl _) hv2) ?_
            rintro ⟨t, s3⟩ ⟨hf3, hv3, hn3⟩
            simp only
            split
            · obtain ⟨s4, h4, hf4, he4, _, _⟩ := Parser.advance_token_in_bounds s3 hf3.2.2.1
              rw [h4]
              refine ⟨Parser.follows_trans hf1 (Parser.follows_trans hf2
                (Parser.follows_trans hf3 hf4)), hv3, ?_⟩
              intro he
              have he3 : s3.error = false := by rw [← he4]; exact he
              exact hn3 he3 (hn2 (Parser.follows_error hf3 he3))
            · exact ⟨Parser.follows_trans hf1 (Parser.follows_trans hf2
                (Parser.follows_trans hf3 (Parser.follows_set_error s3 hf3.2.2.1))), rfl,
                fun h => by cases h⟩
          · exact hfail

theorem Node.proper_iff (t : Node) :
    t.proper = true ↔ t.no_null = true ∧ t.ops_valid = true := by
  induction t with
  | NULL => simp [Node.proper, Node.no_null]
  | ValueNode v => simp [Node.proper, Node.no_null, Node.ops_valid]
  | BinaryNode l op r ihl ihr =>
    simp only [Node.proper, Node.no_null, Node.ops_valid, Bool.and_eq_true, ihl, ihr]
    tauto

theorem Exec.arith_ne_fault (f : ℚ → ℚ → Option ℚ) (a b : Exec) (ha : a ≠ Exec.fault)
    (hb : b ≠ Exec.fault) : Exec.arith f a b ≠ Exec.fault := by
  cases a <;> cases b <;> simp [Exec.arith] at ha hb ⊢
  split <;> simp

/-- Evaluating a tree without null pointers whose operators are the five
never dereferences a null pointer nor leaves the `switch`. -/
theorem Node.execute_ne_fault (pow : ℚ → ℚ → Option ℚ) (t : Node) (h : t.proper = true) :
    t.execute pow ≠ Exec.fault := by
  induction t with
  | NULL => simp [Node.proper] at h
  | ValueNode v => simp [Node.execute]
  | BinaryNode l op r ihl ihr =>
    simp only [Node.proper, Bool.and_eq_true, Bool.or_eq_true, decide_eq_true_eq] at h
    obtain ⟨⟨hl, hr⟩, hop⟩ := h
    rcases hop with (((hop | hop) | hop) | hop) | hop <;> subst hop <;>
      simp only [Node.execute] <;>
      exact Exec.arith_ne_fault _ _ _ (ihl hl) (ihr hr)

/-- The invariants at the level of the constructor. -/
theorem Parser.ctor_invariants (fuel : Nat) (ts : List Token) (hne : ts ≠ []) :
    (Parser.ctor fuel ts).sat (fun r => r.2.tokens = ts ∧ r.2.token_loc < ts.length ∧
      r.1.ops_valid = true ∧ (r.2.error = false → r.1.no_null = true)) := by
  obtain ⟨t0, rest, rfl⟩ := List.exists_cons_of_ne_nil hne
  have hs : (⟨t0 :: rest, 0, t0, false⟩ : Parser).in_bounds := by
    simp [Parser.in_bounds]
  rw [Parser.ctor]
  simp only [at_index, List.getElem?_cons_zero, Result.ok_bind]
  refine Result.sat_bind ((Parser.invariants fuel).2.2.2 _ hs) ?_
  rintro ⟨n0, s1⟩ ⟨hf1, hv1, hn1⟩
  refine Result.sat_imp ((Parser.invariants fuel).1 n0 0 s1 hf1.2.2.1 (le_refl _) hv1) ?_
  rintro ⟨t, s2⟩ ⟨hf2, hv2, hn2⟩
  refine ⟨hf2.1.trans hf1.1, ?_, hv2, fun he => hn2 he (hn1 (Parser.follows_error hf2 he))⟩
  have := hf2.2.2.1
  rw [hf2.1, hf1.1] at this
  exact this

theorem Parser.ctor_ok_nonempty {fuel : Nat} {ts : List Token} {r : Node × Parser}
    (h : Parser.ctor fuel ts = Result.ok r) : ts ≠ [] := by
  intro hts
  subst hts
  simp [Parser.ctor, at_index] at h

/-- C16: whatever the token sequence, every `Binary` node of a tree the
parser returns carries one of `plus, minus, multiply, divide, power`.
The only place a `BinaryNode` is built is behind the test
`get_precendene(current) >= min_precedence` with `min_precedence >= 0`,
which no number, parenthesis or `none` token passes; so evaluation never
falls out of the `switch` of `BinaryNode::execute`: on a tree without null
pointers it never fails. -/
theorem binary_nodes_carry_operators (fuel : Nat) (ts : List Token) (tree : Node) (s : Parser)
    (h : Parser.ctor fuel ts = Result.ok (tree, s)) :
    tree.ops_valid = true ∧
      (∀ (t : Token) (m : Int), 0 ≤ m → get_precendene t ≥ m →
        t.type = Token_type.plus ∨ t.type = Token_type.minus ∨ t.type = Token_type.multiply ∨
          t.type = Token_type.divide ∨ t.type = Token_type.power) ∧
      (∀ pow, tree.no_null = true → tree.execute pow ≠ Exec.fault) := by
  have hinv := Parser.ctor_invariants fuel ts (Parser.ctor_ok_nonempty h)
  rw [h] at hinv
  refine ⟨hinv.2.2.1, ?_, ?_⟩
  · intro t m hm ht
    have := get_precendene_nonneg t (by omega)
    simp only [Bool.or_eq_true, decide_eq_true_eq] at this
    tauto
  · intro pow hnn
    exact Node.execute_ne_fault pow tree ((Node.proper_iff tree).mpr ⟨hnn, hinv.2.2.1⟩)

/-- Instance of C16 on `2 * ( 3` (an unmatched parenthesis): the tree
returned holds a null pointer, and its one operator is `multiply`. -/
theorem binary_nodes_carry_operators_witness :
    Parser.ctor 5 [⟨Token_type.number, 2⟩, ⟨Token_type.multiply, 0⟩,
        ⟨Token_type.left_parenthesis, 0⟩, ⟨Token_type.number, 3⟩] =
      Result.ok (Node.BinaryNode (Node.ValueNode 2) Token_type.multiply Node.NULL,
        ⟨[⟨Token_type.number, 2⟩, ⟨Token_type.multiply, 0⟩,
          ⟨Token_type.left_parenthesis, 0⟩, ⟨Token_type.number, 3⟩], 3,
          ⟨Token_type.number, 3⟩, true⟩) ∧
    (Node.BinaryNode (Node.ValueNode 2) Token_type.multiply Node.NULL).ops_valid = true :=
  ⟨by decide,
    (binary_nodes_carry_operators 5 _ _ _
      (show Parser.ctor 5 [⟨Token_type.number, 2⟩, ⟨Token_type.multiply, 0⟩,
        ⟨Token_type.left_parenthesis, 0⟩, ⟨Token_type.number, 3⟩] =
        Result.ok (Node.BinaryNode (Node.ValueNode 2) Token_type.multiply Node.NULL,
          ⟨[⟨Token_type.number, 2⟩, ⟨Token_type.multiply, 0⟩,
            ⟨Token_type.left_parenthesis, 0⟩, ⟨Token_type.number, 3⟩], 3,
            ⟨Token_type.number, 3⟩, true⟩) by decide)).1⟩

/-- C18: whenever the parser finishes with its error flag false, the tree
it returns is not the null pointer and holds no null child, all its
operators are among the five, and `run()` evaluates it without failing: it
returns a rational, or (division by zero, a power without rational value)
the non-finite number of the C++ program. -/
theorem accepted_tree_evaluates (fuel : Nat) (ts : List Token) (tree : Node) (s : Parser)
    (h : Parser.ctor fuel ts = Result.ok (tree, s)) (he : s.error = false) :
    tree ≠ Node.NULL ∧ tree.no_null = true ∧ tree.proper = true ∧
      ∀ pow, Parser.run pow tree s ≠ Exec.fault := by
  have hinv := Parser.ctor_invariants fuel ts (Parser.ctor_ok_nonempty h)
  rw [h] at hinv
  have hnn := hinv.2.2.2 he
  have hp : tree.proper = true := (Node.proper_iff tree).mpr ⟨hnn, hinv.2.2.1⟩
  refine ⟨?_, hnn, hp, ?_⟩
  · intro hnull
    rw [hnull] at hnn
    simp [Node.no_null] at hnn
  · intro pow
    simp only [Parser.run, he, Bool.false_eq_true, not_false_eq_true, if_true]
    exact Node.execute_ne_fault pow tree hp

/-- Instance of C18 on `( 1 / 0 )`. -/
theorem accepted_tree_evaluates_witness :
    Parser.ctor 5 [⟨Token_type.left_parenthesis, 0⟩, ⟨Token_type.number, 1⟩,
        ⟨Token_type.divide, 0⟩, ⟨Token_type.number, 0⟩, ⟨Token_type.right_parenthesis, 0⟩] =
      Result.ok (Node.BinaryNode (Node.ValueNode 1) Token_type.divide (Node.ValueNode 0),
        ⟨[⟨Token_type.left_parenthesis, 0⟩, ⟨Token_type.number, 1⟩,
          ⟨Token_type.divide, 0⟩, ⟨Token_type.number, 0⟩,
          ⟨Token_type.right_parenthesis, 0⟩], 4, ⟨Token_type.right_parenthesis, 0⟩, false⟩) ∧
    (Node.BinaryNode (Node.ValueNode 1) Token_type.divide (Node.ValueNode 0)).proper = true :=
  ⟨by decide,
    (accepted_tree_evaluates 5 _ _ _
      (show Parser.ctor 5 [⟨Token_type.left_parenthesis, 0⟩, ⟨Token_type.number, 1⟩,
        ⟨Token_type.divide, 0⟩, ⟨Token_type.number, 0⟩, ⟨Token_type.right_parenthesis, 0⟩] =
        Result.ok (Node.BinaryNode (Node.ValueNode 1) Token_type.divide (Node.ValueNode 0),
          ⟨[⟨Token_type.left_parenthesis, 0⟩, ⟨Token_type.number, 1⟩,
            ⟨Token_type.divide, 0⟩, ⟨Token_type.number, 0⟩,
            ⟨Token_type.right_parenthesis, 0⟩], 4, ⟨Token_type.right_parenthesis, 0⟩, false⟩)
        by decide) rfl).2.2.1⟩

/-- Every call of the four pieces of the parser that starts with the
cursor inside the vector never throws and returns with the cursor not moved
back and inside the vector, whatever `lhs` and `min_precedence` are. -/
theorem Parser.cursor_invariant (fuel : Nat) :
    (∀ lhs m s, s.in_bounds → (Parser.expression fuel lhs m s).sat (fun r => s.follows r.2)) ∧
    (∀ lhs m c s, s.in_bounds →
      (Parser.expression_outer fuel lhs m c s).sat (fun r => s.follows r.2)) ∧
    (∀ rhs op c s, s.in_bounds →
      (Parser.expression_inner fuel rhs op c s).sat (fun r => s.follows r.2.2)) ∧
    (∀ s, s.in_bounds → (Parser.value fuel s).sat (fun r => s.follows r.2)) := by
  induction fuel with
  | zero =>
    refine ⟨?_, ?_, ?_, ?_⟩ <;> intros <;> trivial
  | succ n ih =>
    obtain ⟨ihE, ihO, ihI, ihV⟩ := ih
    refine ⟨?_, ?_, ?_, ?_⟩
    · intro lhs m s hs
      rw [Parser.expression]
      exact ihO lhs m _ s hs
    · intro lhs m c s hs
      rw [Parser.expression_outer]
      split
      · obtain ⟨s1, h1, hf1, _, _, _⟩ := Parser.advance_token_in_bounds s hs
        rw [h1]
        simp only [Result.ok_bind]
        refine Result.sat_bind (ihV s1 hf1.2.2.1) ?_
        rintro ⟨rhs, s2⟩ hf2
        refine Result.sat_bind (ihI rhs c s2.current_token s2 hf2.2.2.1) ?_
        rintro ⟨rhs', c', s3⟩ hf3
        refine Result.sat_imp (ihO _ m c' s3 hf3.2.2.1) ?_
        rintro ⟨t, s4⟩ hf4
        exact Parser.follows_trans hf1 (Parser.follows_trans hf2 (Parser.follows_trans hf3 hf4))
      · exact Parser.follows_refl s hs
    · intro rhs op c s hs
      rw [Parser.expression_inner]
      split
      · refine Result.sat_bind (ihE rhs _ s hs) ?_
        rintro ⟨rhs', s1⟩ hf1
        refine Result.sat_imp (ihI rhs' op s1.current_token s1 hf1.2.2.1) ?_
        rintro ⟨t, c', s2⟩ hf2
        exact Parser.follows_trans hf1 hf2
      · exact Parser.follows_refl s hs
    · intro s hs
      have hfail : (Result.ok (Node.NULL, { s with error := true }) :
          Result (Node × Parser)).sat (fun r => s.follows r.2) :=
        Parser.follows_set_error s hs
      rw [Parser.value]
      simp only [Result.pure_eq]
      split
      · obtain ⟨s1, h1, hf1, _, _, _⟩ := Parser.advance_token_in_bounds s hs
        rw [h1]
        exact hf1
      · split
        · have hpeek : ∃ t, s.peek_next_token = Result.ok t := by
            by_cases hn : s.token_loc + 1 < s.tokens.length
            · obtain ⟨t, _, ht⟩ := (Parser.peek_next_token_in_bounds s).1 hn
              exact ⟨t, ht⟩
            · exact ⟨_, (Parser.peek_next_token_in_bounds s).2
                (by unfold Parser.in_bounds at hs; omega)⟩
          obtain ⟨t, ht⟩ := hpeek
          rw [ht]
          simp only [Result.ok_bind]
          split
          · obtain ⟨s1, h1, hf1, _, _, _⟩ := Parser.advance_token_in_bounds s hs
            obtain ⟨s2, h2, hf2, _, _, _⟩ := Parser.advance_token_in_bounds s1 hf1.2.2.1
            rw [h1]
            simp only [Result.ok_bind]
            rw [h2]
            exact Parser.follows_trans hf1 hf2
          · exact hfail
        · split
          · obtain ⟨s1, h1, hf1, _, _, _⟩ := Parser.advance_token_in_bounds s hs
            rw [h1]
            simp only [Result.ok_bind]
            refine Result.sat_bind (ihV s1 hf1.2.2.1) ?_
            rintro ⟨n0, s2⟩ hf2
            refine Result.sat_bind (ihE n0 0 s2 hf2.2.2.1) ?_
            rintro ⟨t, s3⟩ hf3
            simp only
            split
            · obtain ⟨s4, h4, hf4, _, _, _⟩ := Parser.advance_token_in_bounds s3 hf3.2.2.1
              rw [h4]
              exact Parser.follows_trans hf1 (Parser.follows_trans hf2
                (Parser.follows_trans hf3 hf4))
            · exact Parser.follows_trans hf1 (Parser.follows_trans hf2
                (Parser.follows_trans hf3 (Parser.follows_set_error s3 hf3.2.2.1)))
          · exact hfail

/-- C19 (counterexample): on the tokens `-` followed by a token of kind
`none` (what the lexer pushes for an unknown character when the
uninitialised token happens to be zero) the cursor of the fresh parser is
on the first of two tokens, not on the last, and `peek_next_token` returns
a `none` token all the same: the stored one. -/
theorem peek_returns_a_stored_none_token :
    Parser.peek_next_token
        ⟨[⟨Token_type.minus, 0⟩, ⟨Token_type.none, 0⟩], 0, ⟨Token_type.minus, 0⟩, false⟩ =
      Result.ok ⟨Token_type.none, 0⟩ ∧
    (0 : Nat) ≠ [(⟨Token_type.minus, 0⟩ : Token), ⟨Token_type.none, 0⟩].length - 1 := by
  decide

/-- C19 (amended): on a non-empty token vector the constructor never reads
outside the vector and ends with the cursor at most `size - 1`; from any
state with the cursor inside the vector, `advance_token`, `value()` and
`expression()` never read outside it and leave the cursor inside it and not
moved back; `peek_next_token` returns the token stored behind the cursor
when there is one, and a fresh `none` token when the cursor is on the last
token. -/
theorem cursor_stays_inside (fuel : Nat) (ts : List Token) (hne : ts ≠ []) (s : Parser)
    (hs : s.in_bounds) (lhs : Node) (m : Int) :
    (Parser.ctor fuel ts).sat (fun r => r.2.tokens = ts ∧ r.2.token_loc ≤ ts.length - 1) ∧
    (∃ s', s.advance_token = Result.ok s' ∧ s.follows s') ∧
    (s.token_loc + 1 < s.tokens.length →
      ∃ t, s.tokens[s.token_loc + 1]? = some t ∧ s.peek_next_token = Result.ok t) ∧
    (s.token_loc + 1 = s.tokens.length →
      s.peek_next_token = Result.ok ⟨Token_type.none, 0⟩) ∧
    (Parser.value fuel s).sat (fun r => s.follows r.2) ∧
    (Parser.expression fuel lhs m s).sat (fun r => s.follows r.2) := by
  refine ⟨?_, ?_, (Parser.peek_next_token_in_bounds s).1, (Parser.peek_next_token_in_bounds s).2,
    (Parser.cursor_invariant fuel).2.2.2 s hs, (Parser.cursor_invariant fuel).1 lhs m s hs⟩
  · refine Result.sat_imp (Parser.ctor_invariants fuel ts hne) ?_
    rintro ⟨t, s'⟩ ⟨h1, h2, _, _⟩
    exact ⟨h1, by simp only at h2 ⊢; omega⟩
  · obtain ⟨s', h1, h2, _⟩ := Parser.advance_token_in_bounds s hs
    exact ⟨s', h1, h2⟩

/-- Instance of the amended C19 on the tokens of `2 )`, with the cursor on
the first of them. -/
theorem cursor_stays_inside_witness :
    [(⟨Token_type.number, 2⟩ : Token), ⟨Token_type.right_parenthesis, 0⟩] ≠ [] ∧
    Parser.in_bounds ⟨[⟨Token_type.number, 2⟩, ⟨Token_type.right_parenthesis, 0⟩], 0,
      ⟨Token_type.number, 2⟩, false⟩ ∧
    (Parser.ctor 3 [⟨Token_type.number, 2⟩, ⟨Token_type.right_parenthesis, 0⟩]).sat
      (fun r => r.2.tokens = [⟨Token_type.number, 2⟩, ⟨Token_type.right_parenthesis, 0⟩] ∧
        r.2.token_loc ≤
          [(⟨Token_type.number, 2⟩ : Token), ⟨Token_type.right_parenthesis, 0⟩].length - 1) :=
  ⟨by simp, by simp [Parser.in_bounds],
    (cursor_stays_inside 3 [⟨Token_type.number, 2⟩, ⟨Token_type.right_parenthesis, 0⟩]
      (by simp) ⟨[⟨Token_type.number, 2⟩, ⟨Token_type.right_parenthesis, 0⟩], 0,
        ⟨Token_type.number, 2⟩, false⟩ (by simp [Parser.in_bounds]) Node.NULL 0).1⟩

/-- Precedence climbing keeps the order: the tree of the consumed run `P`
reads, in-order, as `lhs` followed by the items of `P`. -/
theorem climb_in_order {α : Type} (tv : α → Node) :
    ∀ (n : Nat) (L : List (BinOp × ℚ × α)), L.length ≤ n → ∀ (lhs : Node) (m : Int),
      ∃ P, L = P ++ (climbFull tv lhs m L).2 ∧
        (climbFull tv lhs m L).1.leaves =
          lhs.leaves ++ (P.map (fun x => (tv x.2.2).leaves)).flatten ∧
        (climbFull tv lhs m L).1.operators =
          lhs.operators ++ (P.map (fun x => x.1.type :: (tv x.2.2).operators)).flatten := by
  intro n
  induction n with
  | zero =>
    intro L hL lhs m
    have : L = [] := List.length_eq_zero.mp (by omega)
    subst this
    exact ⟨[], by simp [climbFull_nil], by simp [climbFull_nil], by simp [climbFull_nil]⟩
  | succ n ih =>
    intro L hL lhs m
    match L, hL with
    | [], _ =>
      exact ⟨[], by simp [climbFull_nil], by simp [climbFull_nil], by simp [climbFull_nil]⟩
    | (op, j, v) :: rest, hL =>
      by_cases hp : op.prec < m
      · rw [climbFull_stop _ _ _ _ _ _ _ hp]
        exact ⟨[], rfl, by simp, by simp⟩
      · have hrest : rest.length ≤ n := by simpa using hL
        obtain ⟨P1, hP1, hl1, ho1⟩ := ih rest hrest (tv v) (op.prec + 1)
        obtain ⟨P2, hP2, hl2, ho2⟩ := ih _ (le_trans (climbFull_length _ _ _ _) hrest)
          (Node.BinaryNode lhs op.type (climbFull tv (tv v) (op.prec + 1) rest).1) m
        rw [climbFull_step _ _ _ _ _ _ _ hp]
        refine ⟨(op, j, v) :: (P1 ++ P2), ?_, ?_, ?_⟩
        · rw [List.cons_append, List.append_assoc, ← hP2, ← hP1]
        · rw [hl2]
          simp [Node.leaves, hl1]
        · rw [ho2]
          simp [Node.operators, ho1]

theorem itemsOperands_eq (L : List Item) :
    itemsOperands L = (L.map (fun x => x.2.2.operands)).flatten := by
  induction L with
  | nil => simp [itemsOperands]
  | cons x xs ih =>
    obtain ⟨op, j, v⟩ := x
    simp [itemsOperands, ih]

theorem itemsBinops_eq (L : List Item) :
    itemsBinops L = (L.map (fun x => x.1.type :: x.2.2.binops)).flatten := by
  induction L with
  | nil => simp [itemsBinops]
  | cons x xs ih =>
    obtain ⟨op, j, v⟩ := x
    simp [itemsBinops, ih]

/-- The tree of a derivation reads, in-order, as the derivation's operands
and binary operators in token order. -/
theorem tree_in_order : ∀ (n : Nat) (first : Val) (rest : List Item),
    first.size + itemsSize rest ≤ n →
    (exprTree first rest).leaves = first.operands ++ itemsOperands rest ∧
      (exprTree first rest).operators = first.binops ++ itemsBinops rest := by
  intro n
  induction n with
  | zero =>
    intro first rest hsz
    cases first <;> simp [Val.size] at hsz
  | succ n ih =>
    intro first rest hsz
    have hval : ∀ (v : Val), v.size ≤ n + 1 →
        v.tree.leaves = v.operands ∧ v.tree.operators = v.binops := by
      intro v hv
      cases v with
      | num q => exact ⟨rfl, rfl⟩
      | neg j q => exact ⟨rfl, rfl⟩
      | paren j1 f r j2 =>
        simp only [Val.size] at hv
        have := ih f r (by omega)
        rw [Val.tree_paren]
        exact this
    have hitems : ∀ x ∈ rest, x.2.2.tree.leaves = x.2.2.operands ∧
        x.2.2.tree.operators = x.2.2.binops := by
      intro x hx
      have h1 := itemsSize_mem rest x hx
      exact hval x.2.2 (by omega)
    obtain ⟨P, hP, hl, ho⟩ := climb_in_order Val.tree rest.length rest (le_refl _) first.tree 0
    rw [climbFull_zero, List.append_nil] at hP
    subst hP
    rw [exprTree_eq, hl, ho, (hval first (by omega)).1, (hval first (by omega)).2,
      itemsOperands_eq, itemsBinops_eq]
    constructor
    · congr 2
      apply List.map_congr_left
      intro x hx
      exact (hitems x hx).1
    · congr 2
      apply List.map_congr_left
      intro x hx
      rw [(hitems x hx).2]

theorem itemsTokens_numbers (L : List Item)
    (h : ∀ x ∈ L, (x.2.2.tokens.filter (fun t => t.type = Token_type.number)).length =
      x.2.2.operands.length) :
    ((itemsTokens L).filter (fun t => t.type = Token_type.number)).length =
      (itemsOperands L).length := by
  induction L with
  | nil => simp [itemsTokens, itemsOperands]
  | cons x xs ih =>
    obtain ⟨op, j, v⟩ := x
    have hv := h (op, j, v) (List.mem_cons_self _ _)
    have hxs := ih (fun y hy => h y (List.mem_cons_of_mem _ hy))
    have hop : ¬ (op.type = Token_type.number) := by cases op <;> simp [BinOp.type]
    simp only at hv
    simp [itemsTokens, itemsOperands, List.filter_cons, hop, hv, hxs]

/-- Each operand of a derivation is one `Number` token. -/
theorem Val.tokens_numbers : ∀ (n : Nat) (v : Val), v.size ≤ n →
    (v.tokens.filter (fun t => t.type = Token_type.number)).length = v.operands.length := by
  intro n
  induction n with
  | zero => intro v hv; cases v <;> simp [Val.size] at hv
  | succ n ih =>
    intro v hv
    cases v with
    | num q => simp [Val.tokens, Val.operands]
    | neg j q => simp [Val.tokens, Val.operands]
    | paren j1 f r j2 =>
      simp only [Val.size] at hv
      have hf := ih f (by omega)
      have hr := itemsTokens_numbers r
        (fun x hx => ih x.2.2 (by have := itemsSize_mem r x hx; omega))
      simp [Val.tokens, Val.operands, List.filter_cons, hf, hr]

/-- C20: on the tokens of any derivation of `expression` the parser builds
a tree that keeps the source order: its leaves, left to right, are the
operand values in token order (`- Number` giving the negated value), its
`BinaryNode`s in-order carry the binary operator tokens in token order,
and there is nothing else in it: no null pointer, one leaf per `Number`
token, hence no node for a parenthesis. -/
theorem tree_keeps_source_order (first : Val) (rest : List Item) :
    ∃ (F : Nat) (tree : Node) (s : Parser), ∀ fuel,
      Parser.ctor (F + fuel) (exprTokens first rest) = Result.ok (tree, s) ∧
        tree.leaves = first.operands ++ itemsOperands rest ∧
        tree.operators = first.binops ++ itemsBinops rest ∧
        tree.no_null = true ∧
        tree.leaves.length =
          ((exprTokens first rest).filter (fun t => t.type = Token_type.number)).length := by
  obtain ⟨F, hF⟩ := ctor_grammatical first rest
  obtain ⟨hl, ho⟩ := tree_in_order _ first rest (le_refl _)
  refine ⟨F, _, _, fun fuel => ⟨hF (F + fuel) (Nat.le_add_right _ _), hl, ho,
    ((Node.proper_iff _).mp (exprTree_proper first rest)).1, ?_⟩⟩
  have h1 := Val.tokens_numbers _ first (le_refl _)
  have h2 := itemsTokens_numbers rest (fun x _ => Val.tokens_numbers _ x.2.2 (le_refl _))
  rw [hl]
  simp [exprTokens, h1, h2]

theorem getD_at_length (pre rest : List Char) (c d : Char) :
    (pre ++ c :: rest).getD pre.length d = c := by
  induction pre with
  | nil => rfl
  | cons x xs ih => simpa using ih

theorem getD_after_length (pre rest : List Char) (c n d : Char) :
    (pre ++ c :: n :: rest).getD (pre.length + 1) d = n := by
  induction pre with
  | nil => rfl
  | cons x xs ih => simpa using ih

theorem take_takeWhile_length (p : Char → Bool) (B : List Char) :
    B.take (B.takeWhile p).length = B.takeWhile p := by
  induction B with
  | nil => rfl
  | cons b bs ih =>
    by_cases hb : p b = true
    · simp [List.takeWhile_cons, hb, ih]
    · simp [List.takeWhile_cons, hb]

theorem takeWhile_append_dropWhile_length (p : Char → Bool) (B : List Char) :
    (B.takeWhile p).length + (B.dropWhile p).length = B.length := by
  rw [← List.length_append, List.takeWhile_append_dropWhile]

/-- The loop `while (... (p(peek()) || peek() == '.')) advance();` started
on the character `h` in front of `B`: it stops behind the longest prefix of
`B` made of such characters and changes nothing but `loc` and `current`. -/
theorem Lexer.advance_while_run (p : Char → Bool) :
    ∀ (B A : List Char) (h : Char) (fuel : Nat) (l : Lexer),
      l.expression = A ++ h :: B → l.loc = A.length → B.length ≤ fuel →
      ∃ cur, Lexer.advance_while p fuel l =
        { l with loc := A.length + (B.takeWhile (fun c => p c || c == '.')).length,
                 current := cur } := by
  intro B
  induction B with
  | nil =>
    intro A h fuel l hexp hloc _
    refine ⟨l.current, ?_⟩
    have hnot : ¬ (l.loc + 1 < l.expression.length) := by rw [hexp, hloc]; simp
    cases fuel with
    | zero => simp [Lexer.advance_while, ← hloc]
    | succ f => simp [Lexer.advance_while, hnot, ← hloc]
  | cons b B ih =>
    intro A h fuel l hexp hloc hfuel
    cases fuel with
    | zero => simp at hfuel
    | succ f =>
      have hlt : l.loc + 1 < l.expression.length := by rw [hexp, hloc]; simp
      have hpeek : l.peek = b := by
        unfold Lexer.peek
        rw [if_pos hlt, hexp, hloc]
        exact getD_after_length A B h b _
      rw [Lexer.advance_while]
      by_cases hb : (p b || b == '.') = true
      · have hb' : p l.peek = true ∨ l.peek = '.' := by
          rw [hpeek]; simpa using hb
        rw [if_pos ⟨hlt, hb'⟩]
        have hadv : l.advance = { l with loc := l.loc + 1, current := b } := by
          unfold Lexer.advance
          rw [if_pos hlt, hexp, hloc, getD_after_length A B h b _]
        obtain ⟨cur, hcur⟩ := ih (A ++ [h]) b f l.advance
          (by rw [hadv]; simp [hexp]) (by rw [hadv]; simp [hloc])
          (by simpa using hfuel)
        refine ⟨cur, ?_⟩
        rw [hcur, hadv]
        simp [List.takeWhile_cons, hb]
        omega
      · have hb' : ¬ (p l.peek = true ∨ l.peek = '.') := by
          rw [hpeek]; simpa using hb
        rw [if_neg (fun hc => hb' hc.2)]
        refine ⟨l.current, ?_⟩
        simp [List.takeWhile_cons, hb, ← hloc]

/-- The substring handed to the conversion is the first character of the
literal followed by the run. -/
theorem Lexer.substr_run (A B : List Char) (h : Char) (k : Nat) (l : Lexer)
    (hexp : l.expression = A ++ h :: B) (hstart : l.start = A.length)
    (hloc : l.loc = A.length + k) : l.substr = h :: B.take k := by
  simp [Lexer.substr, hexp, hstart, hloc, List.take_succ_cons]

theorem Lexer.peek_at (l : Lexer) (pre rest : List Char) (c : Char)
    (hexp : l.expression = pre ++ c :: rest) (hloc : l.loc = pre.length) :
    l.peek = rest.headD '\x00' ∧ (l.loc + 1 < l.expression.length ↔ rest ≠ []) := by
  cases rest with
  | nil =>
    have hnot : ¬ (l.loc + 1 < l.expression.length) := by rw [hexp, hloc]; simp
    exact ⟨by simp [Lexer.peek, hnot], by simp [hnot]⟩
  | cons r more =>
    have hlt : l.loc + 1 < l.expression.length := by rw [hexp, hloc]; simp
    refine ⟨?_, by simp [hlt]⟩
    unfold Lexer.peek
    rw [if_pos hlt, hexp, hloc]
    exact getD_after_length pre more c r _

theorem Lexer.advance_at (l : Lexer) (pre more : List Char) (c r : Char)
    (hexp : l.expression = pre ++ c :: r :: more) (hloc : l.loc = pre.length) :
    l.advance = { l with loc := l.loc + 1, current := r } := by
  have hlt : l.loc + 1 < l.expression.length := by rw [hexp, hloc]; simp
  unfold Lexer.advance
  rw [if_pos hlt, hexp, hloc, getD_after_length pre more c r _]

theorem Lexer.peek_and_advance_x (l : Lexer) (pre after : List Char) (c : Char)
    (hexp : l.expression = pre ++ c :: 'x' :: after) (hloc : l.loc = pre.length) :
    l.peek_and_advance 'x' = (true, { l with loc := l.loc + 1, current := 'x' }) := by
  have hp := Lexer.peek_at l pre ('x' :: after) c hexp hloc
  have hlt : l.loc + 1 < l.expression.length := hp.2.mpr (by simp)
  unfold Lexer.peek_and_advance
  rw [if_neg (by simpa using hlt), if_pos (by rw [hp.1]; rfl),
    Lexer.advance_at l pre after c 'x' hexp hloc]

theorem Lexer.peek_and_advance_other (l : Lexer) (pre rest : List Char) (c : Char)
    (hexp : l.expression = pre ++ c :: rest) (hloc : l.loc = pre.length)
    (hx : rest.head? ≠ some 'x') : l.peek_and_advance 'x' = (false, l) := by
  have hp := Lexer.peek_at l pre rest c hexp hloc
  unfold Lexer.peek_and_advance
  by_cases hlt : l.loc + 1 < l.expression.length
  · rw [if_neg (by simpa using hlt), if_neg]
    rw [hp.1]
    cases rest with
    | nil => exact absurd rfl (hp.2.mp hlt)
    | cons r more =>
      intro h
      apply hx
      simpa using h
  · rw [if_pos hlt]

/-- A numeric literal read by the loop: started on its first character `h`
with `start` on it, the loop leaves the token list and the input alone,
stops on the last character of the literal, and `substr` is the literal. -/
theorem Lexer.literal_run (p : Char → Bool) (l : Lexer) (A B : List Char) (h : Char)
    (hexp : l.expression = A ++ h :: B) (hloc : l.loc = A.length)
    (hstart : l.start = A.length) :
    (Lexer.advance_while p l.expression.length l).tokens = l.tokens ∧
    (Lexer.advance_while p l.expression.length l).expression = l.expression ∧
    (Lexer.advance_while p l.expression.length l).loc =
      A.length + (B.takeWhile (fun c => p c || c == '.')).length ∧
    (Lexer.advance_while p l.expression.length l).substr =
      h :: B.takeWhile (fun c => p c || c == '.') := by
  obtain ⟨cur, hcur⟩ := Lexer.advance_while_run p B A h l.expression.length l hexp hloc
    (by rw [hexp]; simp; omega)
  rw [hcur]
  refine ⟨rfl, rfl, rfl, ?_⟩
  have hsub := Lexer.substr_run A B h (B.takeWhile (fun c => p c || c == '.')).length
    { l with loc := A.length + (B.takeWhile (fun c => p c || c == '.')).length, current := cur }
    hexp hstart rfl
  rw [hsub, take_takeWhile_length]

theorem Lexer.scan_refines (junk : Nat → Token) :
    ∀ (fuel : Nat) (l : Lexer) (pre rem : List Char), l.expression = pre ++ rem →
      l.loc = pre.length →
      (Lexer.scan junk fuel l >>= fun r => Result.ok (r.1.tokens, r.2)) =
        spec_scan junk fuel pre.length rem l.tokens := by
  intro fuel
  induction fuel with
  | zero => intro l pre rem _ _; rfl
  | succ f ih =>
    intro l pre rem hexp hloc
    cases rem with
    | nil =>
      have hnot : ¬ (l.loc < l.expression.length) := by rw [hexp, hloc]; simp
      rw [Lexer.scan, if_neg hnot, spec_scan]; rfl
    | cons c rest =>
      have hlt : l.loc < l.expression.length := by rw [hexp, hloc]; simp
      have hcur : l.expression.getD l.loc '\x00' = c := by
        rw [hexp, hloc]; exact getD_at_length pre rest c _
      have hpush : ∀ (l1 : Lexer) (t1 : Token), l1.expression = l.expression →
          l1.loc = l.loc →
          (Lexer.scan junk f { l1 with tokens := l1.tokens ++ [t1], loc := l1.loc + 1 } >>=
            fun r => Result.ok (r.1.tokens, r.2)) =
            spec_scan junk f (pre.length + 1) rest (l1.tokens ++ [t1]) := by
        intro l1 t1 h1 h2
        have := ih { l1 with tokens := l1.tokens ++ [t1], loc := l1.loc + 1 } (pre ++ [c]) rest
          (by simp [h1, hexp]) (by simp [h2, hloc])
        simpa using this
      have hjump : ∀ (l4 : Lexer) (mid rem2 : List Char) (t1 : Token),
          l4.expression = l.expression → c :: rest = mid ++ rem2 →
          l4.loc + 1 = pre.length + mid.length →
          (Lexer.scan junk f { l4 with tokens := l4.tokens ++ [t1], loc := l4.loc + 1 } >>=
            fun r => Result.ok (r.1.tokens, r.2)) =
            spec_scan junk f (pre.length + mid.length) rem2 (l4.tokens ++ [t1]) := by
        intro l4 mid rem2 t1 h1 h2 h3
        have := ih { l4 with tokens := l4.tokens ++ [t1], loc := l4.loc + 1 } (pre ++ mid) rem2
          (by simp [h1, hexp, h2]) (by simp [h3])
        simpa using this
      rw [Lexer.scan, if_pos hlt, spec_scan]
      simp only [hcur]
      by_cases h1 : c = '('
      · simp only [if_pos h1]
        have hp := hpush { l with current := c, start := l.loc }
          { junk l.loc with type := Token_type.left_parenthesis } rfl rfl
        rw [hloc] at hp ⊢
        exact hp
      simp only [if_neg h1]
      by_cases h2 : c = ')'
      · simp only [if_pos h2]
        have hp := hpush { l with current := c, start := l.loc }
          { junk l.loc with type := Token_type.right_parenthesis } rfl rfl
        rw [hloc] at hp ⊢
        exact hp
      simp only [if_neg h2]
      by_cases h3 : c = '+'
      · simp only [if_pos h3]
        have hp := hpush { l with current := c, start := l.loc }
          { junk l.loc with type := Token_type.plus } rfl rfl
        rw [hloc] at hp ⊢
        exact hp
      simp only [if_neg h3]
      by_cases h4 : c = '-'
      · simp only [if_pos h4]
        have hp := hpush { l with current := c, start := l.loc }
          { junk l.loc with type := Token_type.minus } rfl rfl
        rw [hloc] at hp ⊢
        exact hp
      simp only [if_neg h4]
      by_cases h5 : c = '*'
      · simp only [if_pos h5]
        have hp := hpush { l with current := c, start := l.loc }
          { junk l.loc with type := Token_type.multiply } rfl rfl
        rw [hloc] at hp ⊢
        exact hp
      simp only [if_neg h5]
      by_cases h6 : c = '/'
      · simp only [if_pos h6]
        have hp := hpush { l with current := c, start := l.loc }
          { junk l.loc with type := Token_type.divide } rfl rfl
        rw [hloc] at hp ⊢
        exact hp
      simp only [if_neg h6]
      by_cases h7 : c = '^'
      · simp only [if_pos h7]
        have hp := hpush { l with current := c, start := l.loc }
          { junk l.loc with type := Token_type.power } rfl rfl
        rw [hloc] at hp ⊢
        exact hp
      simp only [if_neg h7]
      by_cases hsp : c = ' '
      · simp only [if_pos hsp]
        have hp := ih { l with current := c, start := l.loc, loc := l.loc + 1 } (pre ++ [c]) rest
          (by simp [hexp]) (by simp [hloc])
        rw [hloc] at hp ⊢
        simpa using hp
      simp only [if_neg hsp]
      have hSexp : ({ l with current := c, start := l.loc } : Lexer).expression =
          pre ++ c :: rest := hexp
      by_cases hhex : c = '0' ∧ rest.head? = some 'x'
      · obtain ⟨h0, hx⟩ := hhex
        rw [if_pos (show c = '0' ∧ rest.head? = some 'x' from ⟨h0, hx⟩)]
        cases rest with
        | nil => simp at hx
        | cons r after =>
          have hr : r = 'x' := by simpa using hx
          subst hr
          rw [if_pos h0, Lexer.peek_and_advance_x _ pre after c hSexp hloc]
          simp only [if_true]
          have hp := Lexer.peek_at
            { l with current := 'x', start := l.loc, loc := l.loc + 1 } (pre ++ [c]) after 'x'
            (by simp [hexp]) (by simp [hloc])
          cases after with
          | nil =>
            rw [if_neg (by rw [hp.1]; decide)]
            rfl
          | cons h more =>
            have hpk : ({ l with current := 'x', start := l.loc, loc := l.loc + 1 } : Lexer).peek
                = h := hp.1
            rw [hpk]
            simp only [List.tail_cons]
            by_cases hh : is_hex h = true
            · rw [if_pos hh, if_pos hh,
                Lexer.advance_at { l with current := 'x', start := l.loc, loc := l.loc + 1 }
                  (pre ++ [c]) more 'x' h (by simp [hexp]) (by simp [hloc])]
              obtain ⟨ht, he, hl, hs⟩ := Lexer.literal_run is_hex
                { l with current := h, start := l.loc + 1 + 1, loc := l.loc + 1 + 1 }
                (pre ++ [c, 'x']) more h (by simp [hexp]) (by simp [hloc]) (by simp [hloc])
              change _ = (pre ++ [c, 'x']).length + (more.takeWhile hex_char).length at hl
              change _ = h :: more.takeWhile hex_char at hs
              have hj := hjump
                (Lexer.advance_while is_hex l.expression.length
                  { l with current := h, start := l.loc + 1 + 1, loc := l.loc + 1 + 1 })
                (c :: 'x' :: h :: more.takeWhile hex_char) (more.dropWhile hex_char)
                ⟨Token_type.number,
                  (hex_to_int (Lexer.advance_while is_hex l.expression.length
                    { l with current := h, start := l.loc + 1 + 1, loc := l.loc + 1 + 1 }).substr : ℚ)⟩
                he (by simp [List.takeWhile_append_dropWhile])
                (by rw [hl]; simp only [List.length_append, List.length_cons, List.length_nil]; omega)
              refine hj.trans ?_
              rw [ht, hs]
              have hlen : pre.length + (c :: 'x' :: h :: more.takeWhile hex_char).length =
                  pre.length + 2 + (h :: more.takeWhile hex_char).length := by
                simp only [List.length_cons]; omega
              rw [hlen]
            · rw [if_neg hh, if_neg hh]
              rfl
      · have hpa : (if c = '0' then
            ({ l with current := c, start := l.loc } : Lexer).peek_and_advance 'x'
            else (false, { l with current := c, start := l.loc })) =
            (false, { l with current := c, start := l.loc }) := by
          by_cases h0 : c = '0'
          · rw [if_pos h0]
            exact Lexer.peek_and_advance_other _ pre rest c hSexp hloc
              (fun hx => hhex ⟨h0, hx⟩)
          · rw [if_neg h0]
        rw [hpa, if_neg hhex]
        simp only [Bool.false_eq_true, if_false]
        by_cases hn : is_number c = true
        · rw [if_pos hn, if_pos hn]
          obtain ⟨ht, he, hl, hs⟩ := Lexer.literal_run is_number
            { l with current := c, start := l.loc } pre rest c hSexp hloc hloc
          change _ = pre.length + (rest.takeWhile decimal_char).length at hl
          change _ = c :: rest.takeWhile decimal_char at hs
          have hj := hjump
            (Lexer.advance_while is_number l.expression.length
              { l with current := c, start := l.loc })
            (c :: rest.takeWhile decimal_char) (rest.dropWhile decimal_char)
            ⟨Token_type.number,
              atof (Lexer.advance_while is_number l.expression.length
                { l with current := c, start := l.loc }).substr⟩
            he (by simp [List.takeWhile_append_dropWhile])
            (by rw [hl]; simp only [List.length_cons]; omega)
          refine hj.trans ?_
          rw [ht, hs]
        · rw [if_neg hn, if_neg hn]
          have hp := hpush { l with current := c, start := l.loc } (junk l.loc) rfl rfl
          rw [hloc] at hp ⊢
          exact hp

theorem dropWhile_length_le (p : Char → Bool) (B : List Char) :
    (B.dropWhile p).length ≤ B.length := by
  have := takeWhile_append_dropWhile_length p B
  omega

/-- The scanning rules always finish within `length + 1` rounds. -/
theorem spec_scan_total (junk : Nat → Token) :
    ∀ (fuel pos : Nat) (rem : List Char) (acc : List Token), rem.length < fuel →
      ∃ r, spec_scan junk fuel pos rem acc = Result.ok r := by
  intro fuel
  induction fuel with
  | zero => intro pos rem acc h; omega
  | succ f ih =>
    intro pos rem acc h
    cases rem with
    | nil => exact ⟨_, rfl⟩
    | cons c rest =>
      have hr : rest.length < f := by simpa using h
      rw [spec_scan]
      by_cases h1 : c = '('
      · rw [if_pos h1]; exact ih _ _ _ hr
      rw [if_neg h1]
      by_cases h2 : c = ')'
      · rw [if_pos h2]; exact ih _ _ _ hr
      rw [if_neg h2]
      by_cases h3 : c = '+'
      · rw [if_pos h3]; exact ih _ _ _ hr
      rw [if_neg h3]
      by_cases h4 : c = '-'
      · rw [if_pos h4]; exact ih _ _ _ hr
      rw [if_neg h4]
      by_cases h5 : c = '*'
      · rw [if_pos h5]; exact ih _ _ _ hr
      rw [if_neg h5]
      by_cases h6 : c = '/'
      · rw [if_pos h6]; exact ih _ _ _ hr
      rw [if_neg h6]
      by_cases h7 : c = '^'
      · rw [if_pos h7]; exact ih _ _ _ hr
      rw [if_neg h7]
      by_cases h8 : c = ' '
      · rw [if_pos h8]; exact ih _ _ _ hr
      rw [if_neg h8]
      by_cases hhex : c = '0' ∧ rest.head? = some 'x'
      · rw [if_pos hhex]
        cases rest with
        | nil => exact ⟨_, rfl⟩
        | cons r after =>
          cases after with
          | nil => exact ⟨_, rfl⟩
          | cons d more =>
            simp only [List.tail_cons]
            by_cases hh : is_hex d = true
            · rw [if_pos hh]
              refine ih _ _ _ ?_
              have h1 := dropWhile_length_le hex_char more
              simp only [List.length_cons] at hr
              omega
            · rw [if_neg hh]; exact ⟨_, rfl⟩
      · rw [if_neg hhex]
        by_cases hn : is_number c = true
        · rw [if_pos hn]
          exact ih _ _ _ (lt_of_le_of_lt (dropWhile_length_le _ _) hr)
        · rw [if_neg hn]; exact ih _ _ _ hr

theorem Lexer.ctor_refines (junk : Nat → Token) (e : List Char) :
    Lexer.ctor_tokens junk e = spec_tokens junk e :=
  Lexer.scan_refines junk (e.length + 1)
    { tokens := [], expression := e, loc := 0, start := 0, current := '\x00' } [] e rfl rfl

/-- C15: on every input the constructor `Lexer::Lexer` returns, and its
token vector is the one the scanning rules give: going through the input
from left to right, each of `( ) + - * / ^` appends one token of its kind, a
space appends nothing, a decimal digit appends one Number token for the
maximal run of digits and dots that starts there (`takeWhile`), and scanning
goes on behind that run, so a literal is never split and the tokens are in
the order of their source spans.  The flag is `true` exactly when the rules
stop at a dangling `0x`. -/
theorem literal_spans_are_maximal (junk : Nat → Token) (e : List Char) :
    ∃ (l : Lexer) (flag : Bool), Lexer.ctor junk e = Result.ok (l, flag) ∧
      spec_tokens junk e = Result.ok (l.tokens, flag) := by
  obtain ⟨r, hr⟩ := spec_scan_total junk (e.length + 1) 0 e [] (by omega)
  have href := Lexer.ctor_refines junk e
  rw [spec_tokens, hr] at href
  unfold Lexer.ctor_tokens at href
  cases hc : Lexer.ctor junk e with
  | ok p =>
    rw [hc] at href
    refine ⟨p.1, p.2, rfl, ?_⟩
    rw [spec_tokens, hr]
    exact href.symm
  | out_of_range => rw [hc] at href; exact absurd href (by simp [Bind.bind, Result.bind])
  | out_of_fuel => rw [hc] at href; exact absurd href (by simp [Bind.bind, Result.bind])

theorem takeWhile_all (p : Char → Bool) (B : List Char) (h : ∀ c ∈ B, p c = true) :
    B.takeWhile p = B := by
  induction B with
  | nil => rfl
  | cons b bs ih =>
    rw [List.takeWhile_cons, h b (List.mem_cons_self _ _)]
    simp only [if_true]
    rw [ih (fun c hc => h c (List.mem_cons_of_mem _ hc))]

theorem dropWhile_all (p : Char → Bool) (B : List Char) (h : ∀ c ∈ B, p c = true) :
    B.dropWhile p = [] := by
  induction B with
  | nil => rfl
  | cons b bs ih =>
    rw [List.dropWhile_cons, h b (List.mem_cons_self _ _)]
    simp only [if_true]
    exact ih (fun c hc => h c (List.mem_cons_of_mem _ hc))

/-- A digit is none of the characters the scanning rules look at before a
numeric literal. -/
theorem is_number_not_punct (c : Char) (h : is_number c = true) :
    c ≠ '(' ∧ c ≠ ')' ∧ c ≠ '+' ∧ c ≠ '-' ∧ c ≠ '*' ∧ c ≠ '/' ∧ c ≠ '^' ∧ c ≠ ' ' := by
  refine ⟨?_, ?_, ?_, ?_, ?_, ?_, ?_, ?_⟩ <;> (intro hc; subst hc; revert h; decide)

/-- The scanning rules on a single hex literal: one Number token. -/
theorem spec_tokens_hex (junk : Nat → Token) (d : Char) (body : List Char)
    (hd : is_hex d = true) (hbody : ∀ c ∈ body, hex_char c = true) :
    spec_tokens junk ('0' :: 'x' :: d :: body) =
      Result.ok ([⟨Token_type.number, (hex_to_int (d :: body) : ℚ)⟩], false) := by
  unfold spec_tokens
  rw [List.length_cons, spec_scan]
  simp only [Char.reduceEq, if_false]
  rw [if_pos (by simp), List.tail_cons]
  simp only [hd, if_true, takeWhile_all hex_char body hbody, dropWhile_all hex_char body hbody]
  rw [List.length_cons, List.length_cons, spec_scan]
  rfl

/-- The scanning rules on a single decimal literal: one Number token. -/
theorem spec_tokens_decimal (junk : Nat → Token) (d : Char) (body : List Char)
    (hd : is_number d = true) (hbody : ∀ c ∈ body, decimal_char c = true) :
    spec_tokens junk (d :: body) =
      Result.ok ([⟨Token_type.number, atof (d :: body)⟩], false) := by
  obtain ⟨h1, h2, h3, h4, h5, h6, h7, h8⟩ := is_number_not_punct d hd
  have hx : ¬ (d = '0' ∧ body.head? = some 'x') := by
    rintro ⟨_, hx⟩
    cases body with
    | nil => simp at hx
    | cons b bs =>
      have hb : b = 'x' := by simpa using hx
      have := hbody b (List.mem_cons_self _ _)
      rw [hb] at this
      revert this
      decide
  unfold spec_tokens
  rw [List.length_cons, spec_scan, if_neg h1, if_neg h2, if_neg h3, if_neg h4, if_neg h5,
    if_neg h6, if_neg h7, if_neg h8, if_neg hx, if_pos hd]
  simp only [takeWhile_all decimal_char body hbody, dropWhile_all decimal_char body hbody]
  cases body with
  | nil => rfl
  | cons b bs => rw [List.length_cons, spec_scan]; rfl

theorem digits_value_append (b : Nat) (dg : Char → Nat) (xs ys : List Char) :
    digits_value b dg (xs ++ ys) =
      ys.foldl (fun acc c => acc * b + dg c) (digits_value b dg xs) := by
  simp [digits_value, List.foldl_append]

/-- The digits `Nat.toDigitsCore` puts in front of `acc`: they are digit
characters below the base and they read back as `n`. -/
theorem toDigitsCore_spec (b : Nat) (hb : 2 ≤ b) (dg : Char → Nat)
    (hdg : ∀ m, m < b → dg (Nat.digitChar m) = m) :
    ∀ (fuel n : Nat) (acc : List Char), n < fuel →
      ∃ ds, Nat.toDigitsCore b fuel n acc = ds ++ acc ∧ ds ≠ [] ∧
        (∀ c ∈ ds, ∃ m, m < b ∧ c = Nat.digitChar m) ∧
        ∀ a, ds.foldl (fun acc c => acc * b + dg c) a = a * b ^ ds.length + n := by
  intro fuel
  induction fuel with
  | zero => intro n acc h; omega
  | succ f ih =>
    intro n acc h
    have hmod : n % b < b := Nat.mod_lt _ (by omega)
    rw [Nat.toDigitsCore]
    by_cases h0 : n / b = 0
    · simp only [h0, if_true]
      refine ⟨[Nat.digitChar (n % b)], rfl, by simp, ?_, ?_⟩
      · intro c hc
        exact ⟨n % b, hmod, by simpa using hc⟩
      · intro a
        have hlt : n < b := (Nat.div_eq_zero_iff (by omega)).mp h0
        have hm : n % b = n := Nat.mod_eq_of_lt hlt
        rw [hm] at hmod ⊢
        simp [hdg _ hmod]
    · simp only [h0, if_false]
      have hpos : 0 < n / b := Nat.pos_of_ne_zero h0
      have hlt : n / b < n := Nat.div_lt_self (by
        rcases Nat.eq_zero_or_pos n with h | h
        · subst h; simp at h0
        · exact h) (by omega)
      obtain ⟨ds, hds, _, hall, hval⟩ := ih (n / b) (Nat.digitChar (n % b) :: acc) (by omega)
      refine ⟨ds ++ [Nat.digitChar (n % b)], by simp [hds], by simp, ?_, ?_⟩
      · intro c hc
        rcases List.mem_append.mp hc with hc | hc
        · exact hall c hc
        · exact ⟨n % b, hmod, by simpa using hc⟩
      · intro a
        rw [List.foldl_append, hval a]
        simp only [List.foldl_cons, List.foldl_nil, List.length_append, List.length_cons,
          List.length_nil, hdg _ hmod]
        have hdm := Nat.div_add_mod n b
        rw [pow_succ]
        nlinarith [hdm]

theorem toDigits_spec (b : Nat) (hb : 2 ≤ b) (dg : Char → Nat)
    (hdg : ∀ m, m < b → dg (Nat.digitChar m) = m) (n : Nat) :
    Nat.toDigits b n ≠ [] ∧ (∀ c ∈ Nat.toDigits b n, ∃ m, m < b ∧ c = Nat.digitChar m) ∧
      digits_value b dg (Nat.toDigits b n) = n := by
  obtain ⟨ds, hds, hne, hall, hval⟩ := toDigitsCore_spec b hb dg hdg (n + 1) n [] (by omega)
  rw [Nat.toDigits, hds, List.append_nil]
  refine ⟨hne, hall, ?_⟩
  rw [digits_value, hval 0]
  simp

theorem decimal_digitChar : ∀ m, m < 10 →
    (Nat.digitChar m).toNat - '0'.toNat = m ∧ is_number (Nat.digitChar m) = true := by
  decide

theorem hex_digitChar : ∀ m, m < 16 →
    hex_digit (Nat.digitChar m) = m ∧ is_hex (Nat.digitChar m) = true := by
  decide

theorem takeWhile_stop (p : Char → Bool) (A B : List Char) (x : Char)
    (hA : ∀ c ∈ A, p c = true) (hx : p x = false) : (A ++ x :: B).takeWhile p = A := by
  induction A with
  | nil => simp [List.takeWhile_cons, hx]
  | cons a as ih =>
    rw [List.cons_append, List.takeWhile_cons, hA a (List.mem_cons_self _ _)]
    simp only [if_true]
    rw [ih (fun c hc => hA c (List.mem_cons_of_mem _ hc))]

/-- `atof` on a string of digits only is the number the digits write. -/
theorem atof_digits (ds : List Char) (h : ∀ c ∈ ds, is_number c = true) :
    atof ds = (digits_value 10 (fun c => c.toNat - '0'.toNat) ds : ℚ) := by
  unfold atof
  simp only [takeWhile_all is_number ds h, dropWhile_all is_number ds h]
  simp [digits_value]

/-- The hex conversion reads the digits in front of the first `.` and stores
`INT_MAX` when their value does not fit an `int`. -/
theorem hex_to_int_stop (h r : List Char) (hh : ∀ c ∈ h, is_hex c = true) :
    hex_to_int (h ++ '.' :: r) = min (digits_value 16 hex_digit h : Int) (2 ^ 31 - 1) := by
  unfold hex_to_int
  rw [takeWhile_stop is_hex h r '.' hh (by decide)]

theorem hex_to_int_digits (h : List Char) (hh : ∀ c ∈ h, is_hex c = true) :
    hex_to_int h = min (digits_value 16 hex_digit h : Int) (2 ^ 31 - 1) := by
  unfold hex_to_int
  rw [takeWhile_all is_hex h hh]

/-- The two literals of `n`, lexed: the decimal one gives `n`, the hex one
`min n INT_MAX`. -/
theorem literals_of_nat (junk : Nat → Token) (n : Nat) :
    Lexer.ctor_tokens junk (Nat.toDigits 10 n) =
        Result.ok ([⟨Token_type.number, (n : ℚ)⟩], false) ∧
      Lexer.ctor_tokens junk ('0' :: 'x' :: Nat.toDigits 16 n) =
        Result.ok ([⟨Token_type.number, ((min (n : Int) (2 ^ 31 - 1) : Int) : ℚ)⟩], false) := by
  constructor
  · obtain ⟨hne, hall, hval⟩ := toDigits_spec 10 (by decide) (fun c => c.toNat - '0'.toNat)
      (fun m hm => (decimal_digitChar m hm).1) n
    have hnum : ∀ c ∈ Nat.toDigits 10 n, is_number c = true := by
      intro c hc
      obtain ⟨m, hm, rfl⟩ := hall c hc
      exact (decimal_digitChar m hm).2
    rw [Lexer.ctor_refines]
    cases hds : Nat.toDigits 10 n with
    | nil => exact absurd hds hne
    | cons d body =>
      rw [hds] at hnum hval
      rw [spec_tokens_decimal junk d body (hnum d (List.mem_cons_self _ _))
        (fun c hc => by simp [decimal_char, hnum c (List.mem_cons_of_mem _ hc)]),
        atof_digits _ hnum, hval]
  · obtain ⟨hne, hall, hval⟩ := toDigits_spec 16 (by decide) hex_digit
      (fun m hm => (hex_digitChar m hm).1) n
    have hhex : ∀ c ∈ Nat.toDigits 16 n, is_hex c = true := by
      intro c hc
      obtain ⟨m, hm, rfl⟩ := hall c hc
      exact (hex_digitChar m hm).2
    rw [Lexer.ctor_refines]
    cases hds : Nat.toDigits 16 n with
    | nil => exact absurd hds hne
    | cons d body =>
      rw [hds] at hhex hval
      rw [spec_tokens_hex junk d body (hhex d (List.mem_cons_self _ _))
        (fun c hc => by simp [hex_char, hhex c (List.mem_cons_of_mem _ hc)]),
        hex_to_int_digits _ hhex, hval]

/-- C12 (counterexample): for `n = 2147483648` the decimal literal lexes to
the value 2147483648 and `0x80000000` to 2147483647, the largest `int`. -/
theorem hex_literal_counterexample :
    Nat.toDigits 10 2147483648 = ['2', '1', '4', '7', '4', '8', '3', '6', '4', '8'] ∧
    Nat.toDigits 16 2147483648 = ['8', '0', '0', '0', '0', '0', '0', '0'] ∧
    Lexer.ctor_tokens (fun _ => ⟨Token_type.none, 0⟩)
        ['2', '1', '4', '7', '4', '8', '3', '6', '4', '8'] =
      Result.ok ([⟨Token_type.number, 2147483648⟩], false) ∧
    Lexer.ctor_tokens (fun _ => ⟨Token_type.none, 0⟩)
        ['0', 'x', '8', '0', '0', '0', '0', '0', '0', '0'] =
      Result.ok ([⟨Token_type.number, 2147483647⟩], false) ∧
    (2147483648 : ℚ) ≠ 2147483647 := by
  have hd10 : Nat.toDigits 10 2147483648 =
      ['2', '1', '4', '7', '4', '8', '3', '6', '4', '8'] := by decide
  have hd16 : Nat.toDigits 16 2147483648 = ['8', '0', '0', '0', '0', '0', '0', '0'] := by
    decide
  refine ⟨hd10, hd16, ?_, ?_, by norm_num⟩
  · have h := (literals_of_nat (fun _ => ⟨Token_type.none, 0⟩) 2147483648).1
    rw [hd10] at h
    rw [h]
    norm_num
  · have h := (literals_of_nat (fun _ => ⟨Token_type.none, 0⟩) 2147483648).2
    have hv : ((min ((2147483648 : ℕ) : Int) (2 ^ 31 - 1) : Int) : ℚ) = 2147483647 := by
      norm_num
    rw [hd16, hv] at h
    exact h

/-- C12 (amended): for every `n` up to `INT_MAX = 2147483647`, the range of
the `int` the hex digits are read into, the decimal literal of `n` and `0x`
followed by the hexadecimal digits of `n` each lex to exactly one Number
token, and both values are `n`. -/
theorem hex_equals_decimal (junk : Nat → Token) (n : Nat) (hn : n ≤ 2147483647) :
    Lexer.ctor_tokens junk (Nat.toDigits 10 n) =
        Result.ok ([⟨Token_type.number, (n : ℚ)⟩], false) ∧
      Lexer.ctor_tokens junk ('0' :: 'x' :: Nat.toDigits 16 n) =
        Result.ok ([⟨Token_type.number, (n : ℚ)⟩], false) := by
  obtain ⟨h1, h2⟩ := literals_of_nat junk n
  refine ⟨h1, ?_⟩
  rw [h2]
  have hmin : min (n : Int) (2 ^ 31 - 1) = (n : Int) := by
    apply min_eq_left
    norm_num
    exact_mod_cast hn
  rw [hmin]
  norm_num

/-- The literals `255` and `0xff`. -/
theorem hex_equals_decimal_witness :
    255 ≤ 2147483647 ∧
      Lexer.ctor_tokens (fun _ => ⟨Token_type.none, 0⟩) (Nat.toDigits 10 255) =
        Result.ok ([⟨Token_type.number, ((255 : Nat) : ℚ)⟩], false) ∧
      Lexer.ctor_tokens (fun _ => ⟨Token_type.none, 0⟩) ('0' :: 'x' :: Nat.toDigits 16 255) =
        Result.ok ([⟨Token_type.number, ((255 : Nat) : ℚ)⟩], false) :=
  ⟨by decide, hex_equals_decimal (fun _ => ⟨Token_type.none, 0⟩) 255 (by decide)⟩

/-- A hex literal `0x` h `.` r lexes to one Number token whose value is the
base-16 value of h when that fits an `int` and `INT_MAX` otherwise. -/
theorem hex_fraction_value (junk : Nat → Token) (h r : List Char) (hne : h ≠ [])
    (hh : ∀ c ∈ h, is_hex c = true) (hr : ∀ c ∈ r, hex_char c = true) :
    Lexer.ctor_tokens junk ('0' :: 'x' :: (h ++ '.' :: r)) =
      Result.ok ([⟨Token_type.number,
        ((min (digits_value 16 hex_digit h : Int) (2 ^ 31 - 1) : Int) : ℚ)⟩], false) := by
  cases h with
  | nil => exact absurd rfl hne
  | cons d hs =>
    rw [Lexer.ctor_refines, List.cons_append,
      spec_tokens_hex junk d (hs ++ '.' :: r) (hh d (List.mem_cons_self _ _)) ?_,
      ← List.cons_append, hex_to_int_stop (d :: hs) r hh]
    intro c hc
    rcases List.mem_append.mp hc with hc | hc
    · simp [hex_char, hh c (List.mem_cons_of_mem _ hc)]
    · rcases List.mem_cons.mp hc with hc | hc
      · subst hc; decide
      · exact hr c hc

/-- C13 (counterexample): the literal `0x80000000.8` lexes to one Number
token of value 2147483647, while the base-16 value of `80000000` is
2147483648. -/
theorem hex_fraction_counterexample :
    digits_value 16 hex_digit ['8', '0', '0', '0', '0', '0', '0', '0'] = 2147483648 ∧
    Lexer.ctor_tokens (fun _ => ⟨Token_type.none, 0⟩)
        ['0', 'x', '8', '0', '0', '0', '0', '0', '0', '0', '.', '8'] =
      Result.ok ([⟨Token_type.number, 2147483647⟩], false) ∧
    (2147483647 : ℚ) ≠ ((2147483648 : Nat) : ℚ) :=
  ⟨by decide,
    (hex_fraction_value (fun _ => ⟨Token_type.none, 0⟩) ['8', '0', '0', '0', '0', '0', '0', '0']
      ['8'] (by decide) (by decide) (by decide)).trans (by decide!),
    by norm_num⟩

/-- C13 (amended): a hex literal `0x` h `.` r, with h a non-empty run of hex
digits whose base-16 value is at most `INT_MAX = 2147483647` and r a run of
hex digits and dots, lexes to exactly one Number token, and its value is the
base-16 value of h alone: nothing from the first `.` on contributes. -/
theorem hex_fraction_is_dropped (junk : Nat → Token) (h r : List Char) (hne : h ≠ [])
    (hh : ∀ c ∈ h, is_hex c = true) (hr : ∀ c ∈ r, hex_char c = true)
    (hfit : digits_value 16 hex_digit h ≤ 2147483647) :
    Lexer.ctor_tokens junk ('0' :: 'x' :: (h ++ '.' :: r)) =
      Result.ok ([⟨Token_type.number, (digits_value 16 hex_digit h : ℚ)⟩], false) := by
  rw [hex_fraction_value junk h r hne hh hr]
  have hmin : min (digits_value 16 hex_digit h : Int) (2 ^ 31 - 1) =
      (digits_value 16 hex_digit h : Int) := by
    apply min_eq_left
    norm_num
    exact_mod_cast hfit
  rw [hmin]
  norm_num

/-- The literal `0x1F.8`: one Number token, of value 31. -/
theorem hex_fraction_is_dropped_witness :
    (['1', 'F'] ≠ [] ∧ (∀ c ∈ ['1', 'F'], is_hex c = true) ∧
      (∀ c ∈ ['8'], hex_char c = true) ∧
      digits_value 16 hex_digit ['1', 'F'] ≤ 2147483647) ∧
    digits_value 16 hex_digit ['1', 'F'] = 31 ∧
    Lexer.ctor_tokens (fun _ => ⟨Token_type.none, 0⟩)
        ('0' :: 'x' :: (['1', 'F'] ++ '.' :: ['8'])) =
      Result.ok ([⟨Token_type.number, (digits_value 16 hex_digit ['1', 'F'] : ℚ)⟩], false) :=
  ⟨⟨by decide, by decide, by decide, by decide⟩, by decide,
    hex_fraction_is_dropped _ _ _ (by decide) (by decide) (by decide) (by decide)⟩

@[simp] theorem Token.read_type (t : Token) : t.read.type = t.type := by
  unfold Token.read; split <;> rfl

theorem Token.read_number (t : Token) (h : t.type = Token_type.number) : t.read = t := by
  unfold Token.read; rw [if_pos h]

@[simp] theorem Token.read_read (t : Token) : t.read.read = t.read := by
  unfold Token.read
  by_cases h : t.type = Token_type.number
  · simp [h]
  · simp [h]

@[simp] theorem get_precendene_read (t : Token) : get_precendene t.read = get_precendene t := by
  simp [get_precendene]

@[simp] theorem Parser.read_error (s : Parser) : s.read.error = s.error := rfl
@[simp] theorem Parser.read_current (s : Parser) :
    s.read.current_token = s.current_token.read := rfl
@[simp] theorem Parser.read_loc (s : Parser) : s.read.token_loc = s.token_loc := rfl
@[simp] theorem Parser.read_tokens (s : Parser) : s.read.tokens = s.tokens.map Token.read := rfl

theorem at_index_read (ts : List Token) (i : Nat) :
    at_index (ts.map Token.read) i = (at_index ts i >>= fun t => Result.ok t.read) := by
  unfold at_index
  rw [List.getElem?_map]
  cases ts[i]? <;> rfl

theorem Parser.not_at_last_read (s : Parser) : s.read.not_at_last ↔ s.not_at_last := by
  simp [Parser.not_at_last]

theorem Parser.advance_token_read (s : Parser) :
    s.read.advance_token = (s.advance_token >>= fun s1 => Result.ok s1.read) := by
  unfold Parser.advance_token
  by_cases h : s.not_at_last
  · rw [if_pos h, if_pos ((Parser.not_at_last_read s).mpr h)]
    simp only [Parser.read_tokens, Parser.read_loc, at_index_read]
    cases at_index s.tokens (s.token_loc + 1) <;> rfl
  · rw [if_neg h, if_neg (fun h' => h ((Parser.not_at_last_read s).mp h'))]
    rfl

theorem Parser.peek_next_token_read (s : Parser) :
    s.read.peek_next_token = (s.peek_next_token >>= fun t => Result.ok t.read) := by
  unfold Parser.peek_next_token
  by_cases h : s.not_at_last
  · rw [if_pos h, if_pos ((Parser.not_at_last_read s).mpr h)]
    simp only [Parser.read_tokens, Parser.read_loc, at_index_read]
  · rw [if_neg h, if_neg (fun h' => h ((Parser.not_at_last_read s).mp h'))]
    rfl

/-- The parser reads the kind of every token and the value of Number tokens
only: run on the tokens reduced to these fields it takes the same steps and
builds the same tree. -/
theorem Parser.read_commutes (fuel : Nat) :
    (∀ lhs m s, Parser.expression fuel lhs m s.read =
      (Parser.expression fuel lhs m s >>= fun r => Result.ok (r.1, r.2.read))) ∧
    (∀ lhs m c s, Parser.expression_outer fuel lhs m c.read s.read =
      (Parser.expression_outer fuel lhs m c s >>= fun r => Result.ok (r.1, r.2.read))) ∧
    (∀ rhs op c s, Parser.expression_inner fuel rhs op.read c.read s.read =
      (Parser.expression_inner fuel rhs op c s >>=
        fun r => Result.ok (r.1, r.2.1.read, r.2.2.read))) ∧
    (∀ s, Parser.value fuel s.read =
      (Parser.value fuel s >>= fun r => Result.ok (r.1, r.2.read))) := by
  induction fuel with
  | zero => exact ⟨fun _ _ _ => rfl, fun _ _ _ _ => rfl, fun _ _ _ _ => rfl, fun _ => rfl⟩
  | succ f ih =>
    obtain ⟨ihe, iho, ihi, ihv⟩ := ih
    refine ⟨?_, ?_, ?_, ?_⟩
    · intro lhs m s
      rw [Parser.expression, Parser.expression, Parser.read_current]
      exact iho lhs m s.current_token s
    · intro lhs m c s
      rw [Parser.expression_outer, Parser.expression_outer, get_precendene_read]
      by_cases hc : get_precendene c ≥ m
      · rw [if_pos hc, if_pos hc, Parser.advance_token_read]
        cases s.advance_token with
        | ok s1 =>
          simp only [Result.ok_bind]
          rw [ihv s1]
          cases Parser.value f s1 with
          | ok p =>
            simp only [Result.ok_bind, Parser.read_current]
            rw [ihi p.1 c p.2.current_token p.2]
            cases Parser.expression_inner f p.1 c p.2.current_token p.2 with
            | ok q =>
              simp only [Result.ok_bind, Token.read_type]
              exact iho _ m q.2.1 q.2.2
            | out_of_range => rfl
            | out_of_fuel => rfl
          | out_of_range => rfl
          | out_of_fuel => rfl
        | out_of_range => rfl
        | out_of_fuel => rfl
      · rw [if_neg hc, if_neg hc]
        rfl
    · intro rhs op c s
      rw [Parser.expression_inner, Parser.expression_inner, get_precendene_read,
        get_precendene_read]
      by_cases hc : get_precendene c > get_precendene op
      · simp only [if_pos hc]
        rw [ihe]
        cases Parser.expression f rhs (get_precendene op + 1) s with
        | ok p =>
          simp only [Result.ok_bind, Parser.read_current]
          exact ihi p.1 op p.2.current_token p.2
        | out_of_range => rfl
        | out_of_fuel => rfl
      · rw [if_neg hc, if_neg hc]
        rfl
    · intro s
      rw [Parser.value, Parser.value]
      simp only [Parser.read_current, Token.read_type]
      by_cases h1 : s.current_token.type = Token_type.number
      · rw [if_pos h1, if_pos h1, Parser.advance_token_read,
          Token.read_number _ h1]
        cases s.advance_token <;> rfl
      · rw [if_neg h1, if_neg h1]
        by_cases h2 : s.current_token.type = Token_type.minus
        · rw [if_pos h2, if_pos h2, Parser.peek_next_token_read]
          cases s.peek_next_token with
          | ok t =>
            simp only [Result.ok_bind, Token.read_type]
            by_cases h3 : t.type = Token_type.number
            · rw [if_pos h3, if_pos h3, Parser.advance_token_read, Token.read_number _ h3]
              cases s.advance_token with
              | ok s1 =>
                simp only [Result.ok_bind]
                rw [Parser.advance_token_read]
                cases s1.advance_token <;> rfl
              | out_of_range => rfl
              | out_of_fuel => rfl
            · rw [if_neg h3, if_neg h3]
              rfl
          | out_of_range => rfl
          | out_of_fuel => rfl
        · rw [if_neg h2, if_neg h2]
          by_cases h3 : s.current_token.type = Token_type.left_parenthesis
          · rw [if_pos h3, if_pos h3, Parser.advance_token_read]
            cases s.advance_token with
            | ok s1 =>
              simp only [Result.ok_bind]
              rw [ihv s1]
              cases Parser.value f s1 with
              | ok p =>
                simp only [Result.ok_bind]
                rw [ihe p.1 0 p.2]
                cases Parser.expression f p.1 0 p.2 with
                | ok q =>
                  simp only [Result.ok_bind, Parser.read_current, Token.read_type]
                  by_cases h4 : q.2.current_token.type = Token_type.right_parenthesis
                  · rw [if_pos h4, if_pos h4, Parser.advance_token_read]
                    cases q.2.advance_token <;> rfl
                  · rw [if_neg h4, if_neg h4]
                    rfl
                | out_of_range => rfl
                | out_of_fuel => rfl
              | out_of_range => rfl
              | out_of_fuel => rfl
            | out_of_range => rfl
            | out_of_fuel => rfl
          · rw [if_neg h3, if_neg h3]
            rfl

theorem Parser.ctor_read (fuel : Nat) (ts : List Token) :
    Parser.ctor fuel (ts.map Token.read) =
      (Parser.ctor fuel ts >>= fun r => Result.ok (r.1, r.2.read)) := by
  unfold Parser.ctor
  rw [at_index_read]
  cases at_index ts 0 with
  | ok t0 =>
    simp only [Result.ok_bind]
    have hv := (Parser.read_commutes fuel).2.2.2
      { tokens := ts, token_loc := 0, current_token := t0, error := false }
    change Parser.value fuel
      { tokens := ts.map Token.read, token_loc := 0, current_token := t0.read, error := false }
        = _ at hv
    rw [hv]
    cases Parser.value fuel
        { tokens := ts, token_loc := 0, current_token := t0, error := false } with
    | ok p =>
      simp only [Result.ok_bind]
      exact (Parser.read_commutes fuel).1 p.1 0 p.2
    | out_of_range => rfl
    | out_of_fuel => rfl
  | out_of_range => rfl
  | out_of_fuel => rfl

/-- The tree and the error flag depend on the tokens only through what the
lexer assigned in them. -/
theorem Parser.ctor_congr (fuel : Nat) (ts1 ts2 : List Token)
    (h : ts1.map Token.read = ts2.map Token.read) :
    (Parser.ctor fuel ts1 >>= fun r => Result.ok (r.1, r.2.error)) =
      (Parser.ctor fuel ts2 >>= fun r => Result.ok (r.1, r.2.error)) := by
  have h1 := Parser.ctor_read fuel ts1
  have h2 := Parser.ctor_read fuel ts2
  rw [h, h2] at h1
  cases hc1 : Parser.ctor fuel ts1 <;> cases hc2 : Parser.ctor fuel ts2 <;>
    rw [hc1, hc2] at h1 <;> simp only [Result.ok_bind, Result.range_bind, Result.fuel_bind] at h1 ⊢ <;>
    first
      | rfl
      | (have h3 := Result.ok.inj h1
         rw [Prod.mk.injEq] at h3
         rw [h3.1, ← Parser.read_error, ← h3.2, Parser.read_error])
      | cases h1

theorem calculate_eq (pow : ℚ → ℚ → Option ℚ) (junk : Nat → Token) (fuel : Nat)
    (e : List Char) :
    calculate pow junk fuel e =
      (Lexer.ctor_tokens junk e >>= fun l =>
        Parser.ctor fuel l.1 >>= fun r =>
          if r.2.error = true then Result.ok Output.nothing
          else Result.ok (Output.printed (r.1.execute pow))) := by
  unfold calculate Lexer.ctor_tokens
  cases Lexer.ctor junk e with
  | ok l =>
    simp only [Result.ok_bind]
    cases Parser.ctor fuel l.1.tokens with
    | ok r =>
      simp only [Result.ok_bind]
      by_cases he : r.2.error = true
      · simp [he]
      · simp [he, Parser.run]
    | out_of_range => rfl
    | out_of_fuel => rfl
  | out_of_range => rfl
  | out_of_fuel => rfl

/-- Inputs whose token vectors agree in what the lexer assigned give the
same output. -/
theorem calculate_congr (pow : ℚ → ℚ → Option ℚ) (junk1 junk2 : Nat → Token) (fuel : Nat)
    (e1 e2 : List Char) (ts1 ts2 : List Token) (b1 b2 : Bool)
    (h1 : Lexer.ctor_tokens junk1 e1 = Result.ok (ts1, b1))
    (h2 : Lexer.ctor_tokens junk2 e2 = Result.ok (ts2, b2))
    (h : ts1.map Token.read = ts2.map Token.read) :
    calculate pow junk1 fuel e1 = calculate pow junk2 fuel e2 := by
  rw [calculate_eq, calculate_eq, h1, h2]
  simp only [Result.ok_bind]
  have hc := Parser.ctor_congr fuel ts1 ts2 h
  cases hc1 : Parser.ctor fuel ts1 <;> cases hc2 : Parser.ctor fuel ts2 <;>
    rw [hc1, hc2] at hc <;> simp only [Result.ok_bind, Result.range_bind, Result.fuel_bind] at hc ⊢ <;>
    first
      | rfl
      | (have h3 := Result.ok.inj hc
         rw [Prod.mk.injEq] at h3
         rw [h3.1, h3.2])
      | cases hc

theorem takeWhile_boundary (p : Char → Bool) (A B : List Char)
    (hA : ∀ c ∈ A, p c = true) (hB : ∀ c, B.head? = some c → p c = false) :
    (A ++ B).takeWhile p = A ∧ (A ++ B).dropWhile p = B := by
  induction A with
  | nil =>
    cases B with
    | nil => exact ⟨rfl, rfl⟩
    | cons b bs =>
      have hb := hB b rfl
      simp [List.takeWhile_cons, List.dropWhile_cons, hb]
  | cons a as ih =>
    have ha := hA a (List.mem_cons_self _ _)
    obtain ⟨h1, h2⟩ := ih (fun c hc => hA c (List.mem_cons_of_mem _ hc))
    simp [List.takeWhile_cons, List.dropWhile_cons, ha, h1, h2]

theorem is_punct_cases (c : Char) (h : is_punct c = true) :
    c = '(' ∨ c = ')' ∨ c = '+' ∨ c = '-' ∨ c = '*' ∨ c = '/' ∨ c = '^' := by
  simpa [is_punct, or_assoc] using h

/-- Spaces in front of the rest of the input are skipped. -/
theorem spec_scan_spaces (junk : Nat → Token) :
    ∀ (k fuel pos : Nat) (rest : List Char) (acc : List Token),
      (List.replicate k ' ' ++ rest).length < fuel →
      ∃ fuel' pos', rest.length < fuel' ∧
        spec_scan junk fuel pos (List.replicate k ' ' ++ rest) acc =
          spec_scan junk fuel' pos' rest acc := by
  intro k
  induction k with
  | zero =>
    intro fuel pos rest acc h
    exact ⟨fuel, pos, by simpa using h, by simp⟩
  | succ k ih =>
    intro fuel pos rest acc h
    cases fuel with
    | zero => omega
    | succ f =>
      obtain ⟨fuel', pos', h1, h2⟩ := ih f (pos + 1) rest acc (by
        simp only [List.length_append, List.length_replicate] at h ⊢; omega)
      refine ⟨fuel', pos', h1, ?_⟩
      rw [List.replicate_succ, List.cons_append, spec_scan]
      simp only [Char.reduceEq, if_false, if_true]
      exact h2

/-- A punctuation character becomes one token of its kind. -/
theorem spec_scan_punct (junk : Nat → Token) (c : Char) (hc : is_punct c = true)
    (fuel pos : Nat) (rest : List Char) (acc : List Token) (h : (c :: rest).length < fuel) :
    ∃ fuel' pos' t, rest.length < fuel' ∧ Token.read t = ⟨punct_type c, 0⟩ ∧
      spec_scan junk fuel pos (c :: rest) acc = spec_scan junk fuel' pos' rest (acc ++ [t]) := by
  cases fuel with
  | zero => omega
  | succ f =>
    have hr : rest.length < f := by simpa using h
    refine ⟨f, pos + 1, ⟨punct_type c, (junk pos).value⟩, hr, ?_, ?_⟩
    · rcases is_punct_cases c hc with h | h | h | h | h | h | h <;> subst h <;>
        simp [Token.read, punct_type]
    · rcases is_punct_cases c hc with h | h | h | h | h | h | h <;> subst h <;>
        (rw [spec_scan]; simp only [Char.reduceEq, if_false, if_true]; rfl)

theorem hex_literal_shape (cs : List Char) (h : hex_literal cs = true) :
    ∃ d body, cs = '0' :: 'x' :: d :: body ∧ is_hex d = true ∧
      ∀ c ∈ body, hex_char c = true := by
  unfold hex_literal at h
  split at h
  · rename_i d body
    simp only [Bool.and_eq_true, List.all_eq_true] at h
    exact ⟨d, body, rfl, h.1, h.2⟩
  · exact absurd h (by simp)

theorem decimal_literal_shape (cs : List Char) (h : decimal_literal cs = true) :
    ∃ d body, cs = d :: body ∧ is_number d = true ∧
      ∀ c ∈ body, decimal_char c = true := by
  cases cs with
  | nil => exact absurd h (by simp [decimal_literal])
  | cons d body =>
    simp only [decimal_literal, Bool.and_eq_true, List.all_eq_true] at h
    exact ⟨d, body, rfl, h.1, h.2⟩

/-- A character that ends a literal continues neither kind of literal. -/
theorem boundary_char (c : Char) (h : is_punct c = true ∨ c = ' ') :
    decimal_char c = false ∧ hex_char c = false ∧ c ≠ 'x' := by
  rcases h with h | h
  · rcases is_punct_cases c h with h | h | h | h | h | h | h <;> subst h <;> decide
  · subst h; decide

theorem decimal_token (d : Char) (body : List Char)
    (hbody : ∀ c ∈ body, decimal_char c = true) :
    Lexeme.token (.literal (d :: body)) = ⟨Token_type.number, atof (d :: body)⟩ := by
  have hval : literal_value (d :: body) = atof (d :: body) := by
    unfold literal_value
    split
    · rename_i digits heq
      have hb : body = 'x' :: digits := (List.cons.inj heq).2
      have := hbody 'x' (by rw [hb]; exact List.mem_cons_self _ _)
      exact absurd this (by decide)
    · rfl
  rw [Lexeme.token, hval]

/-- A numeric literal in front of a punctuation character, a space or the
end of the input becomes one Number token. -/
theorem spec_scan_literal (junk : Nat → Token) (cs : List Char)
    (hv : (decimal_literal cs || hex_literal cs) = true) (fuel pos : Nat)
    (rest : List Char) (acc : List Token)
    (hb : ∀ c, rest.head? = some c → is_punct c = true ∨ c = ' ')
    (h : (cs ++ rest).length < fuel) :
    ∃ fuel' pos', rest.length < fuel' ∧
      spec_scan junk fuel pos (cs ++ rest) acc =
        spec_scan junk fuel' pos' rest (acc ++ [Lexeme.token (.literal cs)]) := by
  cases fuel with
  | zero => omega
  | succ f =>
    rcases Bool.or_eq_true _ _ ▸ hv with hd | hx
    · obtain ⟨d, body, rfl, hd1, hd2⟩ := decimal_literal_shape cs hd
      obtain ⟨h1, h2, h3, h4, h5, h6, h7, h8⟩ := is_number_not_punct d hd1
      have hnx : ¬ (d = '0' ∧ (body ++ rest).head? = some 'x') := by
        rintro ⟨_, hx⟩
        cases body with
        | nil => exact (boundary_char 'x' (hb 'x' (by simpa using hx))).2.2 rfl
        | cons b bs =>
          have hb' : b = 'x' := by simpa using hx
          have := hd2 b (List.mem_cons_self _ _)
          rw [hb'] at this
          exact absurd this (by decide)
      obtain ⟨ht, hdr⟩ := takeWhile_boundary decimal_char body rest hd2
        (fun c hc => (boundary_char c (hb c hc)).1)
      refine ⟨f, pos + (d :: body).length, ?_, ?_⟩
      · simp only [List.length_append, List.length_cons] at h; omega
      · rw [List.cons_append, spec_scan, if_neg h1, if_neg h2, if_neg h3, if_neg h4, if_neg h5,
          if_neg h6, if_neg h7, if_neg h8, if_neg hnx, if_pos hd1]
        simp only [ht, hdr]
        rw [decimal_token d body hd2]
    · obtain ⟨d, body, rfl, hd1, hd2⟩ := hex_literal_shape cs hx
      obtain ⟨ht, hdr⟩ := takeWhile_boundary hex_char body rest hd2
        (fun c hc => (boundary_char c (hb c hc)).2.1)
      refine ⟨f, pos + 2 + (d :: body).length, ?_, ?_⟩
      · simp only [List.length_append, List.length_cons] at h; omega
      · rw [List.cons_append, List.cons_append, List.cons_append, spec_scan]
        simp only [Char.reduceEq, if_false]
        rw [if_pos (by simp), List.tail_cons]
        simp only [hd1, if_true, ht, hdr]
        rfl

/-- What stands behind a literal of a separated sequence: a space, a
punctuation character, or nothing. -/
theorem render_boundary (gap : Nat → Nat) (i : Nat) (ls : List Lexeme)
    (hvalid : ∀ l ∈ ls, l.valid = true)
    (hlit : ∀ cs rest, ls ≠ Lexeme.literal cs :: rest) :
    ∀ c, (render gap i ls).head? = some c → is_punct c = true ∨ c = ' ' := by
  intro c hc
  cases hg : gap i with
  | succ k =>
    right
    cases ls <;> simp [render, hg, List.replicate_succ] at hc <;> exact hc.symm
  | zero =>
    cases ls with
    | nil => simp [render, hg] at hc
    | cons l rest =>
      cases l with
      | punct p =>
        left
        have hp : is_punct p = true := hvalid _ (List.mem_cons_self _ _)
        simp [render, hg, Lexeme.chars] at hc
        rw [← hc]; exact hp
      | literal cs => exact absurd rfl (hlit cs rest)

theorem separated_tail (l : Lexeme) (ls : List Lexeme) (h : separated (l :: ls) = true) :
    separated ls = true := by
  cases l with
  | punct c => simpa [separated] using h
  | literal cs =>
    cases ls with
    | nil => rfl
    | cons l2 rest =>
      cases l2 with
      | punct c => simpa [separated] using h
      | literal cs2 => simp [separated] at h

/-- The scanning rules on a spaced sequence of lexemes: one token per
lexeme, in order, whatever the spacing. -/
theorem spec_scan_render (junk : Nat → Token) (gap : Nat → Nat) :
    ∀ (ls : List Lexeme) (i fuel pos : Nat) (acc : List Token),
      (∀ l ∈ ls, l.valid = true) → separated ls = true →
      (render gap i ls).length < fuel →
      ∃ ts, spec_scan junk fuel pos (render gap i ls) acc = Result.ok (acc ++ ts, false) ∧
        ts.map Token.read = ls.map Lexeme.token := by
  intro ls
  induction ls with
  | nil =>
    intro i fuel pos acc _ _ h
    obtain ⟨fuel', pos', h1, h2⟩ := spec_scan_spaces junk (gap i) fuel pos [] acc
      (by simpa [render] using h)
    refine ⟨[], ?_, rfl⟩
    rw [render, ← List.append_nil (List.replicate (gap i) ' '), h2]
    cases fuel' with
    | zero => simp at h1
    | succ f => simp [spec_scan]
  | cons l ls ih =>
    intro i fuel pos acc hvalid hsep h
    have hvalid' : ∀ l' ∈ ls, l'.valid = true := fun l' hl' =>
      hvalid l' (List.mem_cons_of_mem _ hl')
    have hsep' := separated_tail l ls hsep
    rw [render] at h ⊢
    obtain ⟨fuel1, pos1, h1, h2⟩ := spec_scan_spaces junk (gap i) fuel pos
      (l.chars ++ render gap (i + 1) ls) acc h
    rw [h2]
    have hstep : ∃ fuel2 pos2 t, (render gap (i + 1) ls).length < fuel2 ∧
        Token.read t = l.token ∧
        spec_scan junk fuel1 pos1 (l.chars ++ render gap (i + 1) ls) acc =
          spec_scan junk fuel2 pos2 (render gap (i + 1) ls) (acc ++ [t]) := by
      cases l with
      | punct c =>
        exact spec_scan_punct junk c (hvalid _ (List.mem_cons_self _ _)) fuel1 pos1 _ acc h1
      | literal cs =>
        have hb := render_boundary gap (i + 1) ls hvalid' (by
          intro cs2 rest hls
          rw [hls] at hsep
          simp [separated] at hsep)
        obtain ⟨fuel2, pos2, h3, h4⟩ := spec_scan_literal junk cs
          (hvalid _ (List.mem_cons_self _ _)) fuel1 pos1 _ acc hb h1
        exact ⟨fuel2, pos2, _, h3, Token.read_number _ rfl, h4⟩
    obtain ⟨fuel2, pos2, t, h3, h4, h5⟩ := hstep
    obtain ⟨ts, h6, h7⟩ := ih (i + 1) fuel2 pos2 (acc ++ [t]) hvalid' hsep' h3
    refine ⟨t :: ts, ?_, ?_⟩
    · rw [h5, h6, List.append_assoc]; rfl
    · rw [List.map_cons, List.map_cons, h4, h7]

/-- Lexing a spaced sequence of lexemes gives one token per lexeme. -/
theorem Lexer.ctor_render (junk : Nat → Token) (gap : Nat → Nat) (ls : List Lexeme)
    (hvalid : ∀ l ∈ ls, l.valid = true) (hsep : separated ls = true) :
    ∃ ts, Lexer.ctor_tokens junk (render gap 0 ls) = Result.ok (ts, false) ∧
      ts.map Token.read = ls.map Lexeme.token := by
  obtain ⟨ts, h1, h2⟩ := spec_scan_render junk gap ls 0 ((render gap 0 ls).length + 1) 0 []
    hvalid hsep (by omega)
  exact ⟨ts, by rw [Lexer.ctor_refines, spec_tokens, h1]; rfl, h2⟩

theorem kinds_separated_cons (k : Token_type) (ks : List Token_type)
    (hk : k ≠ Token_type.number) (h : kinds_separated ks = true) :
    kinds_separated (k :: ks) = true := by
  cases ks with
  | nil => cases k <;> rfl
  | cons k2 rest => cases k <;> first | exact absurd rfl hk | simpa [kinds_separated] using h

theorem kinds_separated_append (A B : List Token_type) (hA : kinds_separated A = true)
    (hB : kinds_separated B = true) (hhead : B.head? ≠ some Token_type.number) :
    kinds_separated (A ++ B) = true := by
  induction A with
  | nil => exact hB
  | cons a as ih =>
    cases as with
    | nil =>
      cases B with
      | nil => exact hA
      | cons b bs =>
        have hb : b ≠ Token_type.number := by simpa using hhead
        cases a <;> cases b <;>
          first
            | exact absurd rfl hb
            | simpa [kinds_separated] using hB
    | cons a2 rest =>
      by_cases h : a = Token_type.number ∧ a2 = Token_type.number
      · obtain ⟨rfl, rfl⟩ := h
        simp [kinds_separated] at hA
      · have htail : kinds_separated (a2 :: rest) = true := by
          cases a <;> cases a2 <;> simp_all [kinds_separated]
        have := ih htail
        cases a <;> cases a2 <;> simp_all [kinds_separated]

theorem itemsTokens_head (L : List Item) :
    ((itemsTokens L).map Token.type).head? ≠ some Token_type.number := by
  cases L with
  | nil => simp [itemsTokens]
  | cons x xs =>
    obtain ⟨op, j, v⟩ := x
    cases op <;> simp [itemsTokens, BinOp.type]

theorem itemsTokens_separated (L : List Item)
    (h : ∀ x ∈ L, kinds_separated (x.2.2.tokens.map Token.type) = true) :
    kinds_separated ((itemsTokens L).map Token.type) = true := by
  induction L with
  | nil => rfl
  | cons x xs ih =>
    obtain ⟨op, j, v⟩ := x
    have hv := h (op, j, v) (List.mem_cons_self _ _)
    have hxs := ih (fun y hy => h y (List.mem_cons_of_mem _ hy))
    rw [itemsTokens, List.map_cons, List.map_append]
    exact kinds_separated_cons _ _ (by cases op <;> simp [BinOp.type])
      (kinds_separated_append _ _ hv hxs (itemsTokens_head xs))

/-- In the tokens of a `value` derivation no two Number tokens are adjacent. -/
theorem Val.tokens_separated : ∀ (n : Nat) (v : Val), v.size ≤ n →
    kinds_separated (v.tokens.map Token.type) = true := by
  intro n
  induction n with
  | zero => intro v hv; cases v <;> simp [Val.size] at hv
  | succ n ih =>
    intro v hv
    cases v with
    | num q => rfl
    | neg j q => rfl
    | paren j1 f r j2 =>
      simp only [Val.size] at hv
      have hf := ih f (by omega)
      have hr := itemsTokens_separated r
        (fun x hx => ih x.2.2 (by have := itemsSize_mem r x hx; omega))
      rw [Val.tokens, List.map_cons, List.map_append, List.map_append]
      refine kinds_separated_cons _ _ (by simp) (kinds_separated_append _ _ hf
        (kinds_separated_append _ _ hr rfl (by simp)) ?_)
      cases hL : (itemsTokens r).map Token.type with
      | nil => simp
      | cons k ks =>
        have := itemsTokens_head r
        rw [hL] at this
        simpa using this

/-- In an expression of the grammar two numeric literals are never adjacent:
a sequence of lexemes that spells one is separated. -/
theorem grammatical_separated (first : Val) (rest : List Item) :
    ∀ (ls : List Lexeme),
      ls.map (fun l => l.token.type) = (exprTokens first rest).map Token.type →
      separated ls = true := by
  have hk : kinds_separated ((exprTokens first rest).map Token.type) = true := by
    rw [exprTokens, List.map_append]
    exact kinds_separated_append _ _ (Val.tokens_separated _ first (le_refl _))
      (itemsTokens_separated rest (fun x _ => Val.tokens_separated _ x.2.2 (le_refl _)))
      (itemsTokens_head rest)
  intro ls h
  rw [← h] at hk
  clear h
  induction ls with
  | nil => rfl
  | cons l ls ih =>
    cases l with
    | punct c =>
      rw [separated]
      · apply ih
        cases hls : ls.map (fun l => l.token.type) with
        | nil => rfl
        | cons k ks =>
          rw [List.map_cons, hls] at hk
          cases hp : (Lexeme.punct c).token.type <;> rw [hp] at hk <;>
            cases k <;> simp_all [kinds_separated]
      · intro cs cs2 rest2 hc
        cases hc
    | literal cs =>
      cases ls with
      | nil => rfl
      | cons l2 rest2 =>
        cases l2 with
        | punct c =>
          rw [separated]
          · apply ih
            rw [List.map_cons, List.map_cons] at hk
            have : (Lexeme.literal cs).token.type = Token_type.number := rfl
            rw [this] at hk
            cases hp : (Lexeme.punct c).token.type <;> rw [hp] at hk <;>
              simp_all [kinds_separated]
          · intro _ _ _ _ hc
            cases hc
        | literal cs2 =>
          exact absurd hk (by simp [kinds_separated, Lexeme.token])

/-- C14: whitespace between tokens is insignificant.  For every sequence of
well-formed lexemes in which no two numeric literals are adjacent (as in
every expression of the grammar, see `grammatical_separated`) and for any
two spacings of it, the lexer returns on
both strings without the hex diagnostic, the two token vectors agree in
every kind and in every Number value (the `value` of the other tokens is
never assigned), the parser builds the same tree with the same error flag,
and `calculate` gives the same output. -/
theorem whitespace_is_insignificant (pow : ℚ → ℚ → Option ℚ) (junk1 junk2 : Nat → Token)
    (fuel : Nat) (gap1 gap2 : Nat → Nat) (ls : List Lexeme)
    (hvalid : ∀ l ∈ ls, l.valid = true) (hsep : separated ls = true) :
    ∃ ts1 ts2,
      Lexer.ctor_tokens junk1 (render gap1 0 ls) = Result.ok (ts1, false) ∧
      Lexer.ctor_tokens junk2 (render gap2 0 ls) = Result.ok (ts2, false) ∧
      ts1.map Token.read = ts2.map Token.read ∧
      (Parser.ctor fuel ts1 >>= fun r => Result.ok (r.1, r.2.error)) =
        (Parser.ctor fuel ts2 >>= fun r => Result.ok (r.1, r.2.error)) ∧
      calculate pow junk1 fuel (render gap1 0 ls) =
        calculate pow junk2 fuel (render gap2 0 ls) := by
  obtain ⟨ts1, h1, h1'⟩ := Lexer.ctor_render junk1 gap1 ls hvalid hsep
  obtain ⟨ts2, h2, h2'⟩ := Lexer.ctor_render junk2 gap2 ls hvalid hsep
  have h : ts1.map Token.read = ts2.map Token.read := by rw [h1', h2']
  exact ⟨ts1, ts2, h1, h2, h, Parser.ctor_congr fuel ts1 ts2 h,
    calculate_congr pow junk1 junk2 fuel _ _ ts1 ts2 false false h1 h2 h⟩

/-- The strings ` 2 + 5 ` and `2+5`. -/
theorem whitespace_is_insignificant_witness :
    ((∀ l ∈ [Lexeme.literal ['2'], Lexeme.punct '+', Lexeme.literal ['5']],
        l.valid = true) ∧
      separated [Lexeme.literal ['2'], Lexeme.punct '+', Lexeme.literal ['5']] = true) ∧
    ∃ ts1 ts2,
      Lexer.ctor_tokens (fun _ => ⟨Token_type.none, 0⟩)
          (render (fun _ => 1) 0
            [Lexeme.literal ['2'], Lexeme.punct '+', Lexeme.literal ['5']]) =
        Result.ok (ts1, false) ∧
      Lexer.ctor_tokens (fun _ => ⟨Token_type.none, 0⟩)
          (render (fun _ => 0) 0
            [Lexeme.literal ['2'], Lexeme.punct '+', Lexeme.literal ['5']]) =
        Result.ok (ts2, false) ∧
      ts1.map Token.read = ts2.map Token.read ∧
      (Parser.ctor 5 ts1 >>= fun r => Result.ok (r.1, r.2.error)) =
        (Parser.ctor 5 ts2 >>= fun r => Result.ok (r.1, r.2.error)) ∧
      calculate (fun _ _ => Option.none) (fun _ => ⟨Token_type.none, 0⟩) 5
          (render (fun _ => 1) 0
            [Lexeme.literal ['2'], Lexeme.punct '+', Lexeme.literal ['5']]) =
        calculate (fun _ _ => Option.none) (fun _ => ⟨Token_type.none, 0⟩) 5
          (render (fun _ => 0) 0
            [Lexeme.literal ['2'], Lexeme.punct '+', Lexeme.literal ['5']]) :=
  ⟨⟨by decide, by decide⟩,
    whitespace_is_insignificant (fun _ _ => Option.none) (fun _ => ⟨Token_type.none, 0⟩)
      (fun _ => ⟨Token_type.none, 0⟩) 5 (fun _ => 1) (fun _ => 0)
      [Lexeme.literal ['2'], Lexeme.punct '+', Lexeme.literal ['5']] (by decide) (by decide)⟩

/-- A string of spaces lexes to no token. -/
theorem Lexer.ctor_spaces (junk : Nat → Token) (k : Nat) :
    Lexer.ctor_tokens junk (List.replicate k ' ') = Result.ok ([], false) := by
  obtain ⟨ts, h1, h2⟩ := Lexer.ctor_render junk (fun _ => k) [] (by simp) rfl
  have hts : ts = [] := by simpa using h2
  rw [hts] at h1
  exact h1

/-- C17 (what the code does): on an input that lexes to no token at all
(the empty string and every string of spaces, `0x` alone) the constructor of
the parser reads `tokens.at(0)` of the empty vector, which throws
`std::out_of_range`; no error flag is set and nothing catches it. -/
theorem empty_token_sequence_throws (pow : ℚ → ℚ → Option ℚ) (junk : Nat → Token)
    (fuel : Nat) :
    Parser.ctor fuel [] = Result.out_of_range ∧
      (∀ k : Nat, Lexer.ctor_tokens junk (List.replicate k ' ') = Result.ok ([], false) ∧
        calculate pow junk fuel (List.replicate k ' ') = Result.out_of_range) ∧
      Lexer.ctor_tokens junk ['0', 'x'] = Result.ok ([], true) ∧
      calculate pow junk fuel ['0', 'x'] = Result.out_of_range := by
  have h3 : Lexer.ctor_tokens junk ['0', 'x'] = Result.ok ([], true) := by
    rw [Lexer.ctor_refines]
    rfl
  refine ⟨rfl, fun k => ⟨Lexer.ctor_spaces junk k, ?_⟩, h3, ?_⟩
  · rw [calculate_eq, Lexer.ctor_spaces]
    rfl
  · rw [calculate_eq, h3]
    rfl

end Calc
